import Mathlib

/-!
Verification of the associative-container core of the Virtools SDK
(growable arrays `XArray`/`XClassArray` in XArray.h / XClassArray.h,
the pool-backed chained hash table `XHashTable` in XHashTable.h, and
the open-addressing hash table `XSHashTable` in CKStateChunk.h).

The C++ templates are embedded shallowly: keys and stored values are
`Nat`, the hash functor `H` is an explicit function argument
`hash : Nat → Nat`, and the equality functor `Eq` is equality on `Nat`.
Pointers into the entry pool are represented by pool indices (the pool
is a single contiguous allocation, so addresses and indices are in
bijection); the null pointer is `Option.none`.  C `int` counters that
are never negative in the modelled operations are `Nat`.
-/

namespace VT

/-- Element-level model shared by `XArray::FastRemove` (XArray.h:684) and
`XClassArray::FastRemove` (XClassArray.h:435): if the iterator is in range,
decrement the end cursor and, unless the removed slot was the last one,
copy the old last element into the removed slot. -/
def XArray.FastRemove {α : Type} (a : List α) (i : Nat) : List α :=
  match a.getLast? with
  | none => a
  | some last =>
    if i < a.length then
      if i < a.length - 1 then (a.set i last).take (a.length - 1)
      else a.take (a.length - 1)
    else a

/-- `XClassArray::FastRemove` (XClassArray.h:435); the body is the same
pointer manipulation as `XArray::FastRemove` (`m_End--` then conditional
`*iT = *m_End`). -/
def XClassArray.FastRemove {α : Type} (a : List α) (i : Nat) : List α :=
  match a.getLast? with
  | none => a
  | some last =>
    if i < a.length then
      if i < a.length - 1 then (a.set i last).take (a.length - 1)
      else a.take (a.length - 1)
    else a

/-! ## Open-addressing hash table `XSHashTable` (CKStateChunk.h:927) -/

namespace XS

/-- CKStateChunk.h:409. -/
def STATUS_FREE : Nat := 0
/-- CKStateChunk.h:411. -/
def STATUS_OCCUPIED : Nat := 1
/-- CKStateChunk.h:413. -/
def STATUS_DELETED : Nat := 2

/-- `XSHashTableEntry` (CKStateChunk.h:427): key, data and tri-state status.
The default constructor leaves key/data default and status `STATUS_FREE`. -/
structure SEntry where
  key : Nat
  data : Nat
  status : Nat
deriving DecidableEq

instance : Inhabited SEntry := ⟨⟨0, 0, STATUS_FREE⟩⟩

/-- `XSHashTable` state: the slot array `m_Table` plus the three counters
(CKStateChunk.h:1671-1678).  `m_LoadFactor` is the default `0.75f`, under
which the C expression `(int)(m_Table.Size() * m_LoadFactor)` computes
exactly `3 * size / 4` (the product is an exactly representable float). -/
structure STable where
  table : List SEntry
  count : Nat
  occupation : Nat
  threshold : Nat
deriving DecidableEq

/-- `XSHashTable::XIndex` (CKStateChunk.h:1592): `key & (size - 1)`. -/
def XIndex (h size : Nat) : Nat := h &&& (size - 1)

/-- The probing loop of `XSHashTable::XFindPos` (CKStateChunk.h:1651):
advance while the slot is Occupied and its key differs, wrapping at the end;
stop with the current index at the first non-Occupied slot or key match.
The C loop returns -1 (modelled `none`) when the probe wraps all the way
around, which takes exactly `size` slot inspections; `fuel` starts at
`size`. -/
def XFindPosLoop (t : List SEntry) (k : Nat) : Nat → Nat → Option Nat
  | 0, _ => none
  | fuel+1, index =>
    let e := t.getD index default
    if e.status = STATUS_OCCUPIED then
      if e.key = k then some index
      else
        let index1 := index + 1
        XFindPosLoop t k fuel (if index1 = t.length then 0 else index1)
    else some index

/-- `XSHashTable::XFindPos` (CKStateChunk.h:1651). -/
def XFindPos (s : STable) (hash : Nat → Nat) (k : Nat) : Option Nat :=
  XFindPosLoop s.table k s.table.length (XIndex (hash k) s.table.length)

/-- `XSHashTable::XFindIndex` (CKStateChunk.h:1634): position of the key's
slot if that slot is Occupied, else null. -/
def XFindIndex (s : STable) (hash : Nat → Nat) (k : Nat) : Option Nat :=
  match XFindPos s hash k with
  | none => none
  | some index =>
    if (s.table.getD index default).status = STATUS_OCCUPIED then some index
    else none

/-- Value reached through `XSHashTable::Find` / `FindPtr` / `LookUp`
(CKStateChunk.h:1427,1437,1452): the data of the entry `XFindIndex` finds. -/
def FindData (s : STable) (hash : Nat → Nat) (k : Nat) : Option Nat :=
  (XFindIndex s hash k).map fun i => (s.table.getD i default).data

/-- `XSHashTable::Size` (CKStateChunk.h:1545): `m_Count`. -/
def Size (s : STable) : Nat := s.count

/-- The body of `XSHashTable::Insert` (CKStateChunk.h:1089) up to but not
including the final rehash test: probe, update the counters (both bumped
from Free, only Count from Deleted, neither from Occupied), write the
slot via `Set` unless an Occupied slot is hit without `override`.
`none` models the undefined behaviour of indexing with -1 after a
full-wrap probe miss. -/
def XPut (s : STable) (hash : Nat → Nat) (k d : Nat) (ovr : Bool) :
    Option (STable × Bool) :=
  match XFindPos s hash k with
  | none => none
  | some index =>
    let e := s.table.getD index default
    if e.status = STATUS_OCCUPIED then
      if ovr then
        some ({ s with table := s.table.set index ⟨k, d, STATUS_OCCUPIED⟩ }, true)
      else
        some (s, false)
    else
      let s1 :=
        if e.status ≠ STATUS_DELETED then
          { s with count := s.count + 1, occupation := s.occupation + 1 }
        else
          { s with count := s.count + 1 }
      some ({ s1 with table := s1.table.set index ⟨k, d, STATUS_OCCUPIED⟩ }, true)

/-- `XSHashTable::Rehash` (CKStateChunk.h:1561): fresh slot array of the
requested size, counters reset, threshold recomputed, and every Occupied
slot of the old array re-inserted in index order through the full
`Insert(key, data, TRUE)`: after each re-insertion the put, the rehash
test `m_Occupation < m_Threshold` and, on failure, a nested `Rehash` to
twice the current size all run, exactly as in the C loop (on a size-1
old table the first re-insertion immediately nest-rehashes 2 → 4).  The
C recursion on the table size is modelled with explicit fuel bounding
the nesting depth (each level doubles the size, so a depth at which
`3·size/4` exceeds the entry count is always reached); exhausted fuel
and the full-wrap probe miss (undefined behaviour in C) yield `none`. -/
def RehashFuel (hash : Nat → Nat) : Nat → STable → Nat → Option STable
  | 0, _, _ => none
  | fuel+1, s, size =>
    (List.range s.table.length).foldl
      (fun acc i =>
        acc.bind fun t =>
          if (s.table.getD i default).status = STATUS_OCCUPIED then
            match XPut t hash (s.table.getD i default).key
                (s.table.getD i default).data true with
            | none => none
            | some (t1, r) =>
              if r then
                if t1.occupation < t1.threshold then some t1
                else RehashFuel hash fuel t1 (t1.table.length * 2)
              else some t1
          else some t)
      (some { table := List.replicate size default, count := 0,
              occupation := 0, threshold := 3 * size / 4 })

/-- `XSHashTable::Insert` (CKStateChunk.h:1089): `XPut`, then on the
paths that wrote the slot (result TRUE) the rehash test
`m_Occupation < m_Threshold`, doubling the table on failure.  The rehash
fuel `s1.count + 2` bounds the nesting depth; it is ample because the
depth needed never exceeds `log₂` of the entry count
(`XS_RehashFuel_spec` below). -/
def Insert (s : STable) (hash : Nat → Nat) (k d : Nat) (ovr : Bool) :
    Option (STable × Bool) :=
  match XPut s hash k d ovr with
  | none => none
  | some (s1, r) =>
    if r then
      if s1.occupation < s1.threshold then some (s1, r)
      else (RehashFuel hash (s1.count + 2) s1 (s1.table.length * 2)).map
        (fun t => (t, r))
    else some (s1, r)

/-- `XSHashTable::InsertUnique` (CKStateChunk.h:1169) with explicit fuel
for its rehash-and-retry recursion: probe; an Occupied hit returns with no
change; otherwise bump the counters (`++m_Occupation; ++m_Count` from Free,
`++m_Count` from Deleted), then test `m_Count >= m_Threshold`: on failure
write the slot, on success rehash (which resets the counters) and retry. -/
def InsertUniqueFuel (hash : Nat → Nat) (k d : Nat) :
    Nat → STable → Option STable
  | 0, _ => none
  | fuel+1, s =>
    match XFindPos s hash k with
    | none => none
    | some index =>
      let e := s.table.getD index default
      if e.status = STATUS_OCCUPIED then some s
      else
        let s1 :=
          if e.status ≠ STATUS_DELETED then
            { s with count := s.count + 1, occupation := s.occupation + 1 }
          else
            { s with count := s.count + 1 }
        if s1.threshold ≤ s1.count then
          (RehashFuel hash (s1.count + 2) s1 (s1.table.length * 2)).bind
            (InsertUniqueFuel hash k d fuel)
        else
          some { s1 with table := s1.table.set index ⟨k, d, STATUS_OCCUPIED⟩ }

/-- `XSHashTable::InsertUnique` (CKStateChunk.h:1169).  The C recursion
terminates because each rehash doubles the size and hence the threshold
while `m_Count` is bounded by the number of occupied slots; the fuel
`s.count + 2` is ample for every state this development evaluates. -/
def InsertUnique (s : STable) (hash : Nat → Nat) (k d : Nat) : Option STable :=
  InsertUniqueFuel hash k d (s.count + 2) s

/-- `XSHashTable::Remove(key)` (CKStateChunk.h:1346): probe; if the slot is
Occupied mark it Deleted (key/data untouched) and decrement Count; else no
change.  `none` models the undefined indexing with -1. -/
def Remove (s : STable) (hash : Nat → Nat) (k : Nat) : Option STable :=
  match XFindPos s hash k with
  | none => none
  | some index =>
    let e := s.table.getD index default
    if e.status = STATUS_OCCUPIED then
      some { s with table := s.table.set index { e with status := STATUS_DELETED },
                    count := s.count - 1 }
    else some s

/-- `XSHashTable::Clear` (CKStateChunk.h:1020): mark every slot Free and
zero both counters; the slot array itself is kept. -/
def Clear (s : STable) : STable :=
  { s with table := s.table.map fun e => { e with status := STATUS_FREE },
           count := 0, occupation := 0 }

/-- `XSHashTable::operator[]` (CKStateChunk.h:1393): probe; if the slot is
not Occupied, bump the counters as `Insert` does and mark it Occupied with
the key (the data field is left for the caller's reference to assign); then
the rehash test.  Returns the post-state and the index of the slot whose
data the C reference designates. -/
def OpIndex (s : STable) (hash : Nat → Nat) (k : Nat) : Option (STable × Nat) :=
  match XFindPos s hash k with
  | none => none
  | some index =>
    let e := s.table.getD index default
    let s1 :=
      if e.status = STATUS_OCCUPIED then s
      else
        let s0 :=
          if e.status ≠ STATUS_DELETED then
            { s with count := s.count + 1, occupation := s.occupation + 1 }
          else
            { s with count := s.count + 1 }
        { s0 with table :=
            s0.table.set index { e with status := STATUS_OCCUPIED, key := k } }
    if s1.occupation < s1.threshold then some (s1, index)
    else
      match RehashFuel hash (s1.count + 2) s1 (s1.table.length * 2) with
      | none => none
      | some s2 =>
        match XFindPos s2 hash k with
        | none => none
        | some index2 => some (s2, index2)

/-- The halving loop of the `XSHashTable` constructor (CKStateChunk.h:961):
`while (initialize) { initialize >>= 1; dec++; }` — counts how many right
shifts empty the hint.  Structural fuel (`n` itself bounds the iteration
count) keeps the definition kernel-reducible. -/
def ctorBitsFuel : Nat → Nat → Nat
  | 0, _ => 0
  | fuel+1, n => if n = 0 then 0 else ctorBitsFuel fuel (n / 2) + 1

/-- Number of iterations of the constructor's halving loop on hint `n`,
i.e. the bit length of `n`; the loop variable `dec` ends at
`ctorBits n - 1`. -/
def ctorBits (n : Nat) : Nat := ctorBitsFuel n n

/-- The table-size computation of the `XSHashTable` constructor
(CKStateChunk.h:959): the halving loop leaves `dec = ⌊log₂ n⌋` and the
size becomes `1 << dec`, i.e. the *largest* power of two `≤ n`; a hint
of zero leaves `dec = -1` and the size becomes 1. -/
def ctorSize (n : Nat) : Nat := if n = 0 then 1 else 2 ^ (ctorBits n - 1)

/-- The `XSHashTable` constructor (CKStateChunk.h:959) with the default
load factor 0.75: `ctorSize` Free slots, zero counters, threshold
`(int)(size * 0.75f) = 3 * size / 4`. -/
def mkSTable (n : Nat) : STable :=
  { table := List.replicate (ctorSize n) default, count := 0, occupation := 0,
    threshold := 3 * ctorSize n / 4 }

/-- Driver: thread a state through `Insert`, keeping only the state. -/
def insertB (hash : Nat → Nat) (k d : Nat) (ovr : Bool) (s : Option STable) :
    Option STable :=
  s.bind fun t => (Insert t hash k d ovr).map Prod.fst

/-- Driver: thread a state through `Remove`. -/
def removeB (hash : Nat → Nat) (k : Nat) (s : Option STable) : Option STable :=
  s.bind fun t => Remove t hash k

/-- Driver: thread a state through `InsertUnique`. -/
def insertUB (hash : Nat → Nat) (k d : Nat) (s : Option STable) : Option STable :=
  s.bind fun t => InsertUnique t hash k d

end XS

/-! ## Chained hash table `XHashTable` (XHashTable.h:489) -/

namespace XC

/-- `XHashTableEntry` (XHashTable.h:34): key, data and the chain link
`m_Next`, modelled as an optional pool index (`none` is the null
pointer). -/
structure CEntry where
  key : Nat
  data : Nat
  next : Option Nat
deriving DecidableEq

instance : Inhabited CEntry := ⟨⟨0, 0, none⟩⟩

/-- `XHashTable` state: the bucket array `m_Table` of chain heads, the
entry pool `m_Pool`, and the pool's allocated capacity
(`m_Pool.Allocated()`), which drives the rehash decision. -/
structure CTable where
  table : List (Option Nat)
  pool : List CEntry
  poolAlloc : Nat
deriving DecidableEq

/-- `XHashTable::XIndex` (XHashTable.h:1328): `key & (size - 1)`. -/
def XIndex (h size : Nat) : Nat := h &&& (size - 1)

/-- `XHashTable::Index` (XHashTable.h:1222). -/
def IndexK (c : CTable) (hash : Nat → Nat) (k : Nat) : Nat :=
  XIndex (hash k) c.table.length

/-- The chain walk of `XHashTable::XFind` (XHashTable.h:1392):
`for (e = head; e != 0; e = e->m_Next) if (e->m_Key == key) return e`.
Fuel bounds the walk (the pool size suffices for any well-formed table);
a dangling index or exhausted fuel — both unreachable from well-formed
states — yield `none` like a miss. -/
def XFindLoop (pool : List CEntry) (k : Nat) : Nat → Option Nat → Option Nat
  | _, none => none
  | 0, some _ => none
  | fuel+1, some i =>
    match pool[i]? with
    | none => none
    | some e => if e.key = k then some i else XFindLoop pool k fuel e.next

/-- `XHashTable::XFind` (XHashTable.h:1392). -/
def XFind (c : CTable) (k : Nat) (index : Nat) : Option Nat :=
  XFindLoop c.pool k c.pool.length (c.table.getD index none)

/-- `XHashTable::XFindIndex` (XHashTable.h:1380). -/
def XFindIndex (c : CTable) (hash : Nat → Nat) (k : Nat) : Option Nat :=
  XFind c k (IndexK c hash k)

/-- Value reached through `XHashTable::Find` / `FindPtr` / `LookUp`
(XHashTable.h:1104,1124,1139). -/
def FindData (c : CTable) (hash : Nat → Nat) (k : Nat) : Option Nat :=
  (XFindIndex c hash k).map fun i => (c.pool.getD i default).data

/-- `XHashTable::Size` (XHashTable.h:1232): the pool size. -/
def Size (c : CTable) : Nat := c.pool.length

/-- `XHashTable::XInsert` (XHashTable.h:1414): take a fresh entry off the
pool end (`GetFreeEntry`, a `Resize(Size()+1)` bump), fill key/data, link
it in front of the bucket's chain and store it as the new head. -/
def XInsert (c : CTable) (index : Nat) (k o : Nat) : CTable :=
  { c with pool := c.pool ++ [⟨k, o, c.table.getD index none⟩]
           table := c.table.set index (some c.pool.length) }

/-- Overwrite the data of pool entry `i` (`e->m_Data = o`). -/
def setData (pool : List CEntry) (i : Nat) (o : Nat) : List CEntry :=
  pool.set i { pool.getD i default with data := o }

/-- Overwrite the next-link of pool entry `i`. -/
def setNext (pool : List CEntry) (i : Nat) (nx : Option Nat) : List CEntry :=
  pool.set i { pool.getD i default with next := nx }

/-- The per-chain relink loop inside `XHashTable::Rehash`
(XHashTable.h:1301-1317): walk one old chain (reading the *old* pool's
links), and for each entry push its same-position copy in the new pool
onto the recomputed bucket of the new table:
`newe->m_Next = tmp[newindex]; tmp[newindex] = newe`. -/
def RelinkChain (oldPool : List CEntry) (hash : Nat → Nat) (iSize : Nat) :
    Nat → Option Nat → List (Option Nat) × List CEntry →
      List (Option Nat) × List CEntry
  | _, none, st => st
  | 0, some _, st => st
  | fuel+1, some i, st =>
    match oldPool[i]? with
    | none => st
    | some e =>
      let newindex := XIndex (hash e.key) iSize
      let st1 := (st.1.set newindex (some i),
                  setNext st.2 i (st.1.getD newindex none))
      RelinkChain oldPool hash iSize fuel e.next st1

/-- `XHashTable::Rehash` (XHashTable.h:1288): copy the pool preserving
entry positions (`newe = pool.Begin() + (first - m_Pool.Begin())`), build
a zeroed bucket array of `iSize` heads, and relink every chain of every
old bucket by re-deriving each entry's bucket from its key.  The new
pool's capacity is `(int)(iSize * 0.75f) = 3 * iSize / 4`, except that
`XClassArray::operator=` reallocates to exactly the source size when that
capacity would not hold the copied entries. -/
def Rehash (c : CTable) (hash : Nat → Nat) (iSize : Nat) : CTable :=
  let res := (List.range c.table.length).foldl
    (fun st idx =>
      RelinkChain c.pool hash iSize c.pool.length (c.table.getD idx none) st)
    (List.replicate iSize (none : Option Nat), c.pool)
  { table := res.1, pool := res.2
    poolAlloc := max (3 * iSize / 4) c.pool.length }

/-- `XHashTable::Insert(key, o, override)` (XHashTable.h:675) with explicit
fuel for the rehash-and-retry recursion: if the key is on its bucket's
chain, update the data only under `override` (else return FALSE); if the
pool is full (`m_Pool.Size() == m_Pool.Allocated()`), rehash to twice the
bucket count and retry; otherwise `XInsert`.  The C recursion terminates
because each rehash doubles the bucket count and hence eventually the pool
capacity `3 * iSize / 4` exceeds the unchanged pool size. -/
def InsertFuel (hash : Nat → Nat) (k o : Nat) (ovr : Bool) :
    Nat → CTable → Option (CTable × Bool)
  | 0, _ => none
  | fuel+1, c =>
    let index := IndexK c hash k
    match XFind c k index with
    | some i =>
      if ovr then some ({ c with pool := setData c.pool i o }, true)
      else some (c, false)
    | none =>
      if c.pool.length = c.poolAlloc then
        InsertFuel hash k o ovr fuel (Rehash c hash (c.table.length * 2))
      else some (XInsert c index k o, true)

/-- `XHashTable::Insert(key, o, override)` (XHashTable.h:675); the fuel
`c.pool.length + 2` covers every rehash cascade arising in this
development. -/
def Insert (c : CTable) (hash : Nat → Nat) (k o : Nat) (ovr : Bool) :
    Option (CTable × Bool) :=
  InsertFuel hash k o ovr (c.pool.length + 2) c

/-- The chain walk of `XHashTable::Remove(key)` (XHashTable.h:973): find
the first chain entry whose key matches, returning it together with its
chain predecessor (`old`, `none` while still at the bucket head). -/
def RemoveWalk (pool : List CEntry) (k : Nat) :
    Nat → Option Nat → Option Nat → Option (Nat × Option Nat)
  | _, none, _ => none
  | 0, some _, _ => none
  | fuel+1, some i, old =>
    match pool[i]? with
    | none => none
    | some e =>
      if e.key = k then some (i, old)
      else RemoveWalk pool k fuel e.next (some i)

/-- The link-retarget loop of `XHashTable::RematEntry` (XHashTable.h:1463):
`for (n = head; n->m_Next != NULL; n = n->m_Next)
   if (n->m_Next == iOld) { n->m_Next = iNew; break; }`. -/
def RematLoop (pool : List CEntry) (iOld iNew : Nat) :
    Nat → Nat → List CEntry
  | 0, _ => pool
  | fuel+1, nIdx =>
    match (pool.getD nIdx default).next with
    | none => pool
    | some nx =>
      if nx = iOld then setNext pool nIdx (some iNew)
      else RematLoop pool iOld iNew fuel nx

/-- `XHashTable::RematEntry` (XHashTable.h:1452): after the pool compaction
moved the entry at old position `iOld` to position `iNew`, re-derive the
moved entry's bucket from *its own key* and retarget whichever link
(bucket head or a chain entry's next-link) still references `iOld`.
If the recomputed bucket is empty the C code's `XASSERT(m_Table[index])`
fails and the subsequent dereference is undefined; that branch returns
the state unchanged (unreachable from well-formed states). -/
def RematEntry (c : CTable) (hash : Nat → Nat) (iOld iNew : Nat) : CTable :=
  let index := XIndex (hash ((c.pool.getD iNew default).key)) c.table.length
  match c.table.getD index none with
  | none => c
  | some h0 =>
    if h0 = iOld then { c with table := c.table.set index (some iNew) }
    else { c with pool := RematLoop c.pool iOld iNew c.pool.length h0 }

/-- `XHashTable::Remove(key)` (XHashTable.h:966): locate the entry and its
chain predecessor; unlink it (retarget the predecessor's next-link or the
bucket head to the entry's next); if the pool's last entry points at the
victim, retarget that link to the victim's next *before* the compaction
copy; `FastRemove` the victim from the pool (the old last entry is copied
into its slot unless the victim was last); if an entry really moved,
`RematEntry` repairs the one link that referenced the old last slot. -/
def Remove (c : CTable) (hash : Nat → Nat) (k : Nat) : CTable :=
  let index := IndexK c hash k
  match RemoveWalk c.pool k c.pool.length (c.table.getD index none) none with
  | none => c
  | some (i, old) =>
    let enext := (c.pool.getD i default).next
    let c1 :=
      match old with
      | some p => { c with pool := setNext c.pool p enext }
      | none => { c with table := c.table.set index enext }
    let lastIdx := c1.pool.length - 1
    let c2 :=
      if 0 < c1.pool.length ∧ lastIdx ≠ i ∧
          (c1.pool.getD lastIdx default).next = some i then
        { c1 with pool := setNext c1.pool lastIdx ((c1.pool.getD i default).next) }
      else c1
    let c3 := { c2 with pool := XClassArray.FastRemove c2.pool i }
    if i ≠ c3.pool.length then RematEntry c3 hash lastIdx i else c3

/-- The tail of `XHashTable::Remove(key)` (XHashTable.h:992-1005) once the
victim `i` has been unlinked from its chain (state `c1`): the pre-copy
fix-up of the old last entry's next-link, the `FastRemove` compaction, and
the `RematEntry` link repair when an entry really moved.  `Remove` on a
successful walk is exactly this applied to the unlinked state. -/
def RemoveTail (c1 : CTable) (hash : Nat → Nat) (i : Nat) : CTable :=
  let lastIdx := c1.pool.length - 1
  let c2 :=
    if 0 < c1.pool.length ∧ lastIdx ≠ i ∧
        (c1.pool.getD lastIdx default).next = some i then
      { c1 with pool := setNext c1.pool lastIdx ((c1.pool.getD i default).next) }
    else c1
  let c3 := { c2 with pool := XClassArray.FastRemove c2.pool i }
  if i ≠ c3.pool.length then RematEntry c3 hash lastIdx i else c3

/-- `XHashTable::Clear` (XHashTable.h:565): `m_Pool.Resize(0)` (capacity
kept) and `m_Table.Fill(0)`. -/
def Clear (c : CTable) : CTable :=
  { table := List.replicate c.table.length none, pool := []
    poolAlloc := c.poolAlloc }

/-- Modelled from the spec: `Near2Power` (declared in the repository's
XUtil.h, whose implementation is not part of this material) "rounds up to
the next power of two" (spec §6); the doubling loop below returns the
smallest power of two `≥ n` (with fuel `n`, ample since the result is
reached within `log₂ n + 1 ≤ n` doublings for `n ≥ 1`, and a hint of 0
yields 1). -/
def Near2PowerFuel (n : Nat) : Nat → Nat → Nat
  | 0, acc => acc
  | fuel+1, acc => if n ≤ acc then acc else Near2PowerFuel n fuel (2 * acc)

/-- Modelled from the spec: `Near2Power(n)` = the smallest power of two
that is `≥ n`. -/
def Near2Power (n : Nat) : Nat := Near2PowerFuel n n 1

/-- The bucket-count computation of the `XHashTable` constructor
(XHashTable.h:517): `Near2Power(initialize)`, raised to 4 if smaller. -/
def ctorSize (n : Nat) : Nat :=
  let i := Near2Power n
  if i < 4 then 4 else i

/-- The `XHashTable` constructor (XHashTable.h:517): `ctorSize` empty
buckets and a pool of capacity `(int)(size * 0.75f) = 3 * size / 4`. -/
def mkCTable (n : Nat) : CTable :=
  { table := List.replicate (ctorSize n) none, pool := []
    poolAlloc := 3 * ctorSize n / 4 }

/-- Driver: thread a state through `Insert`, keeping only the state. -/
def insertB (hash : Nat → Nat) (k o : Nat) (ovr : Bool) (c : Option CTable) :
    Option CTable :=
  c.bind fun t => (Insert t hash k o ovr).map Prod.fst

/-- Driver: thread a state through `Remove`. -/
def removeB (hash : Nat → Nat) (k : Nat) (c : Option CTable) : Option CTable :=
  c.map fun t => Remove t hash k

/-- The linkage predicate of one bucket chain: consecutive elements are
joined by the pool's next-links and the last element's next-link is null.
(`chainLinked pool (i :: ch)` unfolds to
`(pool.getD i default).next = ch.head? && chainLinked pool ch`.) -/
def chainLinked (pool : List CEntry) : List Nat → Bool
  | [] => true
  | i :: ch =>
    decide ((pool.getD i default).next = ch.head?) && chainLinked pool ch

/-- The head/linkage part of the chain representation: `cs` matches the
bucket count, each bucket head is its chain's first entry, and each chain
is linked through the pool's next-links and null-terminated.  (Used on
its own for the intermediate states of the `Remove` compaction proof.) -/
@[reducible] def WeakRep (c : CTable) (cs : List (List Nat)) : Prop :=
  cs.length = c.table.length ∧
  (∀ b, b < c.table.length → c.table.getD b none = (cs.getD b []).head?) ∧
  (∀ b, b < c.table.length → chainLinked c.pool (cs.getD b []) = true)

/-- The reachability invariant of the chained table (spec §3), with the
chain decomposition `cs` (one list of pool indices per bucket) as an
explicit witness: the head/linkage conditions of `WeakRep`, every pool
index appearing in exactly one chain at one position (the joined chains
are a permutation of `0..poolSize-1`, hence no dangling links, no
self-cycles and no sharing), and every entry sitting in the bucket its
own key hashes to. -/
@[reducible] def ChainsRep (hash : Nat → Nat) (c : CTable) (cs : List (List Nat)) : Prop :=
  WeakRep c cs ∧
  cs.join.Perm (List.range c.pool.length) ∧
  (∀ b, b < c.table.length → ∀ i ∈ cs.getD b [],
    XIndex (hash ((c.pool.getD i default).key)) c.table.length = b)

/-- Proof gadget: `W` is a nonempty walk through the pool's next-links whose
last node links to `o`, with no earlier link to `o` (so `RematLoop`
started at `W`'s head stops exactly at `W`'s last node). -/
def pathLinked (pool : List CEntry) (o : Nat) : List Nat → Bool
  | [] => false
  | [q] => decide ((pool.getD q default).next = some o)
  | a :: b :: W =>
    decide ((pool.getD a default).next = some b) && decide (b ≠ o) &&
      pathLinked pool o (b :: W)

end XC

/-! ## Specification-side model for the insert-sequence equivalence -/

/-- Reference model of one `Insert(key, o, TRUE)` on an association list:
overwrite the value of an existing key in place, else append. -/
def specUpsert (l : List (Nat × Nat)) (k o : Nat) : List (Nat × Nat) :=
  if l.any (fun p => decide (p.1 = k)) then
    l.map (fun p => if p.1 = k then (k, o) else p)
  else l ++ [(k, o)]

/-- Reference lookup: value of the first pair carrying the key. -/
def assocFind (l : List (Nat × Nat)) (k : Nat) : Option Nat :=
  (l.find? (fun p => decide (p.1 = k))).map Prod.snd

/-- The mapping after inserting a whole list of pairs in order. -/
def specRun (L : List (Nat × Nat)) : List (Nat × Nat) :=
  L.foldl (fun m p => specUpsert m p.1 p.2) []

/-- Drive a list of pairs through chained-table `Insert` with override. -/
def XC.runInserts (hash : Nat → Nat) (L : List (Nat × Nat))
    (c0 : XC.CTable) : Option XC.CTable :=
  L.foldl (fun oc p => XC.insertB hash p.1 p.2 true oc) (some c0)

/-- Drive a list of pairs through open-table `Insert` with override. -/
def XS.runInserts (hash : Nat → Nat) (L : List (Nat × Nat))
    (s0 : XS.STable) : Option XS.STable :=
  L.foldl (fun os p => XS.insertB hash p.1 p.2 true os) (some s0)

/-- Invariant of chained-table states reachable by inserts: some chain
decomposition realizes the reachability invariant, the stored keys are
pairwise distinct, and the bucket count is at least the constructor
minimum 4 (each rehash doubles it, so this persists). -/
def XC.CInv (hash : Nat → Nat) (c : XC.CTable) : Prop :=
  (∃ cs, XC.ChainsRep hash c cs) ∧
  (c.pool.map XC.CEntry.key).Nodup ∧
  4 ≤ c.table.length

/-- Abstract lookup on the open table: the data of the first (hence, under
`SInv`, the only) Occupied slot carrying the key. -/
def XS.occFind (s : XS.STable) (k : Nat) : Option Nat :=
  (s.table.find? (fun e =>
    decide (e.status = XS.STATUS_OCCUPIED) && decide (e.key = k))).map
    (fun e => e.data)

/-- Core invariant of open-table states reachable by inserts (no Removes,
so no Deleted slots): the threshold tracks the size, the counters agree
with the number of Occupied slots, Occupied keys are pairwise distinct,
and every Occupied slot is reachable from its key's home index through an
all-Occupied probe prefix. -/
def XS.SCore (hash : Nat → Nat) (s : XS.STable) : Prop :=
  s.threshold = 3 * s.table.length / 4 ∧
  0 < s.table.length ∧
  s.count = s.occupation ∧
  s.occupation = s.table.countP (fun e => decide (e.status = XS.STATUS_OCCUPIED)) ∧
  (∀ e ∈ s.table, e.status = XS.STATUS_OCCUPIED ∨ e.status = XS.STATUS_FREE) ∧
  (∀ i j, i < s.table.length → j < s.table.length →
    (s.table.getD i default).status = XS.STATUS_OCCUPIED →
    (s.table.getD j default).status = XS.STATUS_OCCUPIED →
    (s.table.getD i default).key = (s.table.getD j default).key → i = j) ∧
  (∀ j, j < s.table.length →
    (s.table.getD j default).status = XS.STATUS_OCCUPIED →
    ∀ x, x < (j + s.table.length -
        XS.XIndex (hash ((s.table.getD j default).key)) s.table.length) %
        s.table.length →
      (s.table.getD
        ((XS.XIndex (hash ((s.table.getD j default).key)) s.table.length + x) %
          s.table.length) default).status = XS.STATUS_OCCUPIED)

/-- Full invariant: the core plus a guaranteed non-Occupied slot, so every
probe terminates. -/
def XS.SInv (hash : Nat → Nat) (s : XS.STable) : Prop :=
  XS.SCore hash s ∧ s.occupation < s.table.length

/-- The loop body of `XSHashTable::Rehash` (CKStateChunk.h:1561) — one
full `Insert(key, data, TRUE)` of an old slot, including the rehash test
and the nested rehash — factored out of `XS.RehashFuel` so the
re-insertion fold can be reasoned about one step at a time;
`XS.RehashFuel_fold_eq` below checks it is literally that body. -/
def XS.rehashStep (hash : Nat → Nat) (s : XS.STable) (fuel : Nat)
    (acc : Option XS.STable) (i : Nat) : Option XS.STable :=
  acc.bind fun t =>
    if (s.table.getD i default).status = XS.STATUS_OCCUPIED then
      match XS.XPut t hash (s.table.getD i default).key
          (s.table.getD i default).data true with
      | none => none
      | some (t1, r) =>
        if r then
          if t1.occupation < t1.threshold then some t1
          else XS.RehashFuel hash fuel t1 (t1.table.length * 2)
        else some t1
    else some t

/-- Key/data view of a pool entry (links stripped). -/
def kd (e : XC.CEntry) : Nat × Nat := (e.key, e.data)

/-- Proof gadget for the `XHashTable::Rehash` loop: the partially rebuilt
state `st` (new bucket heads, new pool) realizes some chain decomposition
`ds` over the new bucket count `m` whose chains hold exactly the already
`processed` old pool indices, while the pool's key/data view stays that of
the old pool. -/
def XC.RehashRep (hash : Nat → Nat) (oldPool : List XC.CEntry) (m : Nat)
    (processed : List Nat)
    (st : List (Option Nat) × List XC.CEntry) : Prop :=
  ∃ ds : List (List Nat),
    ds.length = m ∧
    st.1.length = m ∧
    (∀ b, b < m → st.1.getD b none = (ds.getD b []).head?) ∧
    (∀ b, b < m → XC.chainLinked st.2 (ds.getD b []) = true) ∧
    ds.join.Perm processed ∧
    (∀ b, b < m → ∀ i ∈ ds.getD b [],
      XC.XIndex (hash ((st.2.getD i default).key)) m = b) ∧
    st.2.map kd = oldPool.map kd

/-! ## Theorems -/

theorem XClassArray.FastRemove_eq {α : Type} (a : List α) (i : Nat) :
    XClassArray.FastRemove a i = XArray.FastRemove a i := rfl

section FastRemoveLemmas

theorem getLast?_eq_getD {α : Type} {a : List α} (d : α) (h : 0 < a.length) :
    a.getLast? = some (a.getD (a.length - 1) d) := by
  cases a with
  | nil => simp at h
  | cons x xs =>
    rw [List.getLast?_eq_getElem?]
    simp only [List.getD_eq_getElem?_getD]
    rw [List.getElem?_eq_getElem (by simp)]
    rfl

theorem FastRemove_length {α : Type} {a : List α} {i : Nat} (h : i < a.length) :
    (XArray.FastRemove a i).length = a.length - 1 := by
  have hpos : 0 < a.length := Nat.lt_of_le_of_lt (Nat.zero_le i) h
  rcases List.getLast?_eq_some_iff.mpr ⟨a.dropLast, (List.dropLast_concat_getLast (by simp [List.length_pos_iff_ne_nil] at hpos; exact hpos)).symm⟩ with hx
  unfold XArray.FastRemove
  cases hl : a.getLast? with
  | none => rw [List.getLast?_eq_none_iff] at hl; subst hl; simp at hpos
  | some last =>
    simp only [h, if_true]
    by_cases h2 : i < a.length - 1
    · simp [h2, Nat.sub_le]
    · simp [h2, Nat.sub_le]

theorem FastRemove_relocated {α : Type} {a : List α} {i : Nat} (d : α)
    (h2 : i < a.length - 1) :
    (XArray.FastRemove a i).getD i d = a.getD (a.length - 1) d := by
  have h : i < a.length := Nat.lt_of_lt_of_le h2 (Nat.sub_le _ _)
  have hpos : 0 < a.length := Nat.lt_of_le_of_lt (Nat.zero_le i) h
  unfold XArray.FastRemove
  rw [getLast?_eq_getD d hpos]
  simp only [h, h2, if_true]
  rw [List.getD_eq_getElem?_getD, List.getElem?_take_of_lt h2]
  rw [List.getElem?_set_self (by exact h)]
  simp

theorem FastRemove_frame {α : Type} {a : List α} {i j : Nat} (d : α)
    (h : i < a.length) (hj : j < a.length - 1) (hne : j ≠ i) :
    (XArray.FastRemove a i).getD j d = a.getD j d := by
  have hpos : 0 < a.length := Nat.lt_of_le_of_lt (Nat.zero_le i) h
  have hj' : j < a.length := Nat.lt_of_lt_of_le hj (Nat.sub_le _ _)
  unfold XArray.FastRemove
  rw [getLast?_eq_getD d hpos]
  simp only [h, if_true]
  by_cases h2 : i < a.length - 1
  · simp only [h2, if_true]
    rw [List.getD_eq_getElem?_getD, List.getElem?_take_of_lt hj,
      List.getElem?_set_ne (by omega)]
    simp [List.getD_eq_getElem?_getD]
  · simp only [h2, if_false]
    rw [List.getD_eq_getElem?_getD, List.getElem?_take_of_lt hj]
    simp [List.getD_eq_getElem?_getD]

end FastRemoveLemmas


/-- C1: the open-addressing probe loop `XFindPos` stops at the first
non-Occupied slot, *including* Deleted tombstones, so a live key whose
probe path crosses a tombstone is not found — contradicting the
documented purpose of tombstones (Remove's own comment: "marked as
DELETED to preserve the probing chain").  Concretely, on a table of size
4 with identity hash: Insert key 0, Insert key 4 (collides with 0 and
settles in slot 1), Remove key 0 (tombstone in slot 0).  Key 4 is still
Occupied in slot 1 with its value 2, yet `Find(4)` (via `XFindIndex`)
misses. -/
theorem C1_tombstone_breaks_find :
    (XS.removeB id 0 (XS.insertB id 4 2 true (XS.insertB id 0 1 true
        (some (XS.mkSTable 4))))).map
        (fun s => s.table.getD 1 default) =
      some ⟨4, 2, XS.STATUS_OCCUPIED⟩ ∧
    (XS.removeB id 0 (XS.insertB id 4 2 true (XS.insertB id 0 1 true
        (some (XS.mkSTable 4))))).bind
        (fun s => XS.FindData s id 4) = none := by
  constructor
  · decide
  · decide

/-- C2: `InsertUnique` tests `m_Count >= m_Threshold` instead of
`m_Occupation`, so a tombstone-heavy sequence drives Occupation past
`floor(size * loadFactor)` without triggering a rehash.  On a size-4
table (threshold `3 * 4 / 4 = 3`) with identity hash, alternating
`InsertUnique k` / `Remove k` for k = 0,1,2 and a final `InsertUnique 3`
leaves Occupation = 4 > 3 with the table still of size 4. -/
theorem C2_insertUnique_exceeds_threshold :
    (XS.insertUB id 3 3 (XS.removeB id 2 (XS.insertUB id 2 2 (XS.removeB id 1
        (XS.insertUB id 1 1 (XS.removeB id 0 (XS.insertUB id 0 0
          (some (XS.mkSTable 4))))))))).map
        (fun s => (s.occupation, s.table.length, 3 * s.table.length / 4)) =
      some (4, 4, 3) ∧ 3 < 4 := by
  constructor
  · decide
  · decide

/-- C5 counterexample: Count is *not* incremented when the probed slot is
already Occupied by the same key.  Two `Insert(0, _, TRUE)` calls on a
fresh size-4 table leave Count = 1, not 2, while the second call still
returns TRUE. -/
theorem C5_counterexample :
    ((XS.Insert (XS.mkSTable 4) id 0 1 true).bind
        (fun p => XS.Insert p.1 id 0 2 true)).map
        (fun p => (p.1.count, p.2)) = some (1, true) := by decide

/-- C5 (amended): on every `Insert(key, value, override)` call whose probe
succeeds, if the probed slot is not Occupied the call returns TRUE,
increments Count, and increments Occupation exactly when the slot was not
Deleted (i.e. was Free); if the probed slot is Occupied, neither counter
changes and the call returns `override`.  When no rehash is triggered the
full `Insert` returns exactly the `XPut` result. -/
theorem XS.XPut_occupied {s : XS.STable} {hash : Nat → Nat} {k d idx : Nat}
    (ovr : Bool) (hfind : XS.XFindPos s hash k = some idx)
    (hocc : (s.table.getD idx default).status = XS.STATUS_OCCUPIED) :
    XS.XPut s hash k d ovr =
      if ovr then
        some ({ s with table := s.table.set idx ⟨k, d, XS.STATUS_OCCUPIED⟩ }, true)
      else some (s, false) := by
  unfold XS.XPut
  rw [hfind]
  simp only [List.getD_eq_getElem?_getD] at hocc
  simp [hocc]

theorem XS.XPut_vacant {s : XS.STable} {hash : Nat → Nat} {k d idx : Nat}
    (ovr : Bool) (hfind : XS.XFindPos s hash k = some idx)
    (hocc : (s.table.getD idx default).status ≠ XS.STATUS_OCCUPIED) :
    XS.XPut s hash k d ovr =
      some
        (if (s.table.getD idx default).status = XS.STATUS_DELETED then
          { s with count := s.count + 1
                   table := s.table.set idx ⟨k, d, XS.STATUS_OCCUPIED⟩ }
         else
          { s with count := s.count + 1
                   occupation := s.occupation + 1
                   table := s.table.set idx ⟨k, d, XS.STATUS_OCCUPIED⟩ }, true) := by
  unfold XS.XPut
  rw [hfind]
  simp only [List.getD_eq_getElem?_getD] at hocc ⊢
  by_cases hdel : (s.table[idx]?.getD default).status = XS.STATUS_DELETED
  · simp only [XS.STATUS_OCCUPIED, XS.STATUS_DELETED] at hocc hdel ⊢
    simp [hocc, hdel]
  · simp only [XS.STATUS_OCCUPIED, XS.STATUS_DELETED] at hocc hdel ⊢
    simp [hocc, hdel]

theorem XS.Insert_eq_of_XPut {s s1 : XS.STable} {hash : Nat → Nat}
    {k d : Nat} {ovr : Bool} {r : Bool}
    (h : XS.XPut s hash k d ovr = some (s1, r))
    (hno : r = true → s1.occupation < s1.threshold) :
    XS.Insert s hash k d ovr = some (s1, r) := by
  unfold XS.Insert
  rw [h]
  cases r with
  | false => simp
  | true => simp [hno rfl]

/-- C5 (amended): on every `Insert(key, value, override)` call whose probe
succeeds, if the probed slot is not Occupied the call returns TRUE,
increments Count, and increments Occupation exactly when the slot was not
Deleted (i.e. was Free); if the probed slot is Occupied, neither counter
changes and the call returns `override`.  When no rehash is triggered the
full `Insert` returns exactly the `XPut` result. -/
theorem C5_insert_counters (s : XS.STable) (hash : Nat → Nat) (k d : Nat)
    (ovr : Bool) (idx : Nat) (hfind : XS.XFindPos s hash k = some idx) :
    ∃ s1 r, XS.XPut s hash k d ovr = some (s1, r) ∧
      (((s.table.getD idx default).status = XS.STATUS_OCCUPIED →
          r = ovr ∧ s1.count = s.count ∧ s1.occupation = s.occupation) ∧
        ((s.table.getD idx default).status ≠ XS.STATUS_OCCUPIED →
          r = true ∧ s1.count = s.count + 1 ∧
            s1.occupation =
              (if (s.table.getD idx default).status = XS.STATUS_DELETED
                then s.occupation else s.occupation + 1))) ∧
      ((r = true → s1.occupation < s1.threshold) →
        XS.Insert s hash k d ovr = some (s1, r)) := by
  by_cases hocc : (s.table.getD idx default).status = XS.STATUS_OCCUPIED
  · have hput := @XS.XPut_occupied s hash k d idx ovr hfind hocc
    cases ovr with
    | false =>
      rw [if_neg (by simp)] at hput
      exact ⟨s, false, hput, ⟨fun _ => ⟨rfl, rfl, rfl⟩, fun h => absurd hocc h⟩,
        fun hno => XS.Insert_eq_of_XPut hput hno⟩
    | true =>
      rw [if_pos rfl] at hput
      exact ⟨_, true, hput, ⟨fun _ => ⟨rfl, rfl, rfl⟩, fun h => absurd hocc h⟩,
        fun hno => XS.Insert_eq_of_XPut hput hno⟩
  · have hput := @XS.XPut_vacant s hash k d idx ovr hfind hocc
    by_cases hdel : (s.table.getD idx default).status = XS.STATUS_DELETED
    · rw [if_pos hdel] at hput
      refine ⟨_, true, hput, ⟨fun h => absurd h hocc,
        fun _ => ⟨rfl, rfl, ?_⟩⟩,
        fun hno => XS.Insert_eq_of_XPut hput hno⟩
      rw [if_pos hdel]
    · rw [if_neg hdel] at hput
      refine ⟨_, true, hput, ⟨fun h => absurd h hocc,
        fun _ => ⟨rfl, rfl, ?_⟩⟩,
        fun hno => XS.Insert_eq_of_XPut hput hno⟩
      rw [if_neg hdel]

/-- Witness for C5's amended theorem at a concrete input. -/
theorem C5_insert_counters_witness :
    ∃ s1 r, XS.XPut (XS.mkSTable 4) id 0 5 true = some (s1, r) ∧
      ((((XS.mkSTable 4).table.getD 0 default).status = XS.STATUS_OCCUPIED →
          r = true ∧ s1.count = (XS.mkSTable 4).count ∧
            s1.occupation = (XS.mkSTable 4).occupation) ∧
        (((XS.mkSTable 4).table.getD 0 default).status ≠ XS.STATUS_OCCUPIED →
          r = true ∧ s1.count = (XS.mkSTable 4).count + 1 ∧
            s1.occupation =
              (if ((XS.mkSTable 4).table.getD 0 default).status =
                   XS.STATUS_DELETED
                then (XS.mkSTable 4).occupation
                else (XS.mkSTable 4).occupation + 1))) ∧
      ((r = true → s1.occupation < s1.threshold) →
        XS.Insert (XS.mkSTable 4) id 0 5 true = some (s1, r)) :=
  C5_insert_counters (XS.mkSTable 4) id 0 5 true 0 (by decide)

section CtorSize

theorem Near2PowerFuel_spec (n : Nat) :
    ∀ fuel m, n ≤ 2 ^ (m + fuel) →
      ∃ j, XC.Near2PowerFuel n fuel (2 ^ m) = 2 ^ j ∧ m ≤ j ∧ n ≤ 2 ^ j ∧
        ∀ l, m ≤ l → n ≤ 2 ^ l → j ≤ l := by
  intro fuel
  induction fuel with
  | zero =>
    intro m hm
    exact ⟨m, rfl, le_refl m, by simpa using hm, fun l hl _ => hl⟩
  | succ fuel ih =>
    intro m hm
    by_cases hle : n ≤ 2 ^ m
    · exact ⟨m, by simp [XC.Near2PowerFuel, hle], le_refl m, hle,
        fun l hl _ => hl⟩
    · have h2 : (2 : Nat) * 2 ^ m = 2 ^ (m + 1) := by ring
      have hrec := ih (m + 1) (by
        have : m + 1 + fuel = m + (fuel + 1) := by ring
        rw [this]; exact hm)
      obtain ⟨j, hj, hmj, hnj, hmin⟩ := hrec
      refine ⟨j, ?_, Nat.le_of_succ_le hmj, hnj, ?_⟩
      · simpa [XC.Near2PowerFuel, hle, h2] using hj
      · intro l hl hnl
        rcases Nat.eq_or_lt_of_le hl with h | h
        · exact absurd hnl (by rw [← h]; exact hle)
        · exact hmin l h hnl

theorem Near2Power_spec (n : Nat) :
    ∃ j, XC.Near2Power n = 2 ^ j ∧ n ≤ 2 ^ j ∧ ∀ l, n ≤ 2 ^ l → j ≤ l := by
  have h := Near2PowerFuel_spec n n 0 (by simpa using (Nat.lt_two_pow n).le)
  obtain ⟨j, hj, _, hnj, hmin⟩ := h
  exact ⟨j, by simpa [XC.Near2Power] using hj, hnj, fun l hnl =>
    hmin l (Nat.zero_le l) hnl⟩

theorem ctorBitsFuel_zero (fuel : Nat) : XS.ctorBitsFuel fuel 0 = 0 := by
  cases fuel with
  | zero => rfl
  | succ f => simp [XS.ctorBitsFuel]

theorem ctorBitsFuel_spec :
    ∀ fuel n, 1 ≤ n → n < 2 ^ fuel →
      1 ≤ XS.ctorBitsFuel fuel n ∧
        2 ^ (XS.ctorBitsFuel fuel n - 1) ≤ n ∧ n < 2 ^ XS.ctorBitsFuel fuel n := by
  intro fuel
  induction fuel with
  | zero => intro n h1 h2; omega
  | succ fuel ih =>
    intro n h1 h2
    have hne : n ≠ 0 := by omega
    have heq : XS.ctorBitsFuel (fuel + 1) n = XS.ctorBitsFuel fuel (n / 2) + 1 := by
      simp [XS.ctorBitsFuel, hne]
    by_cases hsmall : n / 2 = 0
    · have hn1 : n = 1 := by omega
      subst hn1
      rw [heq, hsmall, ctorBitsFuel_zero]
      refine ⟨by omega, by norm_num, by norm_num⟩
    · have hdiv1 : 1 ≤ n / 2 := Nat.pos_of_ne_zero hsmall
      have hp : 2 ^ (fuel + 1) = 2 ^ fuel * 2 := Nat.pow_succ ..
      have hdivlt : n / 2 < 2 ^ fuel := by omega
      obtain ⟨ih1, ih2, ih3⟩ := ih (n / 2) hdiv1 hdivlt
      rw [heq]
      refine ⟨by omega, ?_, ?_⟩
      · have hstep : 2 ^ (XS.ctorBitsFuel fuel (n / 2) + 1 - 1) =
            2 ^ (XS.ctorBitsFuel fuel (n / 2) - 1) * 2 := by
          rcases Nat.exists_eq_add_of_le ih1 with ⟨c, hc⟩
          rw [hc]
          have h1 : 1 + c + 1 - 1 = c + 1 := by omega
          have h2 : 1 + c - 1 = c := by omega
          rw [h1, h2, Nat.pow_succ]
        rw [hstep]
        omega
      · rw [Nat.pow_succ]
        omega

theorem ctorBits_spec (n : Nat) (h1 : 1 ≤ n) :
    1 ≤ XS.ctorBits n ∧ 2 ^ (XS.ctorBits n - 1) ≤ n ∧ n < 2 ^ XS.ctorBits n :=
  ctorBitsFuel_spec n n h1 (Nat.lt_two_pow n)

end CtorSize

/-- C4 counterexample: the `XSHashTable` constructor rounds the hint
*down*, not up, and enforces no minimum of 4: hint 5 yields a table of 4
slots (not the smallest power of two ≥ 5, which is 8), and hint 1 yields
1 slot (< 4). -/
theorem C4_counterexample :
    (XS.mkSTable 5).table.length = 4 ∧ 4 < 5 ∧
      (XS.mkSTable 1).table.length = 1 ∧ 1 < 4 := by decide

/-- Constructor-size facts shared by C4: the chained `XHashTable`
constructor produces the smallest power of two ≥ the hint, never less
than 4 (with `Near2Power` modelled from the spec); the open-addressing
`XSHashTable` constructor instead produces the *largest* power of two
≤ the hint (1 for hint 0), which can be smaller than both the hint
and 4. -/
theorem ctor_sizes_core (n : Nat) :
    ((∃ j, XC.ctorSize n = 2 ^ j) ∧ 4 ≤ XC.ctorSize n ∧ n ≤ XC.ctorSize n ∧
      (∀ j, 4 ≤ 2 ^ j → n ≤ 2 ^ j → XC.ctorSize n ≤ 2 ^ j) ∧
      (XC.mkCTable n).table.length = XC.ctorSize n) ∧
    ((∃ k, XS.ctorSize n = 2 ^ k) ∧ (1 ≤ n → XS.ctorSize n ≤ n) ∧
      (∀ j, 2 ^ j ≤ n → 2 ^ j ≤ XS.ctorSize n) ∧ XS.ctorSize 0 = 1 ∧
      (XS.mkSTable n).table.length = XS.ctorSize n) := by
  constructor
  · obtain ⟨j, hj, hnj, hmin⟩ := Near2Power_spec n
    by_cases h4 : XC.Near2Power n < 4
    · have hsz : XC.ctorSize n = 4 := by simp [XC.ctorSize, h4]
      refine ⟨⟨2, by norm_num [hsz]⟩, by omega, by omega, fun l h4l hnl => ?_, ?_⟩
      · omega
      · simp [XC.mkCTable]
    · have hsz : XC.ctorSize n = XC.Near2Power n := by simp [XC.ctorSize, h4]
      refine ⟨⟨j, by rw [hsz, hj]⟩, by omega, by omega, fun l h4l hnl => ?_, ?_⟩
      · rw [hsz, hj]
        exact Nat.pow_le_pow_right (by norm_num) (hmin l hnl)
      · simp [XC.mkCTable]
  · by_cases h0 : n = 0
    · subst h0
      refine ⟨⟨0, by decide⟩, by omega, ?_, by decide, by simp [XS.mkSTable]⟩
      intro j hj
      exact absurd hj (Nat.not_le.mpr (pow_pos (by norm_num) j))
    · have h1 : 1 ≤ n := Nat.pos_of_ne_zero h0
      obtain ⟨hb1, hb2, hb3⟩ := ctorBits_spec n h1
      have hsz : XS.ctorSize n = 2 ^ (XS.ctorBits n - 1) := by
        simp [XS.ctorSize, h0]
      refine ⟨⟨XS.ctorBits n - 1, hsz⟩, fun _ => by omega, fun j hj => ?_, by decide,
        by simp [XS.mkSTable]⟩
      rw [hsz]
      apply Nat.pow_le_pow_right (by norm_num)
      by_contra hlt
      push_neg at hlt
      have : XS.ctorBits n ≤ j := by omega
      have : 2 ^ XS.ctorBits n ≤ 2 ^ j := Nat.pow_le_pow_right (by norm_num) this
      omega

section ProbeLemmas

/-- The probe loop only returns indices inside the table. -/
theorem XFindPosLoop_lt {t : List XS.SEntry} {k : Nat} :
    ∀ fuel idx j, idx < t.length →
      XS.XFindPosLoop t k fuel idx = some j → j < t.length := by
  intro fuel
  induction fuel with
  | zero => intro idx j _ h; simp [XS.XFindPosLoop] at h
  | succ fuel ih =>
    intro idx j hidx h
    rw [XS.XFindPosLoop] at h
    split at h
    · split at h
      · exact (Option.some_inj.mp h) ▸ hidx
      · refine ih _ j ?_ h
        split
        · exact Nat.lt_of_le_of_lt (Nat.zero_le _) hidx
        · next hne => omega
    · exact (Option.some_inj.mp h) ▸ hidx

/-- The slot the probe loop stops at is either non-Occupied or holds the
key. -/
theorem XFindPosLoop_spec {t : List XS.SEntry} {k : Nat} :
    ∀ fuel idx j, XS.XFindPosLoop t k fuel idx = some j →
      (t.getD j default).status ≠ XS.STATUS_OCCUPIED ∨
        ((t.getD j default).status = XS.STATUS_OCCUPIED ∧
          (t.getD j default).key = k) := by
  intro fuel
  induction fuel with
  | zero => intro idx j h; simp [XS.XFindPosLoop] at h
  | succ fuel ih =>
    intro idx j h
    rw [XS.XFindPosLoop] at h
    split at h
    · split at h
      · next hocc hkey =>
        cases Option.some_inj.mp h
        exact Or.inr ⟨hocc, hkey⟩
      · exact ih _ j h
    · next hocc =>
      cases Option.some_inj.mp h
      exact Or.inl hocc

/-- If some slot within the next `fuel` probe steps is non-Occupied, the
probe loop succeeds. -/
theorem XFindPosLoop_isSome {t : List XS.SEntry} {k : Nat} :
    ∀ fuel idx, idx < t.length →
      (∃ m, m < fuel ∧
        (t.getD ((idx + m) % t.length) default).status ≠ XS.STATUS_OCCUPIED) →
      (XS.XFindPosLoop t k fuel idx).isSome := by
  intro fuel
  induction fuel with
  | zero => intro idx _ ⟨m, hm, _⟩; omega
  | succ fuel ih =>
    intro idx hidx ⟨m, hm, hvac⟩
    rw [XS.XFindPosLoop]
    split
    · next hocc =>
      split
      · simp
      · have hm0 : m ≠ 0 := by
          intro h0
          rw [h0, Nat.add_zero, Nat.mod_eq_of_lt hidx] at hvac
          exact hvac hocc
        set idx1 := if idx + 1 = t.length then 0 else idx + 1 with hidx1
        have hlt1 : idx1 < t.length := by
          rw [hidx1]
          split
          · exact Nat.lt_of_le_of_lt (Nat.zero_le _) hidx
          · next hne => omega
        apply ih idx1 hlt1
        refine ⟨m - 1, by omega, ?_⟩
        have harith : (idx1 + (m - 1)) % t.length = (idx + m) % t.length := by
          rw [hidx1]
          split
          · next heq =>
            have h1 : idx + m = t.length + (m - 1) := by omega
            rw [h1, Nat.zero_add, Nat.add_comm t.length (m - 1),
              Nat.add_mod_right]
          · next hne =>
            congr 1
            omega
        rw [harith]
        exact hvac
    · simp

/-- If the table has a non-Occupied slot anywhere, the probe succeeds. -/
theorem XFindPos_isSome {s : XS.STable} {hash : Nat → Nat} {k : Nat}
    (hvac : ∃ j, j < s.table.length ∧
      (s.table.getD j default).status ≠ XS.STATUS_OCCUPIED) :
    (XS.XFindPos s hash k).isSome := by
  obtain ⟨j, hjlt, hj⟩ := hvac
  have hlen : 0 < s.table.length := Nat.lt_of_le_of_lt (Nat.zero_le _) hjlt
  set idx0 := XS.XIndex (hash k) s.table.length with hidx0
  have hstart : idx0 < s.table.length := by
    have : idx0 ≤ s.table.length - 1 := Nat.and_le_right
    omega
  apply XFindPosLoop_isSome s.table.length idx0 hstart
  refine ⟨(j + s.table.length - idx0) % s.table.length, Nat.mod_lt _ hlen, ?_⟩
  have harith : (idx0 + (j + s.table.length - idx0) % s.table.length) %
      s.table.length = j := by
    rcases le_or_lt idx0 j with hle | hlt
    · have h1 : j + s.table.length - idx0 = (j - idx0) + s.table.length := by
        omega
      have h2 : (j - idx0) % s.table.length = j - idx0 :=
        Nat.mod_eq_of_lt (by omega)
      rw [h1, Nat.add_mod_right, h2]
      have h3 : idx0 + (j - idx0) = j := by omega
      rw [h3, Nat.mod_eq_of_lt hjlt]
    · have h1 : (j + s.table.length - idx0) < s.table.length := by omega
      rw [Nat.mod_eq_of_lt h1]
      have h2 : idx0 + (j + s.table.length - idx0) = j + s.table.length := by
        omega
      rw [h2, Nat.add_mod_right, Nat.mod_eq_of_lt hjlt]
  rw [harith]
  exact hj

/-- If no pool entry carries the key, the remove walk finds nothing. -/
theorem RemoveWalk_none {pool : List XC.CEntry} {k : Nat}
    (habs : ∀ e ∈ pool, e.key ≠ k) :
    ∀ fuel cur old, XC.RemoveWalk pool k fuel cur old = none := by
  intro fuel
  induction fuel with
  | zero => intro cur old; cases cur <;> rfl
  | succ fuel ih =>
    intro cur old
    cases cur with
    | none => rfl
    | some i =>
      rw [XC.RemoveWalk]
      cases hget : pool[i]? with
      | none => rfl
      | some e =>
        have hmem : e ∈ pool := by
          have hi : i < pool.length := by
            by_contra hge
            rw [List.getElem?_eq_none (by omega)] at hget
            exact Option.noConfusion hget
          rw [List.getElem?_eq_getElem hi] at hget
          cases Option.some_inj.mp hget
          exact List.getElem_mem hi
        simp only [if_neg (habs e hmem)]
        exact ih _ _

end ProbeLemmas

/-- C8: removing an absent key leaves either table exactly unchanged.
For the open-addressing table, "absent" means no Occupied slot holds the
key, and the table must have at least one non-Occupied slot (otherwise
the C probe returns -1 and `m_Table[-1]` is undefined; such a state is
unreachable under the threshold policy).  For the chained table, "absent"
means no pool entry holds the key. -/
theorem C8_remove_absent (s : XS.STable) (c : XC.CTable) (hash : Nat → Nat)
    (k : Nat)
    (habsS : ∀ i, i < s.table.length →
      ¬((s.table.getD i default).status = XS.STATUS_OCCUPIED ∧
        (s.table.getD i default).key = k))
    (hvac : ∃ j, j < s.table.length ∧
      (s.table.getD j default).status ≠ XS.STATUS_OCCUPIED)
    (habsC : ∀ e ∈ c.pool, e.key ≠ k) :
    XS.Remove s hash k = some s ∧ XC.Remove c hash k = c := by
  constructor
  · have hsome := @XFindPos_isSome _ hash k hvac
    cases hfind : XS.XFindPos s hash k with
    | none => rw [hfind] at hsome; simp at hsome
    | some idx =>
      have hlen : 0 < s.table.length := by
        obtain ⟨j, hjlt, _⟩ := hvac
        omega
      have hstart : XS.XIndex (hash k) s.table.length < s.table.length := by
        have : XS.XIndex (hash k) s.table.length ≤ s.table.length - 1 :=
          Nat.and_le_right
        omega
      have hidxlt : idx < s.table.length :=
        XFindPosLoop_lt s.table.length _ idx hstart hfind
      have hspec := XFindPosLoop_spec s.table.length _ idx hfind
      unfold XS.Remove
      rw [hfind]
      rcases hspec with hnocc | ⟨hocc, hkey⟩
      · simp only [List.getD_eq_getElem?_getD] at hnocc
        simp [hnocc]
      · exact absurd ⟨hocc, hkey⟩ (habsS idx hidxlt)
  · show XC.Remove c hash k = c
    simp only [XC.Remove, RemoveWalk_none habsC]

/-- Witness for C8 at concrete inputs: freshly constructed tables and an
absent key. -/
theorem C8_remove_absent_witness :
    XS.Remove (XS.mkSTable 4) id 7 = some (XS.mkSTable 4) ∧
      XC.Remove (XC.mkCTable 4) id 7 = XC.mkCTable 4 :=
  C8_remove_absent (XS.mkSTable 4) (XC.mkCTable 4) id 7
    (by decide) (by decide) (by decide)

/-- C10: `Clear` zeroes `Size` while keeping the bucket/slot count: the
open-addressing table keeps its slot array (every slot re-marked Free)
and zeroes both counters; the chained table empties its pool and nulls
every bucket head. -/
theorem C10_clear (s : XS.STable) (c : XC.CTable) :
    ((XS.Clear s).table.length = s.table.length ∧
      (XS.Clear s).count = 0 ∧ (XS.Clear s).occupation = 0 ∧
      XS.Size (XS.Clear s) = 0 ∧
      (∀ i, i < s.table.length →
        ((XS.Clear s).table.getD i default).status = XS.STATUS_FREE)) ∧
    ((XC.Clear c).table.length = c.table.length ∧
      (XC.Clear c).pool = [] ∧ XC.Size (XC.Clear c) = 0 ∧
      (∀ b, b < c.table.length → (XC.Clear c).table.getD b none = none)) := by
  refine ⟨⟨by simp [XS.Clear], rfl, rfl, rfl, fun i hi => ?_⟩,
    ⟨by simp [XC.Clear], rfl, rfl, fun b hb => ?_⟩⟩
  · rw [List.getD_eq_getElem?_getD]
    simp only [XS.Clear, List.getElem?_map]
    rw [List.getElem?_eq_getElem hi]
    rfl
  · simp only [XC.Clear]
    rw [List.getD_eq_getElem?_getD, List.getElem?_replicate]
    simp [hb]

/-- Witness for C10 at a concrete reachable state. -/
theorem C10_clear_witness :
    ((XS.Clear (XS.mkSTable 8)).table.length = (XS.mkSTable 8).table.length ∧
      (XS.Clear (XS.mkSTable 8)).count = 0 ∧
      (XS.Clear (XS.mkSTable 8)).occupation = 0 ∧
      XS.Size (XS.Clear (XS.mkSTable 8)) = 0 ∧
      (∀ i, i < (XS.mkSTable 8).table.length →
        ((XS.Clear (XS.mkSTable 8)).table.getD i default).status =
          XS.STATUS_FREE)) ∧
    ((XC.Clear (XC.mkCTable 8)).table.length = (XC.mkCTable 8).table.length ∧
      (XC.Clear (XC.mkCTable 8)).pool = [] ∧
      XC.Size (XC.Clear (XC.mkCTable 8)) = 0 ∧
      (∀ b, b < (XC.mkCTable 8).table.length →
        (XC.Clear (XC.mkCTable 8)).table.getD b none = none)) :=
  C10_clear (XS.mkSTable 8) (XC.mkCTable 8)

section ChainedRehashLemmas

theorem setNext_map_kd (pool : List XC.CEntry) (i : Nat) (nx : Option Nat) :
    (XC.setNext pool i nx).map kd = pool.map kd := by
  unfold XC.setNext
  by_cases hi : i < pool.length
  · rw [List.map_set]
    apply List.ext_getElem?
    intro j
    rw [List.getElem?_set]
    split
    · next hj =>
      subst hj
      rw [List.getElem?_map, List.getElem?_eq_getElem hi]
      simp [kd, List.getD_eq_getElem?_getD, List.getElem?_eq_getElem hi]
      exact hi
    · rfl
  · rw [List.set_eq_of_length_le (by simpa using Nat.le_of_not_lt hi)]

theorem RelinkChain_snd_map_kd (oldPool : List XC.CEntry) (hash : Nat → Nat)
    (iSize : Nat) :
    ∀ fuel cur st,
      ((XC.RelinkChain oldPool hash iSize fuel cur st).2).map kd =
        (st.2).map kd := by
  intro fuel
  induction fuel with
  | zero => intro cur st; cases cur <;> rfl
  | succ fuel ih =>
    intro cur st
    cases cur with
    | none => rfl
    | some i =>
      rw [XC.RelinkChain]
      cases hget : oldPool[i]? with
      | none => rfl
      | some e =>
        simp only
        rw [ih]
        simp [setNext_map_kd]

theorem RelinkChain_fst_length (oldPool : List XC.CEntry) (hash : Nat → Nat)
    (iSize : Nat) :
    ∀ fuel cur st,
      ((XC.RelinkChain oldPool hash iSize fuel cur st).1).length =
        (st.1).length := by
  intro fuel
  induction fuel with
  | zero => intro cur st; cases cur <;> rfl
  | succ fuel ih =>
    intro cur st
    cases cur with
    | none => rfl
    | some i =>
      rw [XC.RelinkChain]
      cases hget : oldPool[i]? with
      | none => rfl
      | some e =>
        simp only
        rw [ih]
        simp

theorem foldl_invariant {β σ : Type} (P : σ → Prop) (step : σ → β → σ)
    (hstep : ∀ st b, P st → P (step st b)) :
    ∀ (l : List β) (st : σ), P st → P (l.foldl step st) := by
  intro l
  induction l with
  | nil => intro st h; exact h
  | cons a l ihl => intro st h; exact ihl _ (hstep st a h)

theorem Rehash_pool_map_kd (c : XC.CTable) (hash : Nat → Nat) (m : Nat) :
    (XC.Rehash c hash m).pool.map kd = c.pool.map kd := by
  have h := foldl_invariant
    (fun st : List (Option Nat) × List XC.CEntry =>
      st.2.map kd = c.pool.map kd)
    (fun st idx =>
      XC.RelinkChain c.pool hash m c.pool.length (c.table.getD idx none) st)
    (fun st b hP => by
      show (XC.RelinkChain c.pool hash m c.pool.length (c.table.getD b none)
          st).2.map kd = c.pool.map kd
      rw [RelinkChain_snd_map_kd]
      exact hP)
    (List.range c.table.length) (List.replicate m none, c.pool) rfl
  simpa [XC.Rehash] using h

theorem Rehash_table_length (c : XC.CTable) (hash : Nat → Nat) (m : Nat) :
    (XC.Rehash c hash m).table.length = m := by
  have h := foldl_invariant
    (fun st : List (Option Nat) × List XC.CEntry => st.1.length = m)
    (fun st idx =>
      XC.RelinkChain c.pool hash m c.pool.length (c.table.getD idx none) st)
    (fun st b hP => by
      show (XC.RelinkChain c.pool hash m c.pool.length (c.table.getD b none)
          st).1.length = m
      rw [RelinkChain_fst_length]
      exact hP)
    (List.range c.table.length) (List.replicate m none, c.pool) (by simp)
  simpa [XC.Rehash] using h

theorem Rehash_pool_length (c : XC.CTable) (hash : Nat → Nat) (m : Nat) :
    (XC.Rehash c hash m).pool.length = c.pool.length := by
  have h := congrArg List.length (Rehash_pool_map_kd c hash m)
  simpa using h

theorem Rehash_poolAlloc (c : XC.CTable) (hash : Nat → Nat) (m : Nat) :
    (XC.Rehash c hash m).poolAlloc = max (3 * m / 4) c.pool.length := rfl

/-- Key membership (ignoring links and positions) is preserved by any
transformation that preserves the key/data view. -/
theorem absent_of_map_kd {p q : List XC.CEntry} {k : Nat}
    (h : q.map kd = p.map kd) (habs : ∀ e ∈ p, e.key ≠ k) :
    ∀ e ∈ q, e.key ≠ k := by
  intro e he
  have : kd e ∈ q.map kd := List.mem_map_of_mem kd he
  rw [h] at this
  obtain ⟨e0, he0, heq⟩ := List.mem_map.mp this
  have : e0.key = e.key := congrArg Prod.fst heq
  rw [← this]
  exact habs e0 he0

/-- If no pool entry carries the key, the find walk misses. -/
theorem XFindLoop_none {pool : List XC.CEntry} {k : Nat}
    (habs : ∀ e ∈ pool, e.key ≠ k) :
    ∀ fuel cur, XC.XFindLoop pool k fuel cur = none := by
  intro fuel
  induction fuel with
  | zero => intro cur; cases cur <;> rfl
  | succ fuel ih =>
    intro cur
    cases cur with
    | none => rfl
    | some i =>
      rw [XC.XFindLoop]
      cases hget : pool[i]? with
      | none => rfl
      | some e =>
        have hmem : e ∈ pool := by
          have hi : i < pool.length := by
            by_contra hge
            rw [List.getElem?_eq_none (by omega)] at hget
            exact Option.noConfusion hget
          rw [List.getElem?_eq_getElem hi] at hget
          cases Option.some_inj.mp hget
          exact List.getElem_mem hi
        simp only [if_neg (habs e hmem)]
        exact ih _

end ChainedRehashLemmas

/-- C7 counterexample: on the open-addressing table a Deleted tombstone
can shadow a live key on its probe path, and then a duplicate
`Insert(key, value, FALSE)` returns TRUE and mutates the table.  On a
size-4 table with identity hash: Insert 0, Insert 4 (settles in slot 1),
Remove 0 (tombstone in slot 0).  Key 4 is present (slot 1, Occupied),
yet `Insert(4, 99, FALSE)` returns TRUE, overwrites slot 0 with a second
copy of key 4, and bumps Size from 1 to 2 — instead of returning FALSE
and leaving the table unchanged. -/
theorem C7_counterexample :
    ((XS.removeB id 0 (XS.insertB id 4 2 true (XS.insertB id 0 1 true
          (some (XS.mkSTable 4))))).bind
        (fun s => XS.Insert s id 4 99 false)).map
        (fun p => (p.2, p.1.table.getD 0 default, XS.Size p.1)) =
      some (true, ⟨4, 99, XS.STATUS_OCCUPIED⟩, 2) ∧
    (XS.removeB id 0 (XS.insertB id 4 2 true (XS.insertB id 0 1 true
          (some (XS.mkSTable 4))))).map
        (fun s => (s.table.getD 1 default, XS.Size s)) =
      some (⟨4, 2, XS.STATUS_OCCUPIED⟩, 1) := by
  constructor
  · decide
  · decide

section ChainsRepLemmas

theorem chainLinked_cons_iff {pool : List XC.CEntry} {i : Nat} {ch : List Nat} :
    XC.chainLinked pool (i :: ch) = true ↔
      (pool.getD i default).next = ch.head? ∧
        XC.chainLinked pool ch = true := by
  simp [XC.chainLinked]

theorem chainLinked_middle {pool : List XC.CEntry} {i : Nat} {S : List Nat} :
    ∀ P, XC.chainLinked pool (P ++ i :: S) = true →
      (pool.getD i default).next = S.head? := by
  intro P
  induction P with
  | nil => intro h; exact (chainLinked_cons_iff.mp h).1
  | cons a P ih =>
    intro h
    exact ih (chainLinked_cons_iff.mp h).2

theorem nodup_split_unique {A B C D : List Nat} {i : Nat}
    (h : (A ++ i :: B).Nodup) (heq : A ++ i :: B = C ++ i :: D) :
    A = C ∧ B = D := by
  induction A generalizing C with
  | nil =>
    cases C with
    | nil => simpa using heq
    | cons c0 C' =>
      exfalso
      simp only [List.nil_append, List.cons_append, List.cons.injEq] at heq
      have hi : i ∈ B := by
        rw [heq.2]
        exact List.mem_append_right _ (List.mem_cons_self _ _)
      simp only [List.nil_append, List.nodup_cons] at h
      exact h.1 hi
  | cons a A' ih =>
    cases C with
    | nil =>
      exfalso
      simp only [List.cons_append, List.nil_append] at heq
      rw [List.cons.injEq] at heq
      have hi : a ∈ A' ++ i :: B := by
        rw [heq.1]
        exact List.mem_append_right _ (List.mem_cons_self _ _)
      simp only [List.cons_append, List.nodup_cons] at h
      exact h.1 hi
    | cons c0 C' =>
      simp only [List.cons_append] at heq
      rw [List.cons.injEq] at heq
      simp only [List.cons_append, List.nodup_cons] at h
      obtain ⟨hA, hB⟩ := ih h.2 heq.2
      exact ⟨by rw [heq.1, hA], hB⟩

theorem join_nodup_of_perm {cs : List (List Nat)} {n : Nat}
    (hperm : cs.join.Perm (List.range n)) : cs.join.Nodup :=
  hperm.nodup_iff.mpr (List.nodup_range _)

theorem mem_join_of_mem_chain {cs : List (List Nat)} {b i : Nat}
    (hb : b < cs.length) (hi : i ∈ cs.getD b []) : i ∈ cs.join := by
  rw [List.getD_eq_getElem?_getD, List.getElem?_eq_getElem hb] at hi
  exact List.mem_join_of_mem (List.getElem_mem hb) hi

theorem rep_chain_elem_lt {c : XC.CTable} {cs : List (List Nat)}
    (hlen : cs.length = c.table.length)
    (hsub : ∀ t ∈ cs.join, t < c.pool.length) {b i : Nat}
    (hb : b < c.table.length) (hi : i ∈ cs.getD b []) : i < c.pool.length :=
  hsub i (mem_join_of_mem_chain (hlen ▸ hb) hi)

theorem rep_chain_nodup {cs : List (List Nat)} {L : Nat}
    (hlen : cs.length = L) (hnd : cs.join.Nodup) {b : Nat}
    (hb : b < L) : (cs.getD b []).Nodup := by
  rw [List.nodup_join] at hnd
  rw [List.getD_eq_getElem?_getD, List.getElem?_eq_getElem (hlen ▸ hb)]
  exact hnd.1 _ (List.getElem_mem (hlen ▸ hb))

theorem rep_occ_unique {cs : List (List Nat)} {L : Nat}
    (hlen : cs.length = L) (hnd : cs.join.Nodup) {b1 b2 i : Nat}
    (hb1 : b1 < L) (hb2 : b2 < L)
    (h1 : i ∈ cs.getD b1 []) (h2 : i ∈ cs.getD b2 []) : b1 = b2 := by
  by_contra hne
  rw [List.nodup_join] at hnd
  have hpw := hnd.2
  rw [List.pairwise_iff_getElem] at hpw
  have hb1' : b1 < cs.length := hlen ▸ hb1
  have hb2' : b2 < cs.length := hlen ▸ hb2
  rw [List.getD_eq_getElem?_getD, List.getElem?_eq_getElem hb1'] at h1
  rw [List.getD_eq_getElem?_getD, List.getElem?_eq_getElem hb2'] at h2
  simp only [Option.getD_some] at h1 h2
  rcases Nat.lt_or_ge b1 b2 with hlt | hge
  · exact hpw b1 b2 hb1' hb2' hlt h1 h2
  · have hlt : b2 < b1 := by omega
    exact hpw b2 b1 hb2' hb1' hlt h2 h1

theorem rep_next_of_mem {c : XC.CTable} {cs : List (List Nat)}
    (hlink : ∀ b, b < c.table.length →
      XC.chainLinked c.pool (cs.getD b []) = true) {b p : Nat}
    {P S : List Nat} (hb : b < c.table.length)
    (hdec : cs.getD b [] = P ++ p :: S) :
    (c.pool.getD p default).next = S.head? :=
  chainLinked_middle P (hdec ▸ hlink b hb)

theorem rep_next_target {c : XC.CTable} {cs : List (List Nat)}
    (hlen : cs.length = c.table.length)
    (hlink : ∀ b, b < c.table.length →
      XC.chainLinked c.pool (cs.getD b []) = true) {p t : Nat}
    (hpj : p ∈ cs.join)
    (hnext : (c.pool.getD p default).next = some t) :
    ∃ b P S, b < c.table.length ∧ cs.getD b [] = P ++ p :: t :: S := by
  rw [List.mem_join] at hpj
  obtain ⟨l, hl, hpl⟩ := hpj
  obtain ⟨b, hb, hbl⟩ := List.mem_iff_getElem.mp hl
  have hb' : b < c.table.length := hlen ▸ hb
  have hchain : cs.getD b [] = l := by
    rw [List.getD_eq_getElem?_getD, List.getElem?_eq_getElem hb, hbl]
    rfl
  obtain ⟨P, S, hPS⟩ := List.append_of_mem hpl
  have hnext2 := rep_next_of_mem hlink hb' (hchain.trans hPS)
  rw [hnext] at hnext2
  cases S with
  | nil => simp at hnext2
  | cons t' S' =>
    simp only [List.head?_cons] at hnext2
    cases Option.some_inj.mp hnext2.symm
    exact ⟨b, P, S', hb', hchain.trans hPS⟩

theorem rep_head_target {c : XC.CTable} {cs : List (List Nat)}
    (hheads : ∀ b, b < c.table.length →
      c.table.getD b none = (cs.getD b []).head?) {b t : Nat}
    (hb : b < c.table.length) (hhead : c.table.getD b none = some t) :
    ∃ S, cs.getD b [] = t :: S := by
  have := hheads b hb
  rw [hhead] at this
  cases hch : cs.getD b [] with
  | nil => rw [hch] at this; simp at this
  | cons x S =>
    rw [hch] at this
    simp only [List.head?_cons] at this
    cases Option.some_inj.mp this
    exact ⟨S, rfl⟩

theorem rep_inlink_head {c : XC.CTable} {cs : List (List Nat)}
    (hlen : cs.length = c.table.length)
    (hheads : ∀ b, b < c.table.length →
      c.table.getD b none = (cs.getD b []).head?)
    (hnd : cs.join.Nodup) {b0 i : Nat} {P S : List Nat}
    (hb0 : b0 < c.table.length) (hdec : cs.getD b0 [] = P ++ i :: S)
    {b : Nat} (hb : b < c.table.length)
    (hhead : c.table.getD b none = some i) : b = b0 ∧ P = [] := by
  obtain ⟨S2, hS2⟩ := rep_head_target hheads hb hhead
  have hmem1 : i ∈ cs.getD b [] := by rw [hS2]; exact List.mem_cons_self _ _
  have hmem0 : i ∈ cs.getD b0 [] := by
    rw [hdec]; exact List.mem_append_right _ (List.mem_cons_self _ _)
  have hbb := rep_occ_unique hlen hnd hb hb0 hmem1 hmem0
  subst hbb
  rw [hS2] at hdec
  have hnd2 : (cs.getD b []).Nodup := rep_chain_nodup hlen hnd hb
  rw [hS2] at hnd2
  have := @nodup_split_unique [] S2 P S _
    (by simpa using hnd2) (by simpa using hdec)
  exact ⟨rfl, this.1.symm⟩

theorem rep_inlink_next {c : XC.CTable} {cs : List (List Nat)}
    (hlen : cs.length = c.table.length)
    (hlink : ∀ b, b < c.table.length →
      XC.chainLinked c.pool (cs.getD b []) = true)
    (hnd : cs.join.Nodup) {b0 i : Nat} {P S : List Nat}
    (hb0 : b0 < c.table.length) (hdec : cs.getD b0 [] = P ++ i :: S)
    {p : Nat} (hpj : p ∈ cs.join)
    (hnext : (c.pool.getD p default).next = some i) :
    P ≠ [] ∧ P.getLast? = some p := by
  obtain ⟨b', P', S', hb', hdec'⟩ := rep_next_target hlen hlink hpj hnext
  have hmem1 : i ∈ cs.getD b' [] := by
    rw [hdec']
    exact List.mem_append_right _ (List.mem_cons_of_mem _ (List.mem_cons_self _ _))
  have hmem0 : i ∈ cs.getD b0 [] := by
    rw [hdec]; exact List.mem_append_right _ (List.mem_cons_self _ _)
  have hbb := rep_occ_unique hlen hnd hb' hb0 hmem1 hmem0
  subst hbb
  have hnd2 : (cs.getD b' []).Nodup := rep_chain_nodup hlen hnd hb'
  have heq2 : (P' ++ [p]) ++ i :: S' = P ++ i :: S := by
    rw [← hdec, hdec']
    simp
  have hnd3 : ((P' ++ [p]) ++ i :: S').Nodup := by
    rw [heq2, ← hdec]
    exact hnd2
  obtain ⟨hPeq, _⟩ := nodup_split_unique hnd3 heq2
  constructor
  · rw [← hPeq]
    simp
  · rw [← hPeq]
    simp

end ChainsRepLemmas

section ChainSurgeryLemmas

theorem setNext_length (pool : List XC.CEntry) (i : Nat) (nx : Option Nat) :
    (XC.setNext pool i nx).length = pool.length := by
  simp [XC.setNext]

theorem getD_setNext_self {pool : List XC.CEntry} {i : Nat} {nx : Option Nat}
    (hi : i < pool.length) :
    (XC.setNext pool i nx).getD i default =
      { pool.getD i default with next := nx } := by
  unfold XC.setNext
  rw [List.getD_eq_getElem?_getD, List.getElem?_set_self (by exact hi)]
  rfl

theorem getD_setNext_ne {pool : List XC.CEntry} {i p : Nat} {nx : Option Nat}
    (hne : p ≠ i) :
    (XC.setNext pool i nx).getD p default = pool.getD p default := by
  unfold XC.setNext
  rw [List.getD_eq_getElem?_getD, List.getElem?_set_ne (by omega),
    List.getD_eq_getElem?_getD]

theorem chainLinked_congr {pool pool' : List XC.CEntry} :
    ∀ ch, (∀ a ∈ ch, (pool'.getD a default).next = (pool.getD a default).next) →
      XC.chainLinked pool' ch = XC.chainLinked pool ch := by
  intro ch
  induction ch with
  | nil => intro _; rfl
  | cons a ch ih =>
    intro h
    show (decide ((pool'.getD a default).next = ch.head?) && _) = _
    rw [h a (List.mem_cons_self _ _), ih fun x hx => h x (List.mem_cons_of_mem _ hx)]
    rfl

theorem chainLinked_suffix {pool : List XC.CEntry} :
    ∀ A B, XC.chainLinked pool (A ++ B) = true →
      XC.chainLinked pool B = true := by
  intro A
  induction A with
  | nil => intro B h; exact h
  | cons a A ih =>
    intro B h
    exact ih B (chainLinked_cons_iff.mp h).2

theorem chainLinked_relink {pool : List XC.CEntry} {i pm : Nat}
    {S : List Nat} (hpm : pm < pool.length) :
    ∀ P₀, XC.chainLinked pool ((P₀ ++ [pm]) ++ i :: S) = true →
      ((P₀ ++ [pm]) ++ i :: S).Nodup →
      XC.chainLinked (XC.setNext pool pm S.head?) ((P₀ ++ [pm]) ++ S) = true := by
  intro P₀
  induction P₀ with
  | nil =>
    intro h hnd
    have h1 := chainLinked_cons_iff.mp (show XC.chainLinked pool (pm :: i :: S) = true by simpa using h)
    have h2 := (chainLinked_cons_iff.mp h1.2).2
    show XC.chainLinked (XC.setNext pool pm S.head?) (pm :: S) = true
    apply chainLinked_cons_iff.mpr
    constructor
    · rw [getD_setNext_self hpm]
    · rw [chainLinked_congr S]
      · exact h2
      · intro x hx
        have hxpm : x ≠ pm := by
          intro hx2
          subst hx2
          simp only [List.cons_append, List.nodup_cons, List.nil_append] at hnd
          exact hnd.1 (List.mem_cons_of_mem _ hx)
        rw [getD_setNext_ne hxpm]
  | cons a P₀ ih =>
    intro h hnd
    simp only [List.cons_append] at h hnd ⊢
    have h1 := chainLinked_cons_iff.mp h
    have hapm : a ≠ pm := by
      intro ha
      subst ha
      simp only [List.nodup_cons] at hnd
      exact hnd.1 (by simp)
    apply chainLinked_cons_iff.mpr
    refine ⟨?_, ih h1.2 (by simp only [List.nodup_cons] at hnd; exact hnd.2)⟩
    rw [getD_setNext_ne hapm, h1.1]
    cases P₀ with
    | nil => simp
    | cons b P₁ => simp

theorem pathLinked_of_chain2 {pool pool' : List XC.CEntry} {o : Nat} :
    ∀ (W rest : List Nat), XC.chainLinked pool (W ++ o :: rest) = true →
      (W ++ o :: rest).Nodup → W ≠ [] →
      (∀ a ∈ W, (pool'.getD a default).next = (pool.getD a default).next) →
      XC.pathLinked pool' o W = true := by
  intro W
  induction W with
  | nil => intro rest _ _ hne _; exact absurd rfl hne
  | cons a W ih =>
    intro rest h hnd _ hagree
    have h1 := chainLinked_cons_iff.mp h
    cases W with
    | nil =>
      show decide ((pool'.getD a default).next = some o) = true
      rw [hagree a (by simp), h1.1]
      simp
    | cons b W' =>
      show (_ && _) = true
      rw [Bool.and_eq_true, Bool.and_eq_true]
      refine ⟨⟨?_, ?_⟩, ?_⟩
      · rw [decide_eq_true_iff, hagree a (by simp), h1.1]
        rfl
      · rw [decide_eq_true_iff]
        intro hbo
        subst hbo
        simp only [List.cons_append, List.nodup_cons] at hnd
        exact hnd.2.1 (by simp)
      · exact ih rest h1.2
          (by simp only [List.cons_append, List.nodup_cons] at hnd ⊢; exact hnd.2)
          (by simp)
          (fun x hx => hagree x (List.mem_cons_of_mem _ hx))

theorem RematLoop_finds {pool : List XC.CEntry} {o i : Nat} :
    ∀ (W : List Nat) (fuel start q : Nat), W.head? = some start →
      W.getLast? = some q →
      XC.pathLinked pool o W = true → W.length ≤ fuel →
      XC.RematLoop pool o i fuel start = XC.setNext pool q (some i) := by
  intro W
  induction W with
  | nil => intro fuel start q h; simp at h
  | cons a W ih =>
    intro fuel start q hhead hlast hpath hfuel
    cases Option.some_inj.mp hhead
    cases fuel with
    | zero => simp at hfuel
    | succ f =>
      cases W with
      | nil =>
        rw [XC.pathLinked] at hpath
        have hnext : (pool.getD a default).next = some o :=
          decide_eq_true_eq.mp hpath
        cases Option.some_inj.mp hlast
        rw [XC.RematLoop]
        rw [hnext]
        simp
      | cons b W' =>
        rw [XC.pathLinked, Bool.and_eq_true, Bool.and_eq_true] at hpath
        obtain ⟨⟨hab, hbo⟩, hrest⟩ := hpath
        have hab' : (pool.getD a default).next = some b :=
          decide_eq_true_eq.mp hab
        have hbo' : b ≠ o := decide_eq_true_eq.mp hbo
        rw [XC.RematLoop, hab']
        simp only [if_neg hbo']
        exact ih f b q rfl (by simpa using hlast) hrest (by simpa using hfuel)

theorem RemoveWalk_on_chain {pool : List XC.CEntry} {k : Nat} :
    ∀ (ch : List Nat) (fuel : Nat) (old0 : Option Nat),
      XC.chainLinked pool ch = true → ch.length ≤ fuel →
      (∀ j ∈ ch, j < pool.length) →
      (∃ j, j ∈ ch ∧ (pool.getD j default).key = k) →
      ∃ i P S, ch = P ++ i :: S ∧ (pool.getD i default).key = k ∧
        (∀ j ∈ P, (pool.getD j default).key ≠ k) ∧
        XC.RemoveWalk pool k fuel ch.head? old0 =
          some (i, P.getLast?.or old0) := by
  intro ch
  induction ch with
  | nil =>
    intro fuel old0 _ _ _ hex
    obtain ⟨j, hj, _⟩ := hex
    simp at hj
  | cons i0 rest ih =>
    intro fuel old0 hlink hfuel hlt hex
    cases fuel with
    | zero => simp at hfuel
    | succ f =>
      have hi0 : i0 < pool.length := hlt i0 (by simp)
      have hget : pool[i0]? = some (pool.getD i0 default) := by
        rw [List.getElem?_eq_getElem hi0, List.getD_eq_getElem?_getD,
          List.getElem?_eq_getElem hi0]
        rfl
      by_cases hkey : (pool.getD i0 default).key = k
      · refine ⟨i0, [], rest, rfl, hkey, by simp, ?_⟩
        show XC.RemoveWalk pool k (f+1) (some i0) old0 = some (i0, old0)
        have hkey2 : (pool[i0]?.getD default).key = k := by
          rw [← List.getD_eq_getElem?_getD]
          exact hkey
        rw [XC.RemoveWalk, hget]
        simp [hkey2]
      · have hnext : (pool.getD i0 default).next = rest.head? :=
          (chainLinked_cons_iff.mp hlink).1
        have hkey2 : ¬ (pool[i0]?.getD default).key = k := by
          rw [← List.getD_eq_getElem?_getD]
          exact hkey
        have hnext2 : (pool[i0]?.getD default).next = rest.head? := by
          rw [← List.getD_eq_getElem?_getD]
          exact hnext
        obtain ⟨j, hj, hjk⟩ := hex
        have hjrest : j ∈ rest := by
          rcases List.mem_cons.mp hj with h | h
          · exact absurd (h ▸ hjk) hkey
          · exact h
        obtain ⟨i, P', S, hdec, hik, hPk, hwalk⟩ :=
          ih f (some i0) (chainLinked_cons_iff.mp hlink).2
            (by simpa using hfuel)
            (fun x hx => hlt x (List.mem_cons_of_mem _ hx)) ⟨j, hjrest, hjk⟩
        refine ⟨i, i0 :: P', S, by rw [hdec]; simp, hik, ?_, ?_⟩
        · intro x hx
          rcases List.mem_cons.mp hx with h | h
          · exact h ▸ hkey
          · exact hPk x h
        · show XC.RemoveWalk pool k (f+1) (some i0) old0 = _
          rw [XC.RemoveWalk, hget]
          show (if (pool.getD i0 default).key = k then some (i0, old0)
            else XC.RemoveWalk pool k f (pool.getD i0 default).next (some i0)) = _
          rw [if_neg hkey, hnext, hwalk]
          suffices hor : P'.getLast?.or (some i0) = (i0 :: P').getLast?.or old0 by
            rw [hor]
          cases P' with
          | nil => rfl
          | cons p1 P'' =>
            have h1 : (i0 :: p1 :: P'').getLast? = (p1 :: P'').getLast? := by
              show ([i0] ++ (p1 :: P'')).getLast? = _
              rw [List.getLast?_append]
              cases hgl : (p1 :: P'').getLast? with
              | none => simp [List.getLast?_eq_none_iff] at hgl
              | some q => rfl
            rw [h1]
            cases hgl : (p1 :: P'').getLast? with
            | none => simp [List.getLast?_eq_none_iff] at hgl
            | some q => rfl

theorem join_set_decomp {cs : List (List Nat)} :
    ∀ b, b < cs.length → ∃ p q, cs.join = p ++ (cs.getD b []) ++ q ∧
      ∀ l, (cs.set b l).join = p ++ l ++ q := by
  induction cs with
  | nil => intro b hb; simp at hb
  | cons c0 cs' ih =>
    intro b hb
    cases b with
    | zero =>
      refine ⟨[], cs'.join, by simp, fun l => by simp⟩
    | succ b' =>
      obtain ⟨p', q', h1, h2⟩ := ih b' (by simpa using hb)
      refine ⟨c0 ++ p', q', ?_, fun l => ?_⟩
      · show c0 ++ cs'.join = _
        rw [h1]
        simp only [List.getD_eq_getElem?_getD, List.getElem?_cons_succ]
        simp [List.append_assoc]
      · show c0 ++ (cs'.set b' l).join = _
        rw [h2 l]
        simp [List.append_assoc]

theorem setNext_key (pool : List XC.CEntry) (x p : Nat) (nx : Option Nat) :
    ((XC.setNext pool x nx).getD p default).key =
      (pool.getD p default).key := by
  by_cases hpx : p = x
  · subst hpx
    by_cases hp : p < pool.length
    · rw [getD_setNext_self hp]
    · unfold XC.setNext
      rw [List.set_eq_of_length_le (by omega)]
  · rw [getD_setNext_ne hpx]

theorem nodup_mid_subst {X Y : List Nat} {o i : Nat}
    (hnd : (X ++ o :: Y).Nodup) (hi : i ∉ X ++ o :: Y) :
    (X ++ i :: Y).Nodup ∧
      (∀ t, t ∈ X ++ i :: Y ↔ ((t ∈ X ++ o :: Y ∧ t ≠ o) ∨ t = i)) := by
  rw [List.nodup_middle, List.nodup_cons] at hnd
  have hoXY : o ∉ X ++ Y := hnd.1
  have hiXY : i ∉ X ++ Y := by
    intro hmem
    apply hi
    rcases List.mem_append.mp hmem with h | h
    · exact List.mem_append_left _ h
    · exact List.mem_append_right _ (List.mem_cons_of_mem _ h)
  constructor
  · rw [List.nodup_middle, List.nodup_cons]
    exact ⟨hiXY, hnd.2⟩
  · intro t
    have hoX : o ∉ X := fun h => hoXY (List.mem_append_left _ h)
    have hoY : o ∉ Y := fun h => hoXY (List.mem_append_right _ h)
    constructor
    · intro ht
      rcases List.mem_append.mp ht with h | h
      · exact Or.inl ⟨List.mem_append_left _ h, fun he => hoX (he ▸ h)⟩
      · rcases List.mem_cons.mp h with h | h
        · exact Or.inr h
        · exact Or.inl ⟨List.mem_append_right _ (List.mem_cons_of_mem _ h),
            fun he => hoY (he ▸ h)⟩
    · intro ht
      rcases ht with ⟨hmem, hne⟩ | heq
      · rcases List.mem_append.mp hmem with h | h
        · exact List.mem_append_left _ h
        · rcases List.mem_cons.mp h with h | h
          · exact absurd h hne
          · exact List.mem_append_right _ (List.mem_cons_of_mem _ h)
      · subst heq
        exact List.mem_append_right _ (List.mem_cons_self _ _)

theorem chainLinked_graft {pool1 pool2 : List XC.CEntry} {o i : Nat}
    {rest : List Nat}
    (hi : (pool2.getD i default).next = rest.head?)
    (hrest2 : XC.chainLinked pool2 rest = true) :
    ∀ A, XC.chainLinked pool1 (A ++ o :: rest) = true →
      A.Nodup →
      (∀ a ∈ A, A.getLast? ≠ some a →
        (pool2.getD a default).next = (pool1.getD a default).next) →
      (∀ q, A.getLast? = some q → (pool2.getD q default).next = some i) →
      XC.chainLinked pool2 (A ++ i :: rest) = true := by
  intro A
  induction A with
  | nil =>
    intro _ _ _ _
    exact chainLinked_cons_iff.mpr ⟨hi, hrest2⟩
  | cons a A' ih =>
    intro h hnd hagree hlast
    have h1 := chainLinked_cons_iff.mp h
    cases A' with
    | nil =>
      have hnext2 : (pool2.getD a default).next = some i := hlast a rfl
      apply chainLinked_cons_iff.mpr
      exact ⟨by simpa using hnext2, chainLinked_cons_iff.mpr ⟨hi, hrest2⟩⟩
    | cons a' A'' =>
      have hglcons : (a :: a' :: A'').getLast? = (a' :: A'').getLast? := by
        show ([a] ++ (a' :: A'')).getLast? = _
        rw [List.getLast?_append]
        cases hgl : (a' :: A'').getLast? with
        | none => simp [List.getLast?_eq_none_iff] at hgl
        | some q => rfl
      have hane : (a :: a' :: A'').getLast? ≠ some a := by
        rw [hglcons]
        intro hcontra
        have : a ∈ a' :: A'' := by
          have := List.getLast?_eq_some_iff.mp hcontra
          obtain ⟨l', hl'⟩ := this
          rw [hl']
          exact List.mem_append_right _ (List.mem_cons_self _ _)
        simp only [List.nodup_cons] at hnd
        exact hnd.1 this
      apply chainLinked_cons_iff.mpr
      constructor
      · rw [hagree a (by simp) hane, h1.1]
        rfl
      · apply ih h1.2 hnd.of_cons
        · intro x hx hgl
          exact hagree x (List.mem_cons_of_mem _ hx) (by rw [hglcons]; exact hgl)
        · intro q hq
          exact hlast q (by rw [hglcons]; exact hq)

theorem rep_goals {c' : XC.CTable} {cs' : List (List Nat)}
    (hw : XC.WeakRep c' cs')
    (hnd : cs'.join.Nodup)
    (hsub : ∀ t ∈ cs'.join, t < c'.pool.length)
    (hmem : ∀ t, t < c'.pool.length → t ∈ cs'.join) :
    (∀ b t, b < c'.table.length → c'.table.getD b none = some t →
      t < c'.pool.length) ∧
    (∀ p t, p < c'.pool.length → (c'.pool.getD p default).next = some t →
      t < c'.pool.length) ∧
    (∀ p, p < c'.pool.length → (c'.pool.getD p default).next ≠ some p) := by
  obtain ⟨hlen, hheads, hlink⟩ := hw
  refine ⟨?_, ?_, ?_⟩
  · intro b t hb hhead
    obtain ⟨S, hS⟩ := rep_head_target hheads hb hhead
    exact rep_chain_elem_lt hlen hsub hb (by rw [hS]; exact List.mem_cons_self _ _)
  · intro p t hp hnext
    obtain ⟨b, P, S, hb, hdec⟩ := rep_next_target hlen hlink (hmem p hp) hnext
    refine rep_chain_elem_lt hlen hsub hb ?_
    rw [hdec]
    exact List.mem_append_right _ (List.mem_cons_of_mem _ (List.mem_cons_self _ _))
  · intro p hp hself
    obtain ⟨b, P, S, hb, hdec⟩ := rep_next_target hlen hlink (hmem p hp) hself
    have hnd2 : (cs'.getD b []).Nodup := rep_chain_nodup hlen hnd hb
    rw [hdec] at hnd2
    have := hnd2.of_append_right
    simp only [List.nodup_cons] at this
    exact this.1 (List.mem_cons_self _ _)

theorem mem_chain_decomp {cs : List (List Nat)} {L : Nat}
    (hlen : cs.length = L) {t : Nat} (ht : t ∈ cs.join) :
    ∃ b A rest, b < L ∧ cs.getD b [] = A ++ t :: rest := by
  rw [List.mem_join] at ht
  obtain ⟨l, hl, htl⟩ := ht
  obtain ⟨b, hb, hbl⟩ := List.mem_iff_getElem.mp hl
  obtain ⟨A, rest, hAr⟩ := List.append_of_mem htl
  refine ⟨b, A, rest, hlen ▸ hb, ?_⟩
  rw [List.getD_eq_getElem?_getD, List.getElem?_eq_getElem hb, hbl]
  exact hAr

theorem join_removal_facts {X Y : List Nat} {i n : Nat}
    (hnd : (X ++ i :: Y).Nodup) (hmem : ∀ t, t ∈ X ++ i :: Y ↔ t < n)
    (hlen : (X ++ i :: Y).length = n) :
    (X ++ Y).Nodup ∧ i ∉ X ++ Y ∧
      (∀ t, t ∈ X ++ Y ↔ (t < n ∧ t ≠ i)) ∧ (X ++ Y).length = n - 1 := by
  rw [List.nodup_middle, List.nodup_cons] at hnd
  refine ⟨hnd.2, hnd.1, fun t => ?_, by simp at hlen ⊢; omega⟩
  constructor
  · intro ht
    refine ⟨(hmem t).mp ?_, fun he => hnd.1 (he ▸ ht)⟩
    rcases List.mem_append.mp ht with h | h
    · exact List.mem_append_left _ h
    · exact List.mem_append_right _ (List.mem_cons_of_mem _ h)
  · intro ⟨htn, hti⟩
    have := (hmem t).mpr htn
    rcases List.mem_append.mp this with h | h
    · exact List.mem_append_left _ h
    · rcases List.mem_cons.mp h with h | h
      · exact absurd h hti
      · exact List.mem_append_right _ h

theorem getD_set_self' {l : List (Option Nat)} {b : Nat} {v : Option Nat}
    (hb : b < l.length) : (l.set b v).getD b none = v := by
  rw [List.getD_eq_getElem?_getD, List.getElem?_set_self (by exact hb)]
  rfl

theorem getD_set_ne' {α : Type} {d : α} {l : List α} {b b' : Nat} {v : α}
    (hne : b' ≠ b) : (l.set b v).getD b' d = l.getD b' d := by
  rw [List.getD_eq_getElem?_getD, List.getElem?_set_ne (by omega),
    List.getD_eq_getElem?_getD]

theorem getDl_set_self {l : List (List Nat)} {b : Nat} {v : List Nat}
    (hb : b < l.length) : (l.set b v).getD b [] = v := by
  rw [List.getD_eq_getElem?_getD, List.getElem?_set_self (by exact hb)]
  rfl

/-- Unlink when the victim is the chain head: retarget the bucket head to
the victim's next-link. -/
theorem unlink_head_rep {c : XC.CTable} {cs : List (List Nat)}
    (hlen : cs.length = c.table.length)
    (hheads : ∀ b, b < c.table.length →
      c.table.getD b none = (cs.getD b []).head?)
    (hlink : ∀ b, b < c.table.length →
      XC.chainLinked c.pool (cs.getD b []) = true)
    {β i : Nat} {S : List Nat} (hβ : β < c.table.length)
    (hdec : cs.getD β [] = i :: S) :
    XC.WeakRep { c with table := c.table.set β S.head? } (cs.set β S) := by
  refine ⟨by simp [hlen], fun b hb => ?_, fun b hb => ?_⟩
  · simp only at hb ⊢
    by_cases hbβ : b = β
    · subst hbβ
      rw [getD_set_self' (by simpa using hb),
        getDl_set_self (by rw [hlen]; simpa using hb)]
    · rw [getD_set_ne' hbβ, getD_set_ne' hbβ]
      exact hheads b (by simpa using hb)
  · simp only at hb ⊢
    by_cases hbβ : b = β
    · subst hbβ
      rw [getDl_set_self (by rw [hlen]; simpa using hb)]
      have := hlink b (by simpa using hb)
      rw [hdec] at this
      exact (chainLinked_cons_iff.mp this).2
    · rw [getD_set_ne' hbβ]
      exact hlink b (by simpa using hb)

/-- Unlink when the victim has a chain predecessor `pm`: retarget `pm`'s
next-link to the victim's next-link. -/
theorem unlink_next_rep {c : XC.CTable} {cs : List (List Nat)}
    (hlen : cs.length = c.table.length)
    (hheads : ∀ b, b < c.table.length →
      c.table.getD b none = (cs.getD b []).head?)
    (hlink : ∀ b, b < c.table.length →
      XC.chainLinked c.pool (cs.getD b []) = true)
    (hnd : cs.join.Nodup)
    (hsub : ∀ t ∈ cs.join, t < c.pool.length)
    {β i pm : Nat} {P₀ S : List Nat} (hβ : β < c.table.length)
    (hdec : cs.getD β [] = (P₀ ++ [pm]) ++ i :: S) :
    XC.WeakRep { c with pool := XC.setNext c.pool pm S.head? }
      (cs.set β ((P₀ ++ [pm]) ++ S)) := by
  have hpmchain : pm ∈ cs.getD β [] := by
    rw [hdec]
    exact List.mem_append_left _ (List.mem_append_right _ (List.mem_cons_self _ _))
  have hpm : pm < c.pool.length := rep_chain_elem_lt hlen hsub hβ hpmchain
  refine ⟨by simp [hlen], fun b hb => ?_, fun b hb => ?_⟩
  · simp only at hb ⊢
    by_cases hbβ : b = β
    · subst hbβ
      rw [getDl_set_self (by rw [hlen]; exact hb), hheads b hb, hdec]
      cases P₀ <;> simp
    · rw [getD_set_ne' hbβ]
      exact hheads b hb
  · simp only at hb ⊢
    by_cases hbβ : b = β
    · subst hbβ
      rw [getDl_set_self (by rw [hlen]; exact hb)]
      have hch := hlink b hb
      rw [hdec] at hch
      have hchnd : (cs.getD b []).Nodup := rep_chain_nodup hlen hnd hb
      rw [hdec] at hchnd
      exact chainLinked_relink hpm P₀ hch hchnd
    · rw [getD_set_ne' hbβ]
      rw [chainLinked_congr]
      · exact hlink b hb
      · intro x hx
        have hxpm : x ≠ pm := by
          intro hxe
          subst hxe
          exact hbβ (rep_occ_unique hlen hnd hb hβ hx hpmchain)
        rw [getD_setNext_ne hxpm]

/-- In a weakly represented state whose joined chains avoid `i`, no bucket
head and no live next-link references `i`. -/
theorem no_inlink {c1 : XC.CTable} {cs1 : List (List Nat)}
    (hw : XC.WeakRep c1 cs1) {i : Nat} (hni : i ∉ cs1.join)
    (hnexti : (c1.pool.getD i default).next ≠ some i)
    (hmem1 : ∀ t, t < c1.pool.length → t ≠ i → t ∈ cs1.join) :
    (∀ b, b < c1.table.length → c1.table.getD b none ≠ some i) ∧
    (∀ p, p < c1.pool.length →
      (c1.pool.getD p default).next ≠ some i) := by
  obtain ⟨hlen, hheads, hlink⟩ := hw
  constructor
  · intro b hb hhead
    obtain ⟨S, hS⟩ := rep_head_target hheads hb hhead
    exact hni (@mem_join_of_mem_chain cs1 b i (by omega)
      (by rw [hS]; exact List.mem_cons_self _ _))
  · intro p hp hnext
    by_cases hpi : p = i
    · exact hnexti (hpi ▸ hnext)
    · obtain ⟨b, A, S, hb, hdec2⟩ :=
        rep_next_target hlen hlink (hmem1 p hp hpi) hnext
      refine hni (@mem_join_of_mem_chain cs1 b i (by omega) ?_)
      rw [hdec2]
      exact List.mem_append_right _ (List.mem_cons_of_mem _ (List.mem_cons_self _ _))

theorem RematEntry_eq (c : XC.CTable) (hash : Nat → Nat) (iOld iNew : Nat) :
    XC.RematEntry c hash iOld iNew =
      match c.table.getD
          (XC.XIndex (hash ((c.pool.getD iNew default).key)) c.table.length)
          none with
      | none => c
      | some h0 =>
        if h0 = iOld then
          { c with table := (c.table.set
              (XC.XIndex (hash ((c.pool.getD iNew default).key)) c.table.length)
              (some iNew)) }
        else { c with pool := XC.RematLoop c.pool iOld iNew c.pool.length h0 } :=
  rfl

theorem Remove_eq_tail {c : XC.CTable} {hash : Nat → Nat} {k i : Nat}
    {old : Option Nat}
    (hwalk : XC.RemoveWalk c.pool k c.pool.length
      (c.table.getD (XC.IndexK c hash k) none) none = some (i, old)) :
    XC.Remove c hash k =
      XC.RemoveTail
        (match old with
          | some p =>
            { c with pool := XC.setNext c.pool p ((c.pool.getD i default).next) }
          | none =>
            { c with table := (c.table.set (XC.IndexK c hash k)
                ((c.pool.getD i default).next)) })
        hash i := by
  cases old with
  | none => simp only [XC.Remove, XC.RemoveTail, hwalk]
  | some p => simp only [XC.Remove, XC.RemoveTail, hwalk]

/-- After the compaction moved the old last entry `n-1` into the victim's
freed slot `i` (state `c3`), `RematEntry` repairs the one link that still
references `n-1`; the result is represented by the chains of `cs1` with
that single occurrence of `n-1` renamed to `i`. -/
theorem remat_case_rep {hash : Nat → Nat} {c1 : XC.CTable}
    {cs1 : List (List Nat)} {i n : Nat} {c3 : XC.CTable}
    (hw1 : XC.WeakRep c1 cs1)
    (hnd1 : cs1.join.Nodup)
    (hmem1 : ∀ t, t ∈ cs1.join ↔ (t < n ∧ t ≠ i))
    (hjlen1 : cs1.join.length = n - 1)
    (hbucket1 : ∀ b, b < c1.table.length → ∀ t ∈ cs1.getD b [],
      XC.XIndex (hash ((c1.pool.getD t default).key)) c1.table.length = b)
    (hin : i < n) (hio : i ≠ n - 1)
    (htab3 : c3.table = c1.table)
    (hpl3 : c3.pool.length = n - 1)
    (hrel : c3.pool.getD i default = c1.pool.getD (n - 1) default)
    (hframe : ∀ j, j < n - 1 → j ≠ i →
      c3.pool.getD j default = c1.pool.getD j default) :
    ∃ cs3, XC.WeakRep (XC.RematEntry c3 hash (n - 1) i) cs3 ∧
      (XC.RematEntry c3 hash (n - 1) i).pool.length = n - 1 ∧
      cs3.join.Nodup ∧
      (∀ t, t ∈ cs3.join ↔ t < n - 1) := by
  obtain ⟨hlen1, hheads1, hlink1⟩ := hw1
  have ho_mem : (n - 1) ∈ cs1.join := (hmem1 _).mpr ⟨by omega, fun h => hio h.symm⟩
  obtain ⟨γ, A, rest, hγ, hdecγ⟩ := mem_chain_decomp hlen1 ho_mem
  have hchainγ : XC.chainLinked c1.pool (A ++ (n - 1) :: rest) = true := by
    have := hlink1 γ hγ; rwa [hdecγ] at this
  have hndγ : (A ++ (n - 1) :: rest).Nodup := by
    have := rep_chain_nodup hlen1 hnd1 hγ; rwa [hdecγ] at this
  have hndsplit := hndγ
  rw [List.nodup_middle, List.nodup_cons] at hndsplit
  have hoAr : (n - 1) ∉ A ++ rest := hndsplit.1
  have hndAr : (A ++ rest).Nodup := hndsplit.2
  have hchain_elem : ∀ t ∈ cs1.getD γ [], t < n ∧ t ≠ i := fun t ht =>
    (hmem1 t).mp (mem_join_of_mem_chain (by omega) ht)
  have hAlt : ∀ a ∈ A, a < n - 1 ∧ a ≠ i := by
    intro a ha
    have h1 := hchain_elem a (by rw [hdecγ]; exact List.mem_append_left _ ha)
    have h2 : a ≠ n - 1 := fun he => hoAr (List.mem_append_left _ (he ▸ ha))
    exact ⟨by omega, h1.2⟩
  have hrestlt : ∀ a ∈ rest, a < n - 1 ∧ a ≠ i := by
    intro a ha
    have h1 := hchain_elem a (by
      rw [hdecγ]
      exact List.mem_append_right _ (List.mem_cons_of_mem _ ha))
    have h2 : a ≠ n - 1 := fun he =>
      hoAr (List.mem_append_right _ (he ▸ ha))
    exact ⟨by omega, h1.2⟩
  have hno : (c1.pool.getD (n - 1) default).next = rest.head? :=
    rep_next_of_mem hlink1 hγ hdecγ
  have hni3 : (c3.pool.getD i default).next = rest.head? := by
    rw [hrel]; exact hno
  have hrest3 : XC.chainLinked c3.pool rest = true := by
    have hagree : ∀ a ∈ rest,
        (c3.pool.getD a default).next = (c1.pool.getD a default).next := by
      intro a ha
      obtain ⟨h1, h2⟩ := hrestlt a ha
      rw [hframe a h1 h2]
    rw [chainLinked_congr rest hagree]
    exact chainLinked_suffix (A ++ [n - 1]) rest (by
      rw [List.append_assoc]; simpa using hchainγ)
  have hγeq : XC.XIndex (hash ((c3.pool.getD i default).key))
      c3.table.length = γ := by
    rw [hrel, htab3]
    exact hbucket1 γ hγ (n - 1) (by
      rw [hdecγ]; exact List.mem_append_right _ (List.mem_cons_self _ _))
  have hheadγ : c3.table.getD γ none = (A ++ (n - 1) :: rest).head? := by
    rw [htab3, hheads1 γ hγ, hdecγ]
  obtain ⟨p1, q1, hj1, hsetj⟩ := @join_set_decomp cs1 γ (by omega)
  rw [hdecγ] at hj1
  have hj1' : cs1.join = (p1 ++ A) ++ (n - 1) :: (rest ++ q1) := by
    rw [hj1]; simp [List.append_assoc]
  have hcs3j : (cs1.set γ (A ++ i :: rest)).join =
      (p1 ++ A) ++ i :: (rest ++ q1) := by
    rw [hsetj]; simp [List.append_assoc]
  have hiX : i ∉ (p1 ++ A) ++ (n - 1) :: (rest ++ q1) := by
    rw [← hj1']
    intro hmem
    exact ((hmem1 i).mp hmem).2 rfl
  obtain ⟨hnd3X, hmem3X⟩ := nodup_mid_subst (hj1' ▸ hnd1) hiX
  have hnd3 : (cs1.set γ (A ++ i :: rest)).join.Nodup := by
    rw [hcs3j]; exact hnd3X
  have hmem3 : ∀ t, t ∈ (cs1.set γ (A ++ i :: rest)).join ↔ t < n - 1 := by
    intro t
    rw [hcs3j, hmem3X t, ← hj1']
    constructor
    · rintro (⟨hmem, hne⟩ | rfl)
      · have := (hmem1 t).mp hmem; omega
      · omega
    · intro ht
      by_cases hti : t = i
      · exact Or.inr hti
      · exact Or.inl ⟨(hmem1 t).mpr ⟨by omega, hti⟩, by omega⟩
  have hlensum : p1.length + (A.length + 1 + rest.length) + q1.length
      = n - 1 := by
    have := congrArg List.length hj1
    simp only [List.length_append, List.length_cons] at this
    omega
  have hother : ∀ b, b < c1.table.length → b ≠ γ → ∀ x ∈ cs1.getD b [],
      x < n - 1 ∧ x ≠ i ∧ x ∉ A := by
    intro b hb hbγ x hx
    have h1 := (hmem1 x).mp (mem_join_of_mem_chain (by omega) hx)
    have h2 : x ∉ cs1.getD γ [] := fun hxγ =>
      hbγ (rep_occ_unique hlen1 hnd1 hb hγ hx hxγ)
    rw [hdecγ] at h2
    have h3 : x ≠ n - 1 := fun he => h2 (by
      rw [he]; exact List.mem_append_right _ (List.mem_cons_self _ _))
    exact ⟨by omega, h1.2, fun hxA => h2 (List.mem_append_left _ hxA)⟩
  cases A with
  | nil =>
    have hhead0 : c3.table.getD γ none = some (n - 1) := by rw [hheadγ]; rfl
    have hremat : XC.RematEntry c3 hash (n - 1) i =
        { c3 with table := c3.table.set γ (some i) } := by
      rw [RematEntry_eq, hγeq, hhead0]
      exact if_pos rfl
    refine ⟨cs1.set γ ([] ++ i :: rest), ?_, ?_, hnd3, hmem3⟩
    · rw [hremat]
      refine ⟨?_, ?_, ?_⟩
      · show (cs1.set γ ([] ++ i :: rest)).length = (c3.table.set γ (some i)).length
        simp only [List.length_set]
        rw [hlen1, htab3]
      · intro b hb
        have hb' : b < c1.table.length := by
          have hb2 : b < (c3.table.set γ (some i)).length := hb
          rw [List.length_set, htab3] at hb2
          exact hb2
        show (c3.table.set γ (some i)).getD b none =
          ((cs1.set γ ([] ++ i :: rest)).getD b []).head?
        by_cases hbγ : b = γ
        · subst hbγ
          rw [getD_set_self' (by rw [htab3]; exact hb'),
            getDl_set_self (by omega)]
          rfl
        · rw [getD_set_ne' hbγ, getD_set_ne' hbγ, htab3]
          exact hheads1 b hb'
      · intro b hb
        have hb' : b < c1.table.length := by
          have hb2 : b < (c3.table.set γ (some i)).length := hb
          rw [List.length_set, htab3] at hb2
          exact hb2
        show XC.chainLinked c3.pool
          ((cs1.set γ ([] ++ i :: rest)).getD b []) = true
        by_cases hbγ : b = γ
        · subst hbγ
          rw [getDl_set_self (by omega)]
          exact chainLinked_cons_iff.mpr ⟨hni3, hrest3⟩
        · rw [getD_set_ne' hbγ]
          have hagree : ∀ x ∈ cs1.getD b [],
              (c3.pool.getD x default).next = (c1.pool.getD x default).next := by
            intro x hx
            obtain ⟨h1, h2, _⟩ := hother b hb' hbγ x hx
            rw [hframe x h1 h2]
          rw [chainLinked_congr _ hagree]
          exact hlink1 b hb'
    · rw [hremat]
      show c3.pool.length = n - 1
      exact hpl3
  | cons a0 A' =>
    have ha0A : a0 ∈ a0 :: A' := List.mem_cons_self _ _
    have ha0p := hAlt a0 ha0A
    have ha0o : a0 ≠ n - 1 := fun he =>
      hoAr (List.mem_append_left _ (he ▸ ha0A))
    have hhead0 : c3.table.getD γ none = some a0 := by rw [hheadγ]; rfl
    have hqex : ∃ q, (a0 :: A').getLast? = some q := by
      cases hq0 : (a0 :: A').getLast? with
      | none => rw [List.getLast?_eq_none_iff] at hq0; exact absurd hq0 (by simp)
      | some q => exact ⟨q, rfl⟩
    obtain ⟨q, hq⟩ := hqex
    have hqmem : q ∈ a0 :: A' := by
      obtain ⟨l', hl'⟩ := List.getLast?_eq_some_iff.mp hq
      rw [hl']
      exact List.mem_append_right _ (List.mem_cons_self _ _)
    obtain ⟨hqlt, hqi⟩ := hAlt q hqmem
    have hpath : XC.pathLinked c3.pool (n - 1) (a0 :: A') = true := by
      refine pathLinked_of_chain2 (a0 :: A') rest hchainγ hndγ (by simp) ?_
      intro a ha
      obtain ⟨h1, h2⟩ := hAlt a ha
      rw [hframe a h1 h2]
    have hAfuel : (a0 :: A').length ≤ c3.pool.length := by
      rw [hpl3]; omega
    have hloop : XC.RematLoop c3.pool (n - 1) i c3.pool.length a0 =
        XC.setNext c3.pool q (some i) :=
      RematLoop_finds (a0 :: A') c3.pool.length a0 q rfl hq hpath hAfuel
    have hremat : XC.RematEntry c3 hash (n - 1) i =
        { c3 with pool := XC.setNext c3.pool q (some i) } := by
      have h1 : XC.RematEntry c3 hash (n - 1) i =
          { c3 with pool := XC.RematLoop c3.pool (n - 1) i c3.pool.length a0 } := by
        rw [RematEntry_eq, hγeq, hhead0]
        exact if_neg ha0o
      rw [h1, hloop]
    have hAdisrest : (a0 :: A').Disjoint rest := (List.nodup_append.mp hndAr).2.2
    refine ⟨cs1.set γ ((a0 :: A') ++ i :: rest), ?_, ?_, hnd3, hmem3⟩
    · rw [hremat]
      refine ⟨?_, ?_, ?_⟩
      · show (cs1.set γ ((a0 :: A') ++ i :: rest)).length = c3.table.length
        simp only [List.length_set]
        rw [hlen1, htab3]
      · intro b hb
        have hb' : b < c1.table.length := by
          have hb2 : b < c3.table.length := hb
          rw [htab3] at hb2
          exact hb2
        show c3.table.getD b none =
          ((cs1.set γ ((a0 :: A') ++ i :: rest)).getD b []).head?
        by_cases hbγ : b = γ
        · subst hbγ
          rw [getDl_set_self (by omega), hheadγ]
          rfl
        · rw [getD_set_ne' hbγ, htab3]
          exact hheads1 b hb'
      · intro b hb
        have hb' : b < c1.table.length := by
          have hb2 : b < c3.table.length := hb
          rw [htab3] at hb2
          exact hb2
        show XC.chainLinked (XC.setNext c3.pool q (some i))
          ((cs1.set γ ((a0 :: A') ++ i :: rest)).getD b []) = true
        by_cases hbγ : b = γ
        · subst hbγ
          rw [getDl_set_self (by omega)]
          refine chainLinked_graft ?_ ?_ (a0 :: A') hchainγ
            (List.nodup_append.mp hndAr).1 ?_ ?_
          · rw [getD_setNext_ne (Ne.symm hqi)]
            exact hni3
          · have hagree : ∀ x ∈ rest,
                ((XC.setNext c3.pool q (some i)).getD x default).next =
                  (c3.pool.getD x default).next := by
              intro x hx
              have hxq : x ≠ q := fun he =>
                hAdisrest hqmem (by rw [← he]; exact hx)
              rw [getD_setNext_ne hxq]
            rw [chainLinked_congr _ hagree]
            exact hrest3
          · intro a ha hgl
            have haq : a ≠ q := fun he => hgl (by rw [he]; exact hq)
            obtain ⟨h1, h2⟩ := hAlt a ha
            rw [getD_setNext_ne haq, hframe a h1 h2]
          · intro q' hq'
            have hqq : q' = q := by
              rw [hq] at hq'
              exact (Option.some_inj.mp hq').symm
            subst hqq
            rw [getD_setNext_self (by omega)]
        · rw [getD_set_ne' hbγ]
          have hagree : ∀ x ∈ cs1.getD b [],
              ((XC.setNext c3.pool q (some i)).getD x default).next =
                (c1.pool.getD x default).next := by
            intro x hx
            obtain ⟨h1, h2, h3⟩ := hother b hb' hbγ x hx
            have hxq : x ≠ q := fun he => h3 (by rw [he]; exact hqmem)
            rw [getD_setNext_ne hxq, hframe x h1 h2]
          rw [chainLinked_congr _ hagree]
          exact hlink1 b hb'
    · rw [hremat]
      show (XC.setNext c3.pool q (some i)).length = n - 1
      rw [setNext_length, hpl3]

/-- Compaction safety of the `Remove` tail: starting from the unlinked
state `c1` (victim `i` off its chain, every other entry on exactly one
chain), the fix-up, `FastRemove` and `RematEntry` steps leave every bucket
head and next-link inside the shrunk pool, with no self-links. -/
theorem remove_tail_safe {hash : Nat → Nat} {c1 : XC.CTable}
    {cs1 : List (List Nat)} {i n : Nat}
    (hw1 : XC.WeakRep c1 cs1)
    (hpool1 : c1.pool.length = n)
    (hnd1 : cs1.join.Nodup)
    (hmem1 : ∀ t, t ∈ cs1.join ↔ (t < n ∧ t ≠ i))
    (hjlen1 : cs1.join.length = n - 1)
    (hbucket1 : ∀ b, b < c1.table.length → ∀ t ∈ cs1.getD b [],
      XC.XIndex (hash ((c1.pool.getD t default).key)) c1.table.length = b)
    (hnexti1 : (c1.pool.getD i default).next ≠ some i)
    (hin : i < n) (hn : 1 < n) :
    (XC.RemoveTail c1 hash i).pool.length = n - 1 ∧
    (∀ b t, b < (XC.RemoveTail c1 hash i).table.length →
      (XC.RemoveTail c1 hash i).table.getD b none = some t →
      t < (XC.RemoveTail c1 hash i).pool.length) ∧
    (∀ p t, p < (XC.RemoveTail c1 hash i).pool.length →
      ((XC.RemoveTail c1 hash i).pool.getD p default).next = some t →
      t < (XC.RemoveTail c1 hash i).pool.length) ∧
    (∀ p, p < (XC.RemoveTail c1 hash i).pool.length →
      ((XC.RemoveTail c1 hash i).pool.getD p default).next ≠ some p) := by
  have hnoin := no_inlink hw1 (fun hmem => ((hmem1 i).mp hmem).2 rfl) hnexti1
    (fun t ht hti => (hmem1 t).mpr ⟨by omega, hti⟩)
  have hcond : ¬(0 < c1.pool.length ∧ c1.pool.length - 1 ≠ i ∧
      (c1.pool.getD (c1.pool.length - 1) default).next = some i) := by
    rintro ⟨hpos, hne, hnx⟩
    exact hnoin.2 _ (by omega) hnx
  have hin1 : i < c1.pool.length := by omega
  have hfrlen : (XClassArray.FastRemove c1.pool i).length = c1.pool.length - 1 := by
    rw [XClassArray.FastRemove_eq, FastRemove_length hin1]
  have htail : XC.RemoveTail c1 hash i =
      if i ≠ (XClassArray.FastRemove c1.pool i).length then
        XC.RematEntry { c1 with pool := XClassArray.FastRemove c1.pool i }
          hash (c1.pool.length - 1) i
      else { c1 with pool := XClassArray.FastRemove c1.pool i } := by
    simp only [XC.RemoveTail]
    rw [if_neg hcond]
  rw [htail]
  by_cases hio : i = n - 1
  · rw [if_neg (by rw [hfrlen]; omega)]
    have hw3 : XC.WeakRep { c1 with pool := XClassArray.FastRemove c1.pool i }
        cs1 := by
      obtain ⟨hl, hh, hk⟩ := hw1
      refine ⟨hl, hh, fun b hb => ?_⟩
      have hb' : b < c1.table.length := hb
      have hagree : ∀ x ∈ cs1.getD b [],
          ((XClassArray.FastRemove c1.pool i).getD x default).next =
            (c1.pool.getD x default).next := by
        intro x hx
        have hxj := (hmem1 x).mp (mem_join_of_mem_chain (by omega) hx)
        rw [XClassArray.FastRemove_eq,
          FastRemove_frame default hin1 (by omega) hxj.2]
      show XC.chainLinked (XClassArray.FastRemove c1.pool i)
        (cs1.getD b []) = true
      rw [chainLinked_congr _ hagree]
      exact hk b hb'
    have hplen : ({ c1 with pool := XClassArray.FastRemove c1.pool i } :
        XC.CTable).pool.length = n - 1 := by
      show (XClassArray.FastRemove c1.pool i).length = n - 1
      rw [hfrlen]; omega
    obtain ⟨g1, g2, g3⟩ := rep_goals hw3 hnd1
      (fun t ht => by
        have := (hmem1 t).mp ht
        rw [hplen]; omega)
      (fun t ht => by
        rw [hplen] at ht
        exact (hmem1 t).mpr ⟨by omega, by omega⟩)
    exact ⟨hplen, g1, g2, g3⟩
  · rw [if_pos (by rw [hfrlen]; omega)]
    have hc1l : c1.pool.length - 1 = n - 1 := by omega
    rw [hc1l]
    obtain ⟨cs3, hw3, hlen3, hnd3, hmem3⟩ := @remat_case_rep hash c1 cs1 i n
      { c1 with pool := XClassArray.FastRemove c1.pool i }
      hw1 hnd1 hmem1 hjlen1 hbucket1 hin hio rfl
      (by
        show (XClassArray.FastRemove c1.pool i).length = n - 1
        rw [hfrlen]; omega)
      (by
        show (XClassArray.FastRemove c1.pool i).getD i default =
          c1.pool.getD (n - 1) default
        rw [XClassArray.FastRemove_eq, FastRemove_relocated default (by omega),
          hpool1])
      (by
        intro j hj hji
        show (XClassArray.FastRemove c1.pool i).getD j default =
          c1.pool.getD j default
        rw [XClassArray.FastRemove_eq,
          FastRemove_frame default hin1 (by omega) hji])
    obtain ⟨g1, g2, g3⟩ := rep_goals hw3 hnd3
      (fun t ht => by rw [hlen3]; exact (hmem3 t).mp ht)
      (fun t ht => (hmem3 t).mpr (by rw [hlen3] at ht; exact ht))
    exact ⟨hlen3, g1, g2, g3⟩

end ChainSurgeryLemmas

/-- C3: for a chained `XHashTable` satisfying its reachability invariant
(witnessed by the bucket-chain decomposition `cs`) and holding more than
one entry, after `Remove` of any present key the pool has shrunk by one and
every surviving link is safe: every bucket head and every entry's
next-link refers to an index inside the shrunk pool (nothing references
the freed last slot), and no entry's next-link equals its own index (no
self-cycle).  This covers in particular the case where the pool's last
entry is the victim's chain predecessor (the pre-copy fix-up) and the case
where the relocated entry belongs to a different bucket than the removed
key (the `RematEntry` repair). -/
theorem C3_remove_compaction (hash : Nat → Nat) (c : XC.CTable)
    (cs : List (List Nat)) (k : Nat)
    (hrep : XC.ChainsRep hash c cs)
    (hpresent : ∃ e ∈ c.pool, e.key = k)
    (hsize : 1 < c.pool.length) :
    (XC.Remove c hash k).pool.length = c.pool.length - 1 ∧
    (∀ b t, b < (XC.Remove c hash k).table.length →
      (XC.Remove c hash k).table.getD b none = some t →
      t < (XC.Remove c hash k).pool.length) ∧
    (∀ p t, p < (XC.Remove c hash k).pool.length →
      ((XC.Remove c hash k).pool.getD p default).next = some t →
      t < (XC.Remove c hash k).pool.length) ∧
    (∀ p, p < (XC.Remove c hash k).pool.length →
      ((XC.Remove c hash k).pool.getD p default).next ≠ some p) := by
  obtain ⟨⟨hlen, hheads, hlink⟩, hperm, hbucket⟩ := hrep
  have hnd : cs.join.Nodup := join_nodup_of_perm hperm
  have hmemj : ∀ t, t ∈ cs.join ↔ t < c.pool.length := fun t => by
    rw [hperm.mem_iff, List.mem_range]
  have hsub : ∀ t ∈ cs.join, t < c.pool.length := fun t ht => (hmemj t).mp ht
  have hjlen : cs.join.length = c.pool.length := by
    rw [hperm.length_eq, List.length_range]
  -- the present key pins down its bucket
  obtain ⟨e, hemem, hekey⟩ := hpresent
  obtain ⟨j0, hj0n, hj0⟩ := List.mem_iff_getElem.mp hemem
  have hj0d : c.pool.getD j0 default = e := by
    rw [List.getD_eq_getElem?_getD, List.getElem?_eq_getElem hj0n, hj0]
    rfl
  have hj0j : j0 ∈ cs.join := (hmemj j0).mpr hj0n
  obtain ⟨β0, A0, r0, hβ0, hdec0⟩ := mem_chain_decomp hlen hj0j
  have hβk : XC.IndexK c hash k = β0 := by
    have := hbucket β0 hβ0 j0 (by
      rw [hdec0]
      exact List.mem_append_right _ (List.mem_cons_self _ _))
    rw [hj0d, hekey] at this
    exact this
  -- walk the bucket chain to the victim
  have hchainβ : XC.chainLinked c.pool (cs.getD β0 []) = true := hlink β0 hβ0
  have hchainlt : ∀ j ∈ cs.getD β0 [], j < c.pool.length := fun j hj =>
    rep_chain_elem_lt hlen hsub hβ0 hj
  have hchainlen : (cs.getD β0 []).length ≤ c.pool.length := by
    obtain ⟨pβ, qβ, hjβ, _⟩ := @join_set_decomp cs β0 (by omega)
    have := congrArg List.length hjβ
    simp only [List.length_append] at this
    omega
  obtain ⟨i, P, S, hdec, hik, hPk, hwalk⟩ :=
    RemoveWalk_on_chain (cs.getD β0 []) c.pool.length none hchainβ hchainlen
      hchainlt ⟨j0, by
        rw [hdec0]
        exact ⟨List.mem_append_right _ (List.mem_cons_self _ _), by rw [hj0d, hekey]⟩⟩
  have hheadβ : c.table.getD β0 none = (cs.getD β0 []).head? := hheads β0 hβ0
  have hiS : i < c.pool.length := hchainlt i (by
    rw [hdec]
    exact List.mem_append_right _ (List.mem_cons_self _ _))
  have hndβ : (cs.getD β0 []).Nodup := rep_chain_nodup hlen hnd hβ0
  have hndPS : (P ++ i :: S).Nodup := hdec ▸ hndβ
  have hnextiC : (c.pool.getD i default).next = S.head? :=
    rep_next_of_mem hlink hβ0 hdec
  have hndmid := hndPS
  rw [List.nodup_middle, List.nodup_cons] at hndmid
  have hiPS : i ∉ S := fun h => hndmid.1 (List.mem_append_right _ h)
  have hiP : i ∉ P := fun h => hndmid.1 (List.mem_append_left _ h)
  have hSi : S.head? ≠ some i := by
    cases hS0 : S with
    | nil => simp
    | cons s S' =>
      simp only [List.head?_cons]
      intro hc
      refine hiPS ?_
      rw [hS0, ← Option.some_inj.mp hc]
      exact List.mem_cons_self _ _
  -- join bookkeeping for the unlinked chain
  obtain ⟨p2, q2, hj2, hset2⟩ := @join_set_decomp cs β0 (by omega)
  rw [hdec] at hj2
  have hj2' : cs.join = (p2 ++ P) ++ i :: (S ++ q2) := by
    rw [hj2]; simp [List.append_assoc]
  obtain ⟨hndXY, hiXY, hmemXY, hlenXY⟩ := join_removal_facts
    (by rw [← hj2']; exact hnd)
    (fun t => by rw [← hj2']; exact hmemj t)
    (by rw [← hj2']; exact hjlen)
  -- case split on whether the victim was the chain head
  cases hP : P.getLast? with
  | none =>
    have hPnil : P = [] := List.getLast?_eq_none_iff.mp hP
    subst hPnil
    have hwalk' : XC.RemoveWalk c.pool k c.pool.length
        (c.table.getD (XC.IndexK c hash k) none) none = some (i, none) := by
      rw [hβk, hheadβ, hwalk]
      rfl
    have heq : XC.Remove c hash k = XC.RemoveTail
        { c with table := (c.table.set (XC.IndexK c hash k)
            ((c.pool.getD i default).next)) } hash i := Remove_eq_tail hwalk'
    rw [hnextiC, hβk] at heq
    rw [heq]
    have hw1 := unlink_head_rep hlen hheads hlink hβ0
      (show cs.getD β0 [] = i :: S by rw [hdec]; exact List.nil_append _)
    have hjoin1 : (cs.set β0 S).join = (p2 ++ []) ++ (S ++ q2) := by
      rw [hset2 S]; simp
    refine remove_tail_safe hw1 rfl ?_ ?_ ?_ ?_ ?_ hiS hsize
    · rw [hjoin1]; exact hndXY
    · intro t
      rw [hjoin1]
      exact hmemXY t
    · rw [hjoin1]; exact hlenXY
    · intro b hb t ht
      have hb' : b < c.table.length := by
        have hb2 : b < (c.table.set β0 S.head?).length := hb
        rw [List.length_set] at hb2
        exact hb2
      have htc : t ∈ cs.getD b [] := by
        by_cases hbβ : b = β0
        · subst hbβ
          rw [getDl_set_self (by omega)] at ht
          rw [hdec]
          exact List.mem_append_right _ (List.mem_cons_of_mem _ ht)
        · rw [getD_set_ne' hbβ] at ht
          exact ht
      show XC.XIndex (hash ((c.pool.getD t default).key))
        (c.table.set β0 S.head?).length = b
      rw [List.length_set]
      exact hbucket b hb' t htc
    · show (c.pool.getD i default).next ≠ some i
      rw [hnextiC]
      exact hSi
  | some pm =>
    obtain ⟨P₀, hP₀⟩ := List.getLast?_eq_some_iff.mp hP
    subst hP₀
    have hpmP : pm ∈ P₀ ++ [pm] :=
      List.mem_append_right _ (List.mem_cons_self _ _)
    have hipm : i ≠ pm := fun he => hiP (he ▸ hpmP)
    have hwalk' : XC.RemoveWalk c.pool k c.pool.length
        (c.table.getD (XC.IndexK c hash k) none) none = some (i, some pm) := by
      rw [hβk, hheadβ, hwalk, hP]
      rfl
    have heq : XC.Remove c hash k = XC.RemoveTail
        { c with pool := XC.setNext c.pool pm ((c.pool.getD i default).next) }
        hash i := Remove_eq_tail hwalk'
    rw [hnextiC] at heq
    rw [heq]
    have hw1 := unlink_next_rep hlen hheads hlink hnd hsub hβ0 hdec
    have hjoin1 : (cs.set β0 ((P₀ ++ [pm]) ++ S)).join =
        (p2 ++ (P₀ ++ [pm])) ++ (S ++ q2) := by
      rw [hset2 ((P₀ ++ [pm]) ++ S)]; simp [List.append_assoc]
    refine remove_tail_safe hw1 (by
        show (XC.setNext c.pool pm S.head?).length = c.pool.length
        rw [setNext_length]) ?_ ?_ ?_ ?_ ?_ hiS hsize
    · rw [hjoin1]; exact hndXY
    · intro t
      rw [hjoin1]
      exact hmemXY t
    · rw [hjoin1]; exact hlenXY
    · intro b hb t ht
      have hb' : b < c.table.length := hb
      have htc : t ∈ cs.getD b [] := by
        by_cases hbβ : b = β0
        · subst hbβ
          rw [getDl_set_self (by omega)] at ht
          rw [hdec]
          rcases List.mem_append.mp ht with h | h
          · exact List.mem_append_left _ h
          · exact List.mem_append_right _ (List.mem_cons_of_mem _ h)
        · rw [getD_set_ne' hbβ] at ht
          exact ht
      show XC.XIndex (hash (((XC.setNext c.pool pm S.head?).getD t default).key))
        c.table.length = b
      rw [setNext_key]
      exact hbucket b hb' t htc
    · show ((XC.setNext c.pool pm S.head?).getD i default).next ≠ some i
      rw [getD_setNext_ne hipm, hnextiC]
      exact hSi

/-- Witness for C3 at a concrete input: a 4-bucket table with three
entries, removing key 0 (pool slot 0, head of bucket 0) relocates pool
slot 2 (key 1, the lone entry of bucket 1) into slot 0 and repairs bucket
1's head. -/
theorem C3_remove_compaction_witness :
    (XC.ChainsRep (fun x => x)
        ⟨[some 0, some 2, none, none],
          [⟨0, 10, some 1⟩, ⟨4, 11, none⟩, ⟨1, 12, none⟩], 3⟩
        [[0, 1], [2], [], []] ∧
      (∃ e ∈ ([⟨0, 10, some 1⟩, ⟨4, 11, none⟩, ⟨1, 12, none⟩] :
          List XC.CEntry), e.key = 0) ∧
      1 < ([⟨0, 10, some 1⟩, ⟨4, 11, none⟩, ⟨1, 12, none⟩] :
          List XC.CEntry).length) ∧
    ((XC.Remove
        ⟨[some 0, some 2, none, none],
          [⟨0, 10, some 1⟩, ⟨4, 11, none⟩, ⟨1, 12, none⟩], 3⟩
        (fun x => x) 0).pool.length = 2 ∧
      (∀ b t, b < 4 →
        (XC.Remove
          ⟨[some 0, some 2, none, none],
            [⟨0, 10, some 1⟩, ⟨4, 11, none⟩, ⟨1, 12, none⟩], 3⟩
          (fun x => x) 0).table.getD b none = some t → t < 2) ∧
      (∀ p, p < 2 →
        ((XC.Remove
          ⟨[some 0, some 2, none, none],
            [⟨0, 10, some 1⟩, ⟨4, 11, none⟩, ⟨1, 12, none⟩], 3⟩
          (fun x => x) 0).pool.getD p default).next ≠ some p)) := by
  have h := C3_remove_compaction (fun x => x)
    ⟨[some 0, some 2, none, none],
      [⟨0, 10, some 1⟩, ⟨4, 11, none⟩, ⟨1, 12, none⟩], 3⟩
    [[0, 1], [2], [], []] 0 (by decide) (by decide) (by decide)
  refine ⟨⟨by decide, by decide, by decide⟩, h.1, ?_, fun p hp => h.2.2.2 p (by
    rw [h.1]; exact hp)⟩
  intro b t hb ht
  have := h.2.1 b t (by
    have hT : (XC.Remove
        ⟨[some 0, some 2, none, none],
          [⟨0, 10, some 1⟩, ⟨4, 11, none⟩, ⟨1, 12, none⟩], 3⟩
        (fun x => x) 0).table.length = 4 := by decide
    rw [hT]
    exact hb) ht
  rw [h.1] at this
  exact this

/-- C9: `FastRemove(i)` on an array of size `n ≥ 1` with `i < n` yields an
array of size `n-1`; if `i < n-1` slot `i` now holds the element previously
at position `n-1` and every other surviving slot is unchanged; if `i = n-1`
all surviving slots are unchanged.  This holds for both `XArray::FastRemove`
and `XClassArray::FastRemove`. -/
theorem C9_fastRemove (a : List Nat) (i : Nat) (h1 : 1 ≤ a.length)
    (h2 : i < a.length) :
    ((XArray.FastRemove a i).length = a.length - 1 ∧
      (i < a.length - 1 →
        (XArray.FastRemove a i).getD i 0 = a.getD (a.length - 1) 0) ∧
      (∀ j, j < a.length - 1 → j ≠ i →
        (XArray.FastRemove a i).getD j 0 = a.getD j 0)) ∧
    ((XClassArray.FastRemove a i).length = a.length - 1 ∧
      (i < a.length - 1 →
        (XClassArray.FastRemove a i).getD i 0 = a.getD (a.length - 1) 0) ∧
      (∀ j, j < a.length - 1 → j ≠ i →
        (XClassArray.FastRemove a i).getD j 0 = a.getD j 0)) := by
  refine ⟨⟨FastRemove_length h2, fun h3 => FastRemove_relocated 0 h3,
    fun j hj hne => FastRemove_frame 0 h2 hj hne⟩, ?_⟩
  rw [XClassArray.FastRemove_eq]
  exact ⟨FastRemove_length h2, fun h3 => FastRemove_relocated 0 h3,
    fun j hj hne => FastRemove_frame 0 h2 hj hne⟩

/-- Witness for C9 at a concrete input. -/
theorem C9_fastRemove_witness :
    (XArray.FastRemove [10, 20, 30] 0).getD 0 0 = 30 ∧
      (XArray.FastRemove [10, 20, 30] 0).length = 2 := by
  have h := C9_fastRemove [10, 20, 30] 0 (by decide) (by decide)
  refine ⟨?_, h.1.1⟩
  have := h.1.2.1 (by decide)
  simpa using this

section InsertEquivalence

theorem assocFind_cons (p : Nat × Nat) (l : List (Nat × Nat)) (key : Nat) :
    assocFind (p :: l) key =
      if p.1 = key then some p.2 else assocFind l key := by
  unfold assocFind
  by_cases h : p.1 = key
  · rw [List.find?_cons_of_pos _ (by simpa using h), if_pos h]
    rfl
  · rw [List.find?_cons_of_neg _ (by simpa using h), if_neg h]

theorem any_key_iff_assocFind (l : List (Nat × Nat)) (k : Nat) :
    l.any (fun p => decide (p.1 = k)) = true ↔ assocFind l k ≠ none := by
  induction l with
  | nil => simp [assocFind]
  | cons p l ih =>
    rw [List.any_cons, assocFind_cons]
    by_cases hp : p.1 = k
    · simp [hp]
    · simp only [if_neg hp]
      rw [← ih]
      simp [hp]

theorem assocFind_map_replace (k o key : Nat) : ∀ l : List (Nat × Nat),
    assocFind (l.map (fun p => if p.1 = k then (k, o) else p)) key =
      if key = k then
        (if l.any (fun p => decide (p.1 = k)) then some o else none)
      else assocFind l key := by
  intro l
  induction l with
  | nil => by_cases hk : key = k <;> simp [assocFind, hk]
  | cons p l ih =>
    simp only [List.map_cons]
    rw [assocFind_cons]
    by_cases hp : p.1 = k
    · rw [if_pos hp]
      by_cases hk : key = k
      · subst hk
        rw [if_pos rfl] at ih ⊢
        simp only [if_pos rfl]
        simp [List.any_cons, hp]
      · have hkk : ¬(k : Nat) = key := fun h => hk h.symm
        rw [if_neg hk] at ih ⊢
        simp only [if_neg hkk]
        rw [ih, assocFind_cons, if_neg (hp ▸ hkk)]
    · rw [if_neg hp]
      by_cases hk : key = k
      · subst hk
        have hpk : ¬p.1 = key := hp
        rw [if_pos rfl] at ih ⊢
        rw [if_neg hpk, ih, List.any_cons, decide_eq_false hp,
          Bool.false_or]
      · rw [if_neg hk] at ih ⊢
        rw [assocFind_cons]
        by_cases hpk : p.1 = key
        · rw [if_pos hpk, if_pos hpk]
        · rw [if_neg hpk, if_neg hpk, ih]

theorem assocFind_append (l1 l2 : List (Nat × Nat)) (key : Nat) :
    assocFind (l1 ++ l2) key =
      (assocFind l1 key).or (assocFind l2 key) := by
  unfold assocFind
  rw [List.find?_append]
  cases l1.find? (fun p => decide (p.1 = key)) <;> simp

theorem assocFind_specUpsert (l : List (Nat × Nat)) (k o key : Nat) :
    assocFind (specUpsert l k o) key =
      if key = k then some o else assocFind l key := by
  unfold specUpsert
  by_cases hany : l.any (fun p => decide (p.1 = k)) = true
  · rw [if_pos hany, assocFind_map_replace]
    by_cases hk : key = k
    · simp [hk, hany]
    · simp [hk]
  · rw [if_neg hany, assocFind_append]
    have habs : assocFind l k = none := by
      by_contra hne
      exact hany ((any_key_iff_assocFind l k).mpr hne)
    by_cases hk : key = k
    · subst hk
      rw [habs]
      simp [assocFind]
    · have hkk : ¬(k : Nat) = key := fun h => hk h.symm
      have hsingle : assocFind [(k, o)] key = none := by
        rw [assocFind_cons, if_neg hkk]
        rfl
      rw [hsingle, if_neg hk]
      cases assocFind l key <;> rfl

theorem length_specUpsert (l : List (Nat × Nat)) (k o : Nat) :
    (specUpsert l k o).length =
      if assocFind l k = none then l.length + 1 else l.length := by
  unfold specUpsert
  by_cases hany : l.any (fun p => decide (p.1 = k)) = true
  · have := (any_key_iff_assocFind l k).mp hany
    rw [if_pos hany, if_neg this]
    simp
  · have : assocFind l k = none := by
      by_contra hne
      exact hany ((any_key_iff_assocFind l k).mpr hne)
    rw [if_neg hany, if_pos this]
    simp

theorem map_kd_length {q p : List XC.CEntry} (h : q.map kd = p.map kd) :
    q.length = p.length := by
  have := congrArg List.length h
  simpa using this

theorem map_kd_getD {q p : List XC.CEntry} (h : q.map kd = p.map kd)
    (j : Nat) :
    (q.getD j default).key = (p.getD j default).key ∧
      (q.getD j default).data = (p.getD j default).data := by
  have hlen := map_kd_length h
  by_cases hj : j < p.length
  · have h1 := congrArg (fun l => l[j]?) h
    simp only [List.getElem?_map] at h1
    rw [List.getElem?_eq_getElem (hlen ▸ hj), List.getElem?_eq_getElem hj] at h1
    simp only [Option.map_some'] at h1
    have h2 := Option.some_inj.mp h1
    rw [List.getD_eq_getElem?_getD, List.getD_eq_getElem?_getD,
      List.getElem?_eq_getElem (hlen ▸ hj), List.getElem?_eq_getElem hj]
    exact ⟨congrArg Prod.fst h2, congrArg Prod.snd h2⟩
  · rw [List.getD_eq_getElem?_getD, List.getD_eq_getElem?_getD,
      List.getElem?_eq_none (by omega), List.getElem?_eq_none (by omega)]
    exact ⟨rfl, rfl⟩

theorem map_key_of_map_kd {q p : List XC.CEntry} (h : q.map kd = p.map kd) :
    q.map XC.CEntry.key = p.map XC.CEntry.key := by
  have h1 : ∀ r : List XC.CEntry, r.map XC.CEntry.key = (r.map kd).map Prod.fst := by
    intro r
    rw [List.map_map]
    rfl
  rw [h1, h1, h]

theorem setData_length (pool : List XC.CEntry) (i o : Nat) :
    (XC.setData pool i o).length = pool.length := by
  simp [XC.setData]

theorem getD_setData_self {pool : List XC.CEntry} {i : Nat} {o : Nat}
    (hi : i < pool.length) :
    (XC.setData pool i o).getD i default =
      { pool.getD i default with data := o } := by
  unfold XC.setData
  rw [List.getD_eq_getElem?_getD, List.getElem?_set_self (by exact hi)]
  rfl

theorem getD_setData_ne {pool : List XC.CEntry} {i p : Nat} {o : Nat}
    (hne : p ≠ i) :
    (XC.setData pool i o).getD p default = pool.getD p default := by
  unfold XC.setData
  rw [List.getD_eq_getElem?_getD, List.getElem?_set_ne (by omega),
    List.getD_eq_getElem?_getD]

theorem setData_next (pool : List XC.CEntry) (i o p : Nat) :
    ((XC.setData pool i o).getD p default).next =
      (pool.getD p default).next := by
  by_cases hp : p = i
  · subst hp
    by_cases hi : p < pool.length
    · rw [getD_setData_self hi]
    · unfold XC.setData
      rw [List.set_eq_of_length_le (by omega)]
  · rw [getD_setData_ne hp]

theorem setData_key (pool : List XC.CEntry) (i o p : Nat) :
    ((XC.setData pool i o).getD p default).key =
      (pool.getD p default).key := by
  by_cases hp : p = i
  · subst hp
    by_cases hi : p < pool.length
    · rw [getD_setData_self hi]
    · unfold XC.setData
      rw [List.set_eq_of_length_le (by omega)]
  · rw [getD_setData_ne hp]

theorem setData_map_kd {pool : List XC.CEntry} {i : Nat} (o : Nat)
    (hi : i < pool.length) :
    (XC.setData pool i o).map kd =
      (pool.map kd).set i ((pool.getD i default).key, o) := by
  unfold XC.setData
  rw [List.map_set]
  rfl

theorem setData_map_key (pool : List XC.CEntry) (i o : Nat) :
    (XC.setData pool i o).map XC.CEntry.key = pool.map XC.CEntry.key := by
  apply List.ext_getElem?
  intro j
  simp only [List.getElem?_map]
  by_cases hj : j < pool.length
  · have hj2 : j < (XC.setData pool i o).length := by
      rw [setData_length]; exact hj
    rw [List.getElem?_eq_getElem hj, List.getElem?_eq_getElem hj2]
    simp only [Option.map_some']
    have hk := setData_key pool i o j
    rw [List.getD_eq_getElem?_getD, List.getD_eq_getElem?_getD,
      List.getElem?_eq_getElem hj, List.getElem?_eq_getElem hj2] at hk
    simp only [Option.getD_some] at hk
    rw [hk]
  · rw [List.getElem?_eq_none (show (XC.setData pool i o).length ≤ j by
      rw [setData_length]; omega), List.getElem?_eq_none (by omega)]

theorem getD_append_lt {pool : List XC.CEntry} {e : XC.CEntry} {j : Nat}
    (hj : j < pool.length) :
    (pool ++ [e]).getD j default = pool.getD j default := by
  rw [List.getD_eq_getElem?_getD, List.getElem?_append_left hj,
    List.getD_eq_getElem?_getD]

theorem getD_append_last (pool : List XC.CEntry) (e : XC.CEntry) :
    (pool ++ [e]).getD pool.length default = e := by
  rw [List.getD_eq_getElem?_getD]
  rw [List.getElem?_append_right (Nat.le_refl _)]
  simp

theorem XFindLoop_eq_RemoveWalk (pool : List XC.CEntry) (k : Nat) :
    ∀ (fuel : Nat) (cur old : Option Nat),
      XC.XFindLoop pool k fuel cur =
        (XC.RemoveWalk pool k fuel cur old).map Prod.fst := by
  intro fuel
  induction fuel with
  | zero => intro cur old; cases cur <;> rfl
  | succ fuel ih =>
    intro cur old
    cases cur with
    | none => rfl
    | some i =>
      rw [XC.XFindLoop, XC.RemoveWalk]
      cases hget : pool[i]? with
      | none => rfl
      | some e =>
        by_cases hk : e.key = k
        · simp [hk]
        · simp only [if_neg hk]
          exact ih _ _

theorem RemoveWalk_some_key {pool : List XC.CEntry} {k : Nat} :
    ∀ (fuel : Nat) (cur old : Option Nat) (i : Nat) (po : Option Nat),
      XC.RemoveWalk pool k fuel cur old = some (i, po) →
      i < pool.length ∧ (pool.getD i default).key = k := by
  intro fuel
  induction fuel with
  | zero => intro cur old i po h; cases cur <;> simp [XC.RemoveWalk] at h
  | succ fuel ih =>
    intro cur old i po h
    cases cur with
    | none => simp [XC.RemoveWalk] at h
    | some j =>
      rw [XC.RemoveWalk] at h
      split at h
      · exact absurd h (by simp)
      · next e hget =>
        split at h
        · next hk =>
          have h2 := Option.some_inj.mp h
          have hj : j < pool.length := by
            by_contra hge
            rw [List.getElem?_eq_none (by omega)] at hget
            exact Option.noConfusion hget
          have hfst := congrArg Prod.fst h2
          simp only at hfst
          subst hfst
          refine ⟨hj, ?_⟩
          rw [List.getD_eq_getElem?_getD, hget]
          exact hk
        · exact ih _ _ _ _ h

theorem map_replace_eq_set {k o : Nat} :
    ∀ (l : List (Nat × Nat)) (i : Nat), (l.map Prod.fst).Nodup →
      i < l.length → (l.getD i (0, 0)).1 = k →
      l.map (fun p => if p.1 = k then (k, o) else p) = l.set i (k, o) := by
  intro l
  induction l with
  | nil => intro i _ hi; simp at hi
  | cons p l ih =>
    intro i hnd hi hik
    simp only [List.map_cons, List.nodup_cons] at hnd
    cases i with
    | zero =>
      have hp : p.1 = k := by simpa using hik
      rw [List.set_cons_zero]
      simp only [List.map_cons, if_pos hp]
      congr 1
      have hnok : ∀ q ∈ l, ¬q.1 = k := by
        intro q hq hqk
        exact hnd.1 (hp ▸ hqk ▸ List.mem_map_of_mem Prod.fst hq)
      clear ih hnd hik hi
      induction l with
      | nil => rfl
      | cons q l ihl =>
        simp only [List.map_cons, if_neg (hnok q (List.mem_cons_self _ _))]
        congr 1
        exact ihl (fun r hr => hnok r (List.mem_cons_of_mem _ hr))
    | succ j =>
      have hjk : (l.getD j (0, 0)).1 = k := by simpa using hik
      have hjl : j < l.length := by simpa using hi
      have hpk : ¬p.1 = k := by
        intro hp
        refine hnd.1 ?_
        rw [hp, ← hjk]
        have : (l.getD j (0, 0)) ∈ l := by
          rw [List.getD_eq_getElem?_getD, List.getElem?_eq_getElem hjl]
          exact List.getElem_mem hjl
        exact List.mem_map_of_mem Prod.fst this
      rw [List.set_cons_succ]
      simp only [List.map_cons, if_neg hpk]
      congr 1
      exact ih j hnd.2 hjl hjk

theorem XIndex_lt {h T : Nat} (hT : 0 < T) : XC.XIndex h T < T := by
  have : XC.XIndex h T ≤ T - 1 := Nat.and_le_right
  omega

theorem assocFind_map_kd_of_key {pool : List XC.CEntry} {k : Nat}
    (hnd : (pool.map XC.CEntry.key).Nodup) :
    ∀ i, i < pool.length → (pool.getD i default).key = k →
      assocFind (pool.map kd) k = some ((pool.getD i default).data) := by
  induction pool with
  | nil => intro i hi _; simp at hi
  | cons e pool ih =>
    intro i hi hik
    simp only [List.map_cons, List.nodup_cons] at hnd
    rw [List.map_cons, assocFind_cons]
    cases i with
    | zero =>
      have he : e.key = k := by simpa using hik
      rw [if_pos (show (kd e).1 = k from he)]
      simp [kd]
    | succ j =>
      have hjk : (pool.getD j default).key = k := by simpa using hik
      have hjl : j < pool.length := by simpa using hi
      have hek : ¬(kd e).1 = k := by
        show ¬e.key = k
        intro hk0
        apply hnd.1
        rw [hk0, ← hjk]
        have hmem : pool.getD j default ∈ pool := by
          rw [List.getD_eq_getElem?_getD, List.getElem?_eq_getElem hjl]
          exact List.getElem_mem hjl
        exact List.mem_map_of_mem XC.CEntry.key hmem
      rw [if_neg hek, ih hnd.2 j hjl hjk]
      congr 1

theorem assocFind_map_kd_none {pool : List XC.CEntry} {k : Nat}
    (habs : ∀ e ∈ pool, e.key ≠ k) :
    assocFind (pool.map kd) k = none := by
  unfold assocFind
  rw [List.find?_eq_none.mpr]
  · rfl
  · intro x hx
    obtain ⟨e, he, rfl⟩ := List.mem_map.mp hx
    simpa [kd] using habs e he

theorem XC_find_present {hash : Nat → Nat} {c : XC.CTable}
    {cs : List (List Nat)} (hrep : XC.ChainsRep hash c cs) {k : Nat}
    (hpres : ∃ j, j < c.pool.length ∧ (c.pool.getD j default).key = k) :
    ∃ i, XC.XFindIndex c hash k = some i ∧ i < c.pool.length ∧
      (c.pool.getD i default).key = k := by
  obtain ⟨⟨hlen, hheads, hlink⟩, hperm, hbucket⟩ := hrep
  obtain ⟨j, hj, hjk⟩ := hpres
  have hnd := join_nodup_of_perm hperm
  have hmemj : ∀ t, t ∈ cs.join ↔ t < c.pool.length := fun t => by
    rw [hperm.mem_iff, List.mem_range]
  have hsub : ∀ t ∈ cs.join, t < c.pool.length := fun t ht => (hmemj t).mp ht
  obtain ⟨b, A, rest, hb, hdecb⟩ := mem_chain_decomp hlen ((hmemj j).mpr hj)
  have hβ : XC.XIndex (hash k) c.table.length = b := by
    have := hbucket b hb j (by
      rw [hdecb]; exact List.mem_append_right _ (List.mem_cons_self _ _))
    rw [hjk] at this
    exact this
  have hchain : XC.chainLinked c.pool (cs.getD b []) = true := hlink b hb
  have hlt : ∀ x ∈ cs.getD b [], x < c.pool.length := fun x hx =>
    rep_chain_elem_lt hlen hsub hb hx
  have hchlen : (cs.getD b []).length ≤ c.pool.length := by
    have hndch := rep_chain_nodup hlen hnd hb
    have hsubset : cs.getD b [] ⊆ List.range c.pool.length := fun x hx =>
      List.mem_range.mpr (hlt x hx)
    have := (List.subperm_of_subset hndch hsubset).length_le
    simpa using this
  obtain ⟨i, P, S, hdec, hik, hPk, hwalk⟩ :=
    RemoveWalk_on_chain (cs.getD b []) c.pool.length none hchain hchlen hlt
      ⟨j, by
        rw [hdecb]
        exact ⟨List.mem_append_right _ (List.mem_cons_self _ _), hjk⟩⟩
  have hi_lt : i < c.pool.length := hlt i (by
    rw [hdec]; exact List.mem_append_right _ (List.mem_cons_self _ _))
  refine ⟨i, ?_, hi_lt, hik⟩
  show XC.XFindLoop c.pool k c.pool.length
    (c.table.getD (XC.IndexK c hash k) none) = some i
  have hidx : XC.IndexK c hash k = b := hβ
  rw [hidx, hheads b hb,
    XFindLoop_eq_RemoveWalk c.pool k c.pool.length _ none, hwalk]
  rfl

theorem XC_find_absent {c : XC.CTable} {hash : Nat → Nat} {k : Nat}
    (habs : ∀ e ∈ c.pool, e.key ≠ k) :
    XC.XFindIndex c hash k = none := by
  show XC.XFindLoop c.pool k c.pool.length
    (c.table.getD (XC.IndexK c hash k) none) = none
  exact XFindLoop_none habs _ _

theorem XC_FindData_spec {hash : Nat → Nat} {c : XC.CTable}
    (hinv : XC.CInv hash c) (k : Nat) :
    XC.FindData c hash k = assocFind (c.pool.map kd) k := by
  obtain ⟨⟨cs, hrep⟩, hnd, hT⟩ := hinv
  by_cases hpres : ∃ j, j < c.pool.length ∧ (c.pool.getD j default).key = k
  · obtain ⟨i, hfind, hi, hik⟩ := XC_find_present hrep hpres
    unfold XC.FindData
    rw [hfind, assocFind_map_kd_of_key hnd i hi hik]
    rfl
  · push_neg at hpres
    have habs : ∀ e ∈ c.pool, e.key ≠ k := by
      intro e he hk
      obtain ⟨j, hj, hje⟩ := List.mem_iff_getElem.mp he
      refine hpres j hj ?_
      rw [List.getD_eq_getElem?_getD, List.getElem?_eq_getElem hj, hje]
      exact hk
    unfold XC.FindData
    rw [XC_find_absent habs, assocFind_map_kd_none habs]
    rfl

theorem setData_rep {hash : Nat → Nat} {c : XC.CTable} {cs : List (List Nat)}
    (hrep : XC.ChainsRep hash c cs) (i o : Nat) :
    XC.ChainsRep hash { c with pool := XC.setData c.pool i o } cs := by
  obtain ⟨⟨hlen, hheads, hlink⟩, hperm, hbucket⟩ := hrep
  refine ⟨⟨hlen, hheads, fun b hb => ?_⟩, ?_, fun b hb t ht => ?_⟩
  · show XC.chainLinked (XC.setData c.pool i o) (cs.getD b []) = true
    rw [chainLinked_congr _ (fun x _ => setData_next c.pool i o x)]
    exact hlink b hb
  · show cs.join.Perm (List.range (XC.setData c.pool i o).length)
    rw [setData_length]
    exact hperm
  · show XC.XIndex (hash (((XC.setData c.pool i o).getD t default).key))
      c.table.length = b
    rw [setData_key]
    exact hbucket b hb t ht

theorem XInsert_rep {hash : Nat → Nat} {c : XC.CTable} {cs : List (List Nat)}
    (hrep : XC.ChainsRep hash c cs) (hT : 0 < c.table.length) (k o : Nat) :
    XC.ChainsRep hash (XC.XInsert c (XC.IndexK c hash k) k o)
      (cs.set (XC.IndexK c hash k)
        (c.pool.length :: cs.getD (XC.IndexK c hash k) [])) := by
  obtain ⟨⟨hlen, hheads, hlink⟩, hperm, hbucket⟩ := hrep
  have hβ : XC.IndexK c hash k < c.table.length := XIndex_lt hT
  have hsub : ∀ t ∈ cs.join, t < c.pool.length := fun t ht => by
    have := hperm.mem_iff.mp ht
    simpa using this
  have hcong : ∀ ch, (∀ x ∈ ch, x < c.pool.length) →
      XC.chainLinked (c.pool ++
        [⟨k, o, c.table.getD (XC.IndexK c hash k) none⟩]) ch =
        XC.chainLinked c.pool ch := fun ch hch =>
    chainLinked_congr ch (fun x hx => by rw [getD_append_lt (hch x hx)])
  refine ⟨⟨?_, fun b hb => ?_, fun b hb => ?_⟩, ?_, fun b hb t ht => ?_⟩
  · show (cs.set _ _).length =
      (c.table.set (XC.IndexK c hash k) (some c.pool.length)).length
    simp [hlen]
  · have hb' : b < c.table.length := by simpa [XC.XInsert] using hb
    show (c.table.set (XC.IndexK c hash k) (some c.pool.length)).getD b none =
      ((cs.set (XC.IndexK c hash k)
        (c.pool.length :: cs.getD (XC.IndexK c hash k) [])).getD b []).head?
    by_cases hbβ : b = XC.IndexK c hash k
    · subst hbβ
      rw [getD_set_self' hβ, getDl_set_self (by omega)]
      rfl
    · rw [getD_set_ne' hbβ, getD_set_ne' hbβ]
      exact hheads b hb'
  · have hb' : b < c.table.length := by simpa [XC.XInsert] using hb
    show XC.chainLinked
      (c.pool ++ [(⟨k, o, c.table.getD (XC.IndexK c hash k) none⟩ : XC.CEntry)])
      ((cs.set (XC.IndexK c hash k)
        (c.pool.length :: cs.getD (XC.IndexK c hash k) [])).getD b []) = true
    by_cases hbβ : b = XC.IndexK c hash k
    · subst hbβ
      rw [getDl_set_self (by omega)]
      apply chainLinked_cons_iff.mpr
      constructor
      · rw [getD_append_last]
        exact hheads _ hb'
      · rw [hcong _ (fun x hx => rep_chain_elem_lt hlen hsub hb' hx)]
        exact hlink _ hb'
    · rw [getD_set_ne' hbβ, hcong _ (fun x hx => rep_chain_elem_lt hlen hsub hb' hx)]
      exact hlink b hb'
  · show (cs.set (XC.IndexK c hash k)
      (c.pool.length :: cs.getD (XC.IndexK c hash k) [])).join.Perm
      (List.range (c.pool ++
        [(⟨k, o, c.table.getD (XC.IndexK c hash k) none⟩ : XC.CEntry)]).length)
    obtain ⟨p, q, hj, hset⟩ := @join_set_decomp cs (XC.IndexK c hash k) (by omega)
    rw [hset, List.length_append]
    simp only [List.length_cons, List.length_nil]
    have h1 : (p ++ (c.pool.length :: cs.getD (XC.IndexK c hash k) []) ++ q).Perm
        (c.pool.length :: cs.join) := by
      have e1 : p ++ (c.pool.length :: cs.getD (XC.IndexK c hash k) []) ++ q =
          p ++ c.pool.length :: (cs.getD (XC.IndexK c hash k) [] ++ q) := by
        simp [List.append_assoc]
      rw [e1]
      refine List.perm_middle.trans ?_
      apply List.Perm.cons
      rw [hj]
      have e2 : p ++ (cs.getD (XC.IndexK c hash k) [] ++ q) =
          p ++ cs.getD (XC.IndexK c hash k) [] ++ q :=
        (List.append_assoc _ _ _).symm
      rw [e2]
    refine h1.trans ?_
    refine (hperm.cons c.pool.length).trans ?_
    rw [List.range_succ]
    exact (List.perm_append_singleton _ _).symm
  · have hb' : b < c.table.length := by simpa [XC.XInsert] using hb
    show XC.XIndex (hash (((c.pool ++
        [(⟨k, o, c.table.getD (XC.IndexK c hash k) none⟩ : XC.CEntry)]).getD t default).key))
      (c.table.set (XC.IndexK c hash k) (some c.pool.length)).length = b
    rw [List.length_set]
    by_cases hbβ : b = XC.IndexK c hash k
    · subst hbβ
      rw [getDl_set_self (by omega)] at ht
      rcases List.mem_cons.mp ht with h | h
      · subst h
        rw [getD_append_last]
        rfl
      · rw [getD_append_lt (rep_chain_elem_lt hlen hsub hb' h)]
        exact hbucket _ hb' t h
    · rw [getD_set_ne' hbβ] at ht
      rw [getD_append_lt (rep_chain_elem_lt hlen hsub hb' ht)]
      exact hbucket b hb' t ht

theorem join_replicate_nil (m : Nat) :
    (List.replicate m ([] : List Nat)).join = [] := by
  induction m with
  | zero => rfl
  | succ m ih => simpa using ih

theorem getD_replicate_opt {m b : Nat} (hb : b < m) :
    (List.replicate m (none : Option Nat)).getD b none = none := by
  rw [List.getD_eq_getElem?_getD, List.getElem?_replicate]
  simp [hb]

theorem getDl_replicate {m b : Nat} (hb : b < m) :
    (List.replicate m ([] : List Nat)).getD b [] = [] := by
  rw [List.getD_eq_getElem?_getD, List.getElem?_replicate]
  simp [hb]

theorem map_getD_range (cs : List (List Nat)) :
    (List.range cs.length).map (fun b => cs.getD b []) = cs := by
  apply List.ext_getElem?
  intro j
  by_cases hj : j < cs.length
  · rw [List.getElem?_map, List.getElem?_range hj]
    simp only [Option.map_some']
    rw [List.getElem?_eq_getElem hj]
    congr 1
    rw [List.getD_eq_getElem?_getD, List.getElem?_eq_getElem hj]
    rfl
  · rw [List.getElem?_map,
      List.getElem?_eq_none (show (List.range cs.length).length ≤ j by simp; omega),
      List.getElem?_eq_none (by omega)]
    rfl

theorem RelinkChain_rep {hash : Nat → Nat} {oldPool : List XC.CEntry} {m : Nat}
    (hm : 0 < m) :
    ∀ (ch : List Nat) (fuel : Nat) (st : List (Option Nat) × List XC.CEntry)
      (processed : List Nat),
      XC.chainLinked oldPool ch = true → ch.length ≤ fuel →
      (∀ j ∈ ch, j < oldPool.length) →
      (∀ j ∈ ch, j ∉ processed) → ch.Nodup →
      XC.RehashRep hash oldPool m processed st →
      XC.RehashRep hash oldPool m (processed ++ ch)
        (XC.RelinkChain oldPool hash m fuel ch.head? st) := by
  intro ch
  induction ch with
  | nil =>
    intro fuel st processed _ _ _ _ _ hrr
    have hid : XC.RelinkChain oldPool hash m fuel none st = st := by
      cases fuel <;> rfl
    rw [List.head?_nil, hid, List.append_nil]
    exact hrr
  | cons i ch' ih =>
    intro fuel st processed hlink hfuel hlt hnp hnd hrr
    cases fuel with
    | zero => simp at hfuel
    | succ f =>
      have hi : i < oldPool.length := hlt i (List.mem_cons_self _ _)
      have hget : oldPool[i]? = some (oldPool.getD i default) := by
        rw [List.getD_eq_getElem?_getD, List.getElem?_eq_getElem hi]
        rfl
      have hnext : (oldPool.getD i default).next = ch'.head? :=
        (chainLinked_cons_iff.mp hlink).1
      obtain ⟨ds, hdsl, hstl, hheads, hlinked, hdperm, hdbucket, hmkd⟩ := hrr
      set newidx := XC.XIndex (hash ((oldPool.getD i default).key)) m with hni
      have hnewidx : newidx < m := XIndex_lt hm
      have hplen : st.2.length = oldPool.length := map_kd_length hmkd
      have hikey : (st.2.getD i default).key = (oldPool.getD i default).key :=
        (map_kd_getD hmkd i).1
      have hstep : XC.RelinkChain oldPool hash m (f + 1) (some i) st =
          XC.RelinkChain oldPool hash m f (oldPool.getD i default).next
            (st.1.set newidx (some i),
             XC.setNext st.2 i (st.1.getD newidx none)) := by
        rw [XC.RelinkChain, hget]
      have hip : i ∉ ds.join := fun hmem =>
        hnp i (List.mem_cons_self _ _) (hdperm.mem_iff.mp hmem)
      have hstep1 : XC.RehashRep hash oldPool m (processed ++ [i])
          (st.1.set newidx (some i),
           XC.setNext st.2 i (st.1.getD newidx none)) := by
        refine ⟨ds.set newidx (i :: ds.getD newidx []), ?_, ?_, ?_, ?_, ?_, ?_, ?_⟩
        · simp [hdsl]
        · simp [hstl]
        · intro b hb
          show (st.1.set newidx (some i)).getD b none = _
          by_cases hbn : b = newidx
          · subst hbn
            rw [getD_set_self' (by omega), getDl_set_self (by omega)]
            rfl
          · rw [getD_set_ne' hbn, getD_set_ne' hbn]
            exact hheads b hb
        · intro b hb
          show XC.chainLinked (XC.setNext st.2 i (st.1.getD newidx none)) _ = true
          by_cases hbn : b = newidx
          · subst hbn
            rw [getDl_set_self (by omega)]
            apply chainLinked_cons_iff.mpr
            constructor
            · rw [getD_setNext_self (by omega)]
              exact hheads _ hb
            · have hagree : ∀ x ∈ ds.getD newidx [],
                  ((XC.setNext st.2 i (st.1.getD newidx none)).getD x default).next =
                    (st.2.getD x default).next := by
                intro x hx
                have hxj : x ∈ ds.join := mem_join_of_mem_chain (by omega) hx
                have hxi : x ≠ i := fun he => hip (by rw [← he]; exact hxj)
                rw [getD_setNext_ne hxi]
              rw [chainLinked_congr _ hagree]
              exact hlinked _ hb
          · rw [getD_set_ne' hbn]
            have hagree : ∀ x ∈ ds.getD b [],
                ((XC.setNext st.2 i (st.1.getD newidx none)).getD x default).next =
                  (st.2.getD x default).next := by
              intro x hx
              have hxj : x ∈ ds.join := mem_join_of_mem_chain (by omega) hx
              have hxi : x ≠ i := fun he => hip (by rw [← he]; exact hxj)
              rw [getD_setNext_ne hxi]
            rw [chainLinked_congr _ hagree]
            exact hlinked b hb
        · obtain ⟨p, q, hj, hset⟩ := @join_set_decomp ds newidx (by omega)
          show (ds.set newidx (i :: ds.getD newidx [])).join.Perm _
          rw [hset]
          have e1 : p ++ (i :: ds.getD newidx []) ++ q =
              p ++ i :: (ds.getD newidx [] ++ q) := by
            simp [List.append_assoc]
          rw [e1]
          refine List.perm_middle.trans ?_
          have e2 : p ++ (ds.getD newidx [] ++ q) =
              p ++ ds.getD newidx [] ++ q := (List.append_assoc _ _ _).symm
          have h3 : (p ++ (ds.getD newidx [] ++ q)).Perm ds.join := by
            rw [e2, ← hj]
          refine ((h3.cons i).trans ?_)
          exact (hdperm.cons i).trans (List.perm_append_singleton _ _).symm
        · intro b hb t ht
          show XC.XIndex
            (hash (((XC.setNext st.2 i (st.1.getD newidx none)).getD t default).key))
            m = b
          by_cases hbn : b = newidx
          · subst hbn
            rw [getDl_set_self (by omega)] at ht
            rcases List.mem_cons.mp ht with h | h
            · subst h
              rw [setNext_key, hikey]
            · rw [setNext_key]
              exact hdbucket _ hb t h
          · rw [getD_set_ne' hbn] at ht
            rw [setNext_key]
            exact hdbucket b hb t ht
        · rw [setNext_map_kd]
          exact hmkd
      have hnotin : ∀ j ∈ ch', j ∉ processed ++ [i] := by
        intro j hj hjmem
        rcases List.mem_append.mp hjmem with h | h
        · exact hnp j (List.mem_cons_of_mem _ hj) h
        · have hji : j = i := by simpa using h
          subst hji
          simp only [List.nodup_cons] at hnd
          exact hnd.1 hj
      have hrec := ih f
        (st.1.set newidx (some i), XC.setNext st.2 i (st.1.getD newidx none))
        (processed ++ [i]) (chainLinked_cons_iff.mp hlink).2
        (by simp only [List.length_cons] at hfuel; omega)
        (fun j hj => hlt j (List.mem_cons_of_mem _ hj)) hnotin hnd.of_cons hstep1
      rw [List.head?_cons, hstep, hnext]
      have e3 : processed ++ i :: ch' = (processed ++ [i]) ++ ch' := by simp
      rw [e3]
      exact hrec

theorem Rehash_rep {hash : Nat → Nat} {c : XC.CTable} {cs : List (List Nat)}
    (hrep : XC.ChainsRep hash c cs) {m : Nat} (hm : 0 < m) :
    ∃ ds, XC.ChainsRep hash (XC.Rehash c hash m) ds := by
  obtain ⟨⟨hlen, hheads, hlink⟩, hperm, hbucket⟩ := hrep
  have hnd := join_nodup_of_perm hperm
  have hsub : ∀ t ∈ cs.join, t < c.pool.length := fun t ht => by
    have := hperm.mem_iff.mp ht
    simpa using this
  have hfold : ∀ (bs : List Nat) (st : List (Option Nat) × List XC.CEntry)
      (processed : List Nat),
      (∀ b ∈ bs, b < c.table.length) →
      (processed ++ (bs.map (fun b => cs.getD b [])).join).Nodup →
      (∀ j ∈ (bs.map (fun b => cs.getD b [])).join, j < c.pool.length) →
      XC.RehashRep hash c.pool m processed st →
      XC.RehashRep hash c.pool m
        (processed ++ (bs.map (fun b => cs.getD b [])).join)
        (bs.foldl (fun st idx => XC.RelinkChain c.pool hash m c.pool.length
          (c.table.getD idx none) st) st) := by
    intro bs
    induction bs with
    | nil => intro st processed _ _ _ hrr; simpa using hrr
    | cons b bs' ihb =>
      intro st processed hblt hndall hjlt hrr
      have hb : b < c.table.length := hblt b (List.mem_cons_self _ _)
      simp only [List.map_cons, List.join_cons] at hndall hjlt ⊢
      have hinner := (List.nodup_append.mp hndall).2.1
      have hdisj := (List.nodup_append.mp hndall).2.2
      have hchnd : (cs.getD b []).Nodup := (List.nodup_append.mp hinner).1
      have hchlt : ∀ j ∈ cs.getD b [], j < c.pool.length := fun j hj =>
        hjlt j (List.mem_append_left _ hj)
      have hchlen : (cs.getD b []).length ≤ c.pool.length := by
        have hsubset : cs.getD b [] ⊆ List.range c.pool.length := fun x hx =>
          List.mem_range.mpr (hchlt x hx)
        have := (List.subperm_of_subset hchnd hsubset).length_le
        simpa using this
      have hchnp : ∀ j ∈ cs.getD b [], j ∉ processed := fun j hj hjp =>
        hdisj hjp (List.mem_append_left _ hj)
      have hstep := RelinkChain_rep hm (cs.getD b []) c.pool.length st processed
        (hlink b hb) hchlen hchlt hchnp hchnd hrr
      rw [← hheads b hb] at hstep
      have hrec := ihb (XC.RelinkChain c.pool hash m c.pool.length
          (c.table.getD b none) st) (processed ++ cs.getD b [])
        (fun x hx => hblt x (List.mem_cons_of_mem _ hx))
        (by rw [List.append_assoc]; exact hndall)
        (fun j hj => hjlt j (List.mem_append_right _ hj))
        hstep
      rw [List.foldl_cons]
      have e : (processed ++ cs.getD b []) ++
          (bs'.map (fun b => cs.getD b [])).join =
          processed ++ (cs.getD b [] ++ (bs'.map (fun b => cs.getD b [])).join) :=
        List.append_assoc _ _ _
      rw [← List.append_assoc]
      exact e ▸ hrec
  have hinit : XC.RehashRep hash c.pool m [] (List.replicate m none, c.pool) := by
    refine ⟨List.replicate m [], by simp, by simp, ?_, ?_, ?_, ?_, rfl⟩
    · intro b hb
      rw [getD_replicate_opt hb, getDl_replicate hb]
      rfl
    · intro b hb
      rw [getDl_replicate hb]
      rfl
    · rw [join_replicate_nil]
    · intro b hb t ht
      rw [getDl_replicate hb] at ht
      simp at ht
  have hmap : (List.range c.table.length).map (fun b => cs.getD b []) = cs := by
    rw [← hlen]
    exact map_getD_range cs
  have hall := hfold (List.range c.table.length) (List.replicate m none, c.pool)
    []
    (fun b hb => List.mem_range.mp hb)
    (by rw [hmap]; simpa using hnd)
    (by rw [hmap]; exact hsub)
    hinit
  rw [hmap, List.nil_append] at hall
  obtain ⟨ds, hdsl, hstl, hheads2, hlinked2, hdperm, hdbucket, hmkd⟩ := hall
  have hT : (XC.Rehash c hash m).table =
      ((List.range c.table.length).foldl
        (fun st idx => XC.RelinkChain c.pool hash m c.pool.length
          (c.table.getD idx none) st)
        (List.replicate m none, c.pool)).1 := rfl
  have hP : (XC.Rehash c hash m).pool =
      ((List.range c.table.length).foldl
        (fun st idx => XC.RelinkChain c.pool hash m c.pool.length
          (c.table.getD idx none) st)
        (List.replicate m none, c.pool)).2 := rfl
  refine ⟨ds, ⟨?_, ?_, ?_⟩, ?_, ?_⟩
  · rw [Rehash_table_length]
    exact hdsl
  · intro b hb
    rw [Rehash_table_length] at hb
    rw [hT]
    exact hheads2 b hb
  · intro b hb
    rw [Rehash_table_length] at hb
    rw [hP]
    exact hlinked2 b hb
  · rw [Rehash_pool_length]
    exact hdperm.trans hperm
  · intro b hb t ht
    rw [Rehash_table_length] at hb
    rw [hP, Rehash_table_length]
    exact hdbucket b hb t ht

theorem XC_Rehash_CInv {hash : Nat → Nat} {c : XC.CTable}
    (hinv : XC.CInv hash c) {m : Nat} (hm : 4 ≤ m) :
    XC.CInv hash (XC.Rehash c hash m) := by
  obtain ⟨⟨cs, hrep⟩, hndk, hT⟩ := hinv
  refine ⟨Rehash_rep hrep (by omega), ?_, by rw [Rehash_table_length]; exact hm⟩
  rw [map_key_of_map_kd (Rehash_pool_map_kd c hash m)]
  exact hndk

theorem XC_found_update {hash : Nat → Nat} {c : XC.CTable}
    (hinv : XC.CInv hash c) {k i : Nat} (o : Nat)
    (hi : i < c.pool.length) (hik : (c.pool.getD i default).key = k) :
    XC.CInv hash { c with pool := XC.setData c.pool i o } ∧
      (XC.setData c.pool i o).map kd = specUpsert (c.pool.map kd) k o := by
  obtain ⟨⟨cs, hrep⟩, hndk, hT⟩ := hinv
  constructor
  · exact ⟨⟨cs, setData_rep hrep i o⟩,
      by rw [setData_map_key]; exact hndk, hT⟩
  · rw [setData_map_kd o hi, hik]
    unfold specUpsert
    have hmem : c.pool.getD i default ∈ c.pool := by
      rw [List.getD_eq_getElem?_getD, List.getElem?_eq_getElem hi]
      exact List.getElem_mem hi
    have hany : (c.pool.map kd).any (fun p => decide (p.1 = k)) = true := by
      rw [List.any_eq_true]
      exact ⟨kd (c.pool.getD i default), List.mem_map_of_mem kd hmem,
        by simpa [kd] using hik⟩
    rw [if_pos hany]
    have hfst : (c.pool.map kd).map Prod.fst = c.pool.map XC.CEntry.key := by
      rw [List.map_map]
      rfl
    have hkd : ((c.pool.map kd).getD i (0, 0)).1 = k := by
      rw [List.getD_eq_getElem?_getD, List.getElem?_map,
        List.getElem?_eq_getElem hi]
      show (kd c.pool[i]).1 = k
      rw [show kd c.pool[i] = kd (c.pool.getD i default) by
        rw [List.getD_eq_getElem?_getD, List.getElem?_eq_getElem hi]; rfl]
      simpa [kd] using hik
    exact (map_replace_eq_set (c.pool.map kd) i (by rw [hfst]; exact hndk)
      (by simpa using hi) hkd).symm

theorem XC_absent_insert {hash : Nat → Nat} {c : XC.CTable}
    (hinv : XC.CInv hash c) {k : Nat} (o : Nat)
    (habs : ∀ e ∈ c.pool, e.key ≠ k) :
    XC.CInv hash (XC.XInsert c (XC.IndexK c hash k) k o) ∧
      (XC.XInsert c (XC.IndexK c hash k) k o).pool.map kd =
        specUpsert (c.pool.map kd) k o := by
  obtain ⟨⟨cs, hrep⟩, hndk, hT⟩ := hinv
  have hT0 : 0 < c.table.length := by omega
  constructor
  · refine ⟨⟨_, XInsert_rep hrep hT0 k o⟩, ?_, ?_⟩
    · show ((c.pool ++
        [(⟨k, o, c.table.getD (XC.IndexK c hash k) none⟩ : XC.CEntry)]).map
          XC.CEntry.key).Nodup
      rw [List.map_append, List.nodup_append]
      refine ⟨hndk, by simp, ?_⟩
      intro x hx hxk
      have hxk' : x = k := by simpa using hxk
      subst hxk'
      obtain ⟨e, he, hek⟩ := List.mem_map.mp hx
      exact habs e he hek
    · show 4 ≤ (c.table.set (XC.IndexK c hash k) (some c.pool.length)).length
      rw [List.length_set]
      exact hT
  · show (c.pool ++
      [(⟨k, o, c.table.getD (XC.IndexK c hash k) none⟩ : XC.CEntry)]).map kd =
      specUpsert (c.pool.map kd) k o
    rw [List.map_append]
    unfold specUpsert
    have hany : ¬(c.pool.map kd).any (fun p => decide (p.1 = k)) = true := by
      rw [List.any_eq_true]
      rintro ⟨x, hx, hpx⟩
      obtain ⟨e, he, rfl⟩ := List.mem_map.mp hx
      exact habs e he (by simpa [kd] using hpx)
    rw [if_neg hany]
    rfl

theorem InsertFuel_succ (hash : Nat → Nat) (k o : Nat) (ovr : Bool) (fuel : Nat)
    (c : XC.CTable) :
    XC.InsertFuel hash k o ovr (fuel + 1) c =
      match XC.XFind c k (XC.IndexK c hash k) with
      | some i =>
        if ovr then some ({ c with pool := XC.setData c.pool i o }, true)
        else some (c, false)
      | none =>
        if c.pool.length = c.poolAlloc then
          XC.InsertFuel hash k o ovr fuel (XC.Rehash c hash (c.table.length * 2))
        else some (XC.XInsert c (XC.IndexK c hash k) k o, true) := by
  rw [XC.InsertFuel]

theorem XC_InsertStep_spec (hash : Nat → Nat) (k o : Nat) (fuel : Nat)
    (c : XC.CTable) (hinv : XC.CInv hash c)
    (hcase : (∃ j, j < c.pool.length ∧ (c.pool.getD j default).key = k) ∨
      c.pool.length ≠ c.poolAlloc) :
    ∃ c', XC.InsertFuel hash k o true (fuel + 1) c = some (c', true) ∧
      XC.CInv hash c' ∧
      c'.pool.map kd = specUpsert (c.pool.map kd) k o := by
  by_cases hpres : ∃ j, j < c.pool.length ∧ (c.pool.getD j default).key = k
  · obtain ⟨cs, hrep⟩ := hinv.1
    obtain ⟨i, hfind, hi, hik⟩ := XC_find_present hrep hpres
    obtain ⟨hupd, hmap⟩ := XC_found_update hinv o hi hik
    refine ⟨{ c with pool := XC.setData c.pool i o }, ?_, hupd, hmap⟩
    rw [InsertFuel_succ]
    rw [show XC.XFind c k (XC.IndexK c hash k) = some i from hfind]
    rfl
  · push_neg at hpres
    have habs : ∀ e ∈ c.pool, e.key ≠ k := by
      intro e he hk
      obtain ⟨j, hj, hje⟩ := List.mem_iff_getElem.mp he
      refine hpres j hj ?_
      rw [List.getD_eq_getElem?_getD, List.getElem?_eq_getElem hj, hje]
      exact hk
    have hfind : XC.XFindIndex c hash k = none := XC_find_absent habs
    have hne : c.pool.length ≠ c.poolAlloc := by
      rcases hcase with h | h
      · obtain ⟨j, hj, hjk⟩ := h
        exact absurd hjk (hpres j hj)
      · exact h
    obtain ⟨hinv2, hmap⟩ := XC_absent_insert hinv o habs
    refine ⟨XC.XInsert c (XC.IndexK c hash k) k o, ?_, hinv2, hmap⟩
    rw [InsertFuel_succ]
    rw [show XC.XFind c k (XC.IndexK c hash k) = none from hfind]
    exact if_neg hne

theorem XC_InsertFuel_spec (hash : Nat → Nat) (k o : Nat) :
    ∀ (f : Nat) (c : XC.CTable), XC.CInv hash c →
      4 * c.pool.length + 4 ≤ 3 * 2 ^ f * c.table.length →
      ∃ c', XC.InsertFuel hash k o true (f + 2) c = some (c', true) ∧
        XC.CInv hash c' ∧
        c'.pool.map kd = specUpsert (c.pool.map kd) k o := by
  intro f
  induction f with
  | zero =>
    intro c hinv hbound
    by_cases hstep : (∃ j, j < c.pool.length ∧ (c.pool.getD j default).key = k) ∨
        c.pool.length ≠ c.poolAlloc
    · exact XC_InsertStep_spec hash k o 1 c hinv hstep
    · push_neg at hstep
      obtain ⟨hnp, heqa⟩ := hstep
      have habs : ∀ e ∈ c.pool, e.key ≠ k := by
        intro e he hk
        obtain ⟨j, hj, hje⟩ := List.mem_iff_getElem.mp he
        refine hnp j hj ?_
        rw [List.getD_eq_getElem?_getD, List.getElem?_eq_getElem hj, hje]
        exact hk
      have hfind : XC.XFindIndex c hash k = none := XC_find_absent habs
      have hT4 : 4 ≤ c.table.length := hinv.2.2
      have hinv2 : XC.CInv hash (XC.Rehash c hash (c.table.length * 2)) :=
        XC_Rehash_CInv hinv (by omega)
      have hmapkd := Rehash_pool_map_kd c hash (c.table.length * 2)
      have hlen2 := Rehash_pool_length c hash (c.table.length * 2)
      have hne2 : (XC.Rehash c hash (c.table.length * 2)).pool.length ≠
          (XC.Rehash c hash (c.table.length * 2)).poolAlloc := by
        rw [hlen2, Rehash_poolAlloc]
        have e6 : 3 * (c.table.length * 2) = 6 * c.table.length := by ring
        rw [e6]
        have h1 : (8 * c.pool.length + 8) / 4 ≤ 6 * c.table.length / 4 :=
          Nat.div_le_div_right (by simp only [pow_zero] at hbound; omega)
        have h2 : (8 * c.pool.length + 8) / 4 = 2 * c.pool.length + 2 := by
          omega
        intro hEq
        have h5 : 6 * c.table.length / 4 ≤ c.pool.length := by
          have := Nat.le_max_left (6 * c.table.length / 4) c.pool.length
          omega
        omega
      obtain ⟨c', heq', hinv', hmap'⟩ :=
        XC_InsertStep_spec hash k o 0 (XC.Rehash c hash (c.table.length * 2))
          hinv2 (Or.inr hne2)
      refine ⟨c', ?_, hinv', by rw [hmap', hmapkd]⟩
      rw [InsertFuel_succ]
      rw [show XC.XFind c k (XC.IndexK c hash k) = none from hfind]
      show (if c.pool.length = c.poolAlloc then
          XC.InsertFuel hash k o true 1 (XC.Rehash c hash (c.table.length * 2))
        else some (XC.XInsert c (XC.IndexK c hash k) k o, true)) = some (c', true)
      rw [if_pos heqa]
      exact heq'
  | succ f ihf =>
    intro c hinv hbound
    by_cases hstep : (∃ j, j < c.pool.length ∧ (c.pool.getD j default).key = k) ∨
        c.pool.length ≠ c.poolAlloc
    · exact XC_InsertStep_spec hash k o (f + 2) c hinv hstep
    · push_neg at hstep
      obtain ⟨hnp, heqa⟩ := hstep
      have habs : ∀ e ∈ c.pool, e.key ≠ k := by
        intro e he hk
        obtain ⟨j, hj, hje⟩ := List.mem_iff_getElem.mp he
        refine hnp j hj ?_
        rw [List.getD_eq_getElem?_getD, List.getElem?_eq_getElem hj, hje]
        exact hk
      have hfind : XC.XFindIndex c hash k = none := XC_find_absent habs
      have hT4 : 4 ≤ c.table.length := hinv.2.2
      have hinv2 : XC.CInv hash (XC.Rehash c hash (c.table.length * 2)) :=
        XC_Rehash_CInv hinv (by omega)
      have hmapkd := Rehash_pool_map_kd c hash (c.table.length * 2)
      have hlen2 := Rehash_pool_length c hash (c.table.length * 2)
      have hbound2 : 4 * (XC.Rehash c hash (c.table.length * 2)).pool.length + 4 ≤
          3 * 2 ^ f * (XC.Rehash c hash (c.table.length * 2)).table.length := by
        rw [hlen2, Rehash_table_length]
        have e : 3 * 2 ^ f * (c.table.length * 2) =
            3 * 2 ^ (f + 1) * c.table.length := by ring
        rw [e]
        exact hbound
      obtain ⟨c', heq', hinv', hmap'⟩ :=
        ihf (XC.Rehash c hash (c.table.length * 2)) hinv2 hbound2
      refine ⟨c', ?_, hinv', by rw [hmap', hmapkd]⟩
      rw [InsertFuel_succ]
      rw [show XC.XFind c k (XC.IndexK c hash k) = none from hfind]
      show (if c.pool.length = c.poolAlloc then
          XC.InsertFuel hash k o true (f + 2)
            (XC.Rehash c hash (c.table.length * 2))
        else some (XC.XInsert c (XC.IndexK c hash k) k o, true)) = some (c', true)
      rw [if_pos heqa]
      exact heq'

theorem XC_Insert_spec {hash : Nat → Nat} {c : XC.CTable}
    (hinv : XC.CInv hash c) (k o : Nat) :
    ∃ c', XC.Insert c hash k o true = some (c', true) ∧ XC.CInv hash c' ∧
      c'.pool.map kd = specUpsert (c.pool.map kd) k o := by
  have hT4 : 4 ≤ c.table.length := hinv.2.2
  have h1 : c.pool.length < 2 ^ c.pool.length := Nat.lt_two_pow _
  have hb : 4 * c.pool.length + 4 ≤ 3 * 2 ^ c.pool.length * c.table.length := by
    have h2 : 4 * c.pool.length + 4 ≤ 4 * 2 ^ c.pool.length := by omega
    have h3 : 4 * 2 ^ c.pool.length ≤ 3 * 2 ^ c.pool.length * 4 := by
      have : 0 ≤ 2 ^ c.pool.length := Nat.zero_le _
      omega
    have h4 : 3 * 2 ^ c.pool.length * 4 ≤
        3 * 2 ^ c.pool.length * c.table.length :=
      Nat.mul_le_mul_left _ hT4
    omega
  exact XC_InsertFuel_spec hash k o c.pool.length c hinv hb

theorem XC_run_spec (hash : Nat → Nat) :
    ∀ (L : List (Nat × Nat)) (c : XC.CTable) (acc : List (Nat × Nat)),
      XC.CInv hash c → c.pool.map kd = acc →
      ∃ c', XC.runInserts hash L c = some c' ∧ XC.CInv hash c' ∧
        c'.pool.map kd = L.foldl (fun m p => specUpsert m p.1 p.2) acc := by
  intro L
  induction L with
  | nil =>
    intro c acc hinv hacc
    exact ⟨c, rfl, hinv, by simpa using hacc⟩
  | cons p L ihL =>
    intro c acc hinv hacc
    obtain ⟨c1, heq1, hinv1, hmap1⟩ := XC_Insert_spec hinv p.1 p.2
    obtain ⟨c', heq', hinv', hmap'⟩ := ihL c1 (specUpsert acc p.1 p.2) hinv1
      (by rw [hmap1, hacc])
    refine ⟨c', ?_, hinv', by rw [hmap', List.foldl_cons]⟩
    show (p :: L).foldl (fun oc q => XC.insertB hash q.1 q.2 true oc) (some c) =
      some c'
    rw [List.foldl_cons]
    have hb : XC.insertB hash p.1 p.2 true (some c) = some c1 := by
      unfold XC.insertB
      simp [heq1]
    rw [hb]
    exact heq'

theorem XC_CInv_mk (hash : Nat → Nat) (n : Nat) :
    XC.CInv hash (XC.mkCTable n) := by
  have hsz : 4 ≤ XC.ctorSize n := by
    simp only [XC.ctorSize]
    split <;> omega
  refine ⟨⟨List.replicate (XC.ctorSize n) [], ⟨⟨by simp [XC.mkCTable], ?_, ?_⟩,
    ?_, ?_⟩⟩, by simp [XC.mkCTable], ?_⟩
  · intro b hb
    have hb' : b < XC.ctorSize n := by simpa [XC.mkCTable] using hb
    show (List.replicate (XC.ctorSize n) (none : Option Nat)).getD b none = _
    rw [getD_replicate_opt hb', getDl_replicate hb']
    rfl
  · intro b hb
    have hb' : b < XC.ctorSize n := by simpa [XC.mkCTable] using hb
    show XC.chainLinked ([] : List XC.CEntry) _ = true
    rw [getDl_replicate hb']
    rfl
  · show (List.replicate (XC.ctorSize n) ([] : List Nat)).join.Perm
      (List.range ([] : List XC.CEntry).length)
    rw [join_replicate_nil]
    simp
  · intro b hb t ht
    have hb' : b < XC.ctorSize n := by simpa [XC.mkCTable] using hb
    rw [getDl_replicate hb'] at ht
    simp at ht
  · show 4 ≤ (List.replicate (XC.ctorSize n) (none : Option Nat)).length
    rw [List.length_replicate]
    exact hsz

theorem XC_run_equiv (hash : Nat → Nat) (L : List (Nat × Nat)) (a b : Nat) :
    ∃ ca cb, XC.runInserts hash L (XC.mkCTable a) = some ca ∧
      XC.runInserts hash L (XC.mkCTable b) = some cb ∧
      XC.Size ca = XC.Size cb ∧
      ∀ key, XC.FindData ca hash key = XC.FindData cb hash key := by
  obtain ⟨ca, heqa, hinva, hmapa⟩ := XC_run_spec hash L (XC.mkCTable a) []
    (XC_CInv_mk hash a) rfl
  obtain ⟨cb, heqb, hinvb, hmapb⟩ := XC_run_spec hash L (XC.mkCTable b) []
    (XC_CInv_mk hash b) rfl
  refine ⟨ca, cb, heqa, heqb, ?_, ?_⟩
  · show ca.pool.length = cb.pool.length
    have := congrArg List.length (hmapa.trans hmapb.symm)
    simpa using this
  · intro key
    rw [XC_FindData_spec hinva key, XC_FindData_spec hinvb key, hmapa, hmapb]

theorem cyc_add_dist {T idx j : Nat} (hT : 0 < T) (hidx : idx < T)
    (hj : j < T) : (idx + (j + T - idx) % T) % T = j := by
  rcases le_or_lt idx j with hle | hlt
  · have h1 : j + T - idx = (j - idx) + T := by omega
    have h2 : (j - idx) % T = j - idx := Nat.mod_eq_of_lt (by omega)
    rw [h1, Nat.add_mod_right, h2]
    have h3 : idx + (j - idx) = j := by omega
    rw [h3, Nat.mod_eq_of_lt hj]
  · have h1 : j + T - idx < T := by omega
    rw [Nat.mod_eq_of_lt h1]
    have h2 : idx + (j + T - idx) = j + T := by omega
    rw [h2, Nat.add_mod_right, Nat.mod_eq_of_lt hj]

theorem cyc_dist_add {T idx d : Nat} (hidx : idx < T) (hd : d < T) :
    ((idx + d) % T + T - idx) % T = d := by
  by_cases hlt : idx + d < T
  · rw [Nat.mod_eq_of_lt hlt]
    have e : idx + d + T - idx = d + T := by omega
    rw [e, Nat.add_mod_right, Nat.mod_eq_of_lt hd]
  · have h1 : (idx + d) % T = idx + d - T := by
      rw [Nat.mod_eq_sub_mod (by omega), Nat.mod_eq_of_lt (by omega)]
    rw [h1]
    have e : idx + d - T + T - idx = d := by omega
    rw [e, Nat.mod_eq_of_lt hd]

theorem probe_advance_mod {T idx : Nat} (hidx : idx < T) (x : Nat) :
    ((if idx + 1 = T then 0 else idx + 1) + x) % T = (idx + (x + 1)) % T := by
  split
  · next heq =>
    have e1 : idx + (x + 1) = T + x := by omega
    rw [e1, Nat.zero_add, Nat.add_comm T x, Nat.add_mod_right]
  · next hne =>
    congr 1
    omega

theorem XFindPosLoop_steps {t : List XS.SEntry} {k : Nat} :
    ∀ (d fuel idx : Nat), idx < t.length → d < fuel →
      (∀ x, x < d → (t.getD ((idx + x) % t.length) default).status =
          XS.STATUS_OCCUPIED ∧
        (t.getD ((idx + x) % t.length) default).key ≠ k) →
      ((t.getD ((idx + d) % t.length) default).status ≠ XS.STATUS_OCCUPIED ∨
        (t.getD ((idx + d) % t.length) default).key = k) →
      XS.XFindPosLoop t k fuel idx = some ((idx + d) % t.length) := by
  intro d
  induction d with
  | zero =>
    intro fuel idx hidx hfuel _ hstop
    cases fuel with
    | zero => omega
    | succ f =>
      rw [XS.XFindPosLoop]
      have e0 : (idx + 0) % t.length = idx := by
        rw [Nat.add_zero, Nat.mod_eq_of_lt hidx]
      rw [e0] at hstop ⊢
      rcases hstop with h | h
      · rw [if_neg h]
      · by_cases hocc : (t.getD idx default).status = XS.STATUS_OCCUPIED
        · rw [if_pos hocc, if_pos h]
        · rw [if_neg hocc]
  | succ d ihd =>
    intro fuel idx hidx hfuel hpath hstop
    cases fuel with
    | zero => omega
    | succ f =>
      rw [XS.XFindPosLoop]
      have h0 := hpath 0 (by omega)
      have e0 : (idx + 0) % t.length = idx := by
        rw [Nat.add_zero, Nat.mod_eq_of_lt hidx]
      rw [e0] at h0
      rw [if_pos h0.1, if_neg h0.2]
      have hlt1 : (if idx + 1 = t.length then 0 else idx + 1) < t.length := by
        split <;> omega
      have hres := ihd f (if idx + 1 = t.length then 0 else idx + 1) hlt1
        (by omega)
        (fun x hx => by
          rw [probe_advance_mod hidx x]
          exact hpath (x + 1) (by omega))
        (by
          rw [probe_advance_mod hidx d]
          exact hstop)
      rw [hres, probe_advance_mod hidx d]

theorem XFindPosLoop_path {t : List XS.SEntry} {k : Nat} :
    ∀ (fuel idx j : Nat), idx < t.length →
      XS.XFindPosLoop t k fuel idx = some j →
      ∃ d, d < fuel ∧ j = (idx + d) % t.length ∧
        ∀ x, x < d → (t.getD ((idx + x) % t.length) default).status =
            XS.STATUS_OCCUPIED ∧
          (t.getD ((idx + x) % t.length) default).key ≠ k := by
  intro fuel
  induction fuel with
  | zero => intro idx j _ h; simp [XS.XFindPosLoop] at h
  | succ f ih =>
    intro idx j hidx h
    rw [XS.XFindPosLoop] at h
    split at h
    · next hocc =>
      split at h
      · next hkey =>
        cases Option.some_inj.mp h
        refine ⟨0, by omega, ?_, fun x hx => absurd hx (Nat.not_lt_zero x)⟩
        rw [Nat.add_zero, Nat.mod_eq_of_lt hidx]
      · next hkey =>
        have hlt1 : (if idx + 1 = t.length then 0 else idx + 1) < t.length := by
          split <;> omega
        obtain ⟨d, hd, hjd, hpath⟩ := ih _ j hlt1 h
        refine ⟨d + 1, by omega, ?_, ?_⟩
        · rw [hjd, probe_advance_mod hidx d]
        · intro x hx
          cases x with
          | zero =>
            have e0 : (idx + 0) % t.length = idx := by
              rw [Nat.add_zero, Nat.mod_eq_of_lt hidx]
            rw [e0]
            exact ⟨hocc, hkey⟩
          | succ x' =>
            rw [← probe_advance_mod hidx x']
            exact hpath x' (by omega)
    · next hocc =>
      cases Option.some_inj.mp h
      refine ⟨0, by omega, ?_, fun x hx => absurd hx (Nat.not_lt_zero x)⟩
      rw [Nat.add_zero, Nat.mod_eq_of_lt hidx]

theorem XS_home_lt {hash : Nat → Nat} {k T : Nat} (hT : 0 < T) :
    XS.XIndex (hash k) T < T := by
  have : XS.XIndex (hash k) T ≤ T - 1 := Nat.and_le_right
  omega

theorem XS_find_present {hash : Nat → Nat} {s : XS.STable}
    (hinv : XS.SInv hash s) {k j : Nat} (hj : j < s.table.length)
    (hocc : (s.table.getD j default).status = XS.STATUS_OCCUPIED)
    (hkey : (s.table.getD j default).key = k) :
    XS.XFindPos s hash k = some j := by
  obtain ⟨⟨hthr, hT, hcnt, hocount, hstat, huniq, hpath⟩, hocclt⟩ := hinv
  have hstart : XS.XIndex (hash k) s.table.length < s.table.length :=
    XS_home_lt hT
  have hjd : (XS.XIndex (hash k) s.table.length +
      (j + s.table.length - XS.XIndex (hash k) s.table.length) %
        s.table.length) % s.table.length = j := cyc_add_dist hT hstart hj
  have hpathj := hpath j hj hocc
  rw [hkey] at hpathj
  have hside1 : ∀ x, x < (j + s.table.length -
      XS.XIndex (hash k) s.table.length) % s.table.length →
      (s.table.getD ((XS.XIndex (hash k) s.table.length + x) % s.table.length)
        default).status = XS.STATUS_OCCUPIED ∧
      (s.table.getD ((XS.XIndex (hash k) s.table.length + x) % s.table.length)
        default).key ≠ k := by
    intro x hx
    refine ⟨hpathj x hx, ?_⟩
    intro hxk
    have hplt : (XS.XIndex (hash k) s.table.length + x) % s.table.length <
        s.table.length := Nat.mod_lt _ hT
    have hpe : (XS.XIndex (hash k) s.table.length + x) % s.table.length = j :=
      huniq _ j hplt hj (hpathj x hx) hocc (by rw [hxk, hkey])
    have hxT : x < s.table.length := by
      have := Nat.mod_lt (j + s.table.length -
        XS.XIndex (hash k) s.table.length) hT
      omega
    have h1 : ((XS.XIndex (hash k) s.table.length + x) % s.table.length +
        s.table.length - XS.XIndex (hash k) s.table.length) % s.table.length =
        x := cyc_dist_add hstart hxT
    rw [hpe] at h1
    omega
  have hside2 : (s.table.getD ((XS.XIndex (hash k) s.table.length +
      (j + s.table.length - XS.XIndex (hash k) s.table.length) %
        s.table.length) % s.table.length) default).status ≠
        XS.STATUS_OCCUPIED ∨
      (s.table.getD ((XS.XIndex (hash k) s.table.length +
        (j + s.table.length - XS.XIndex (hash k) s.table.length) %
          s.table.length) % s.table.length) default).key = k := by
    rw [hjd]
    exact Or.inr hkey
  have hgoal := XFindPosLoop_steps _ s.table.length _ hstart
    (Nat.mod_lt _ hT) hside1 hside2
  show XS.XFindPosLoop s.table k s.table.length
    (XS.XIndex (hash k) s.table.length) = some j
  rw [hgoal, hjd]

theorem XS_count_lt_all {s : XS.STable}
    (hocount : s.occupation =
      s.table.countP (fun e => decide (e.status = XS.STATUS_OCCUPIED)))
    (hocclt : s.occupation < s.table.length) :
    ∃ j, j < s.table.length ∧
      (s.table.getD j default).status ≠ XS.STATUS_OCCUPIED := by
  by_contra hall
  push_neg at hall
  have hcp : s.table.countP (fun e => decide (e.status = XS.STATUS_OCCUPIED)) =
      s.table.length := by
    rw [List.countP_eq_length]
    intro a ha
    obtain ⟨j, hjl, hje⟩ := List.mem_iff_getElem.mp ha
    have := hall j hjl
    rw [List.getD_eq_getElem?_getD, List.getElem?_eq_getElem hjl, hje] at this
    simpa using this
  omega

theorem XS_find_absent {hash : Nat → Nat} {s : XS.STable}
    (hinv : XS.SInv hash s) {k : Nat}
    (habs : ∀ j, j < s.table.length →
      (s.table.getD j default).status = XS.STATUS_OCCUPIED →
      (s.table.getD j default).key ≠ k) :
    ∃ p, XS.XFindPos s hash k = some p ∧ p < s.table.length ∧
      (s.table.getD p default).status ≠ XS.STATUS_OCCUPIED := by
  obtain ⟨⟨hthr, hT, hcnt, hocount, hstat, huniq, hpath⟩, hocclt⟩ := hinv
  have hstart : XS.XIndex (hash k) s.table.length < s.table.length :=
    XS_home_lt hT
  have hvac := XS_count_lt_all hocount hocclt
  have hsome := @XFindPos_isSome s hash k hvac
  cases hfp : XS.XFindPos s hash k with
  | none => rw [hfp] at hsome; simp at hsome
  | some p =>
    have hp : p < s.table.length :=
      XFindPosLoop_lt s.table.length _ p hstart hfp
    refine ⟨p, rfl, hp, ?_⟩
    rcases XFindPosLoop_spec _ _ p hfp with h | h
    · exact h
    · exact absurd h.2 (habs p hp h.1)

theorem getD_set_self_any {α : Type} {d : α} {l : List α} {i : Nat} {v : α}
    (hi : i < l.length) : (l.set i v).getD i d = v := by
  rw [List.getD_eq_getElem?_getD, List.getElem?_set_self (by exact hi)]
  rfl

theorem countP_set_add {α : Type} (p : α → Bool) :
    ∀ (l : List α) (i : Nat) (v : α), i < l.length →
      (l.set i v).countP p + (if p (l.getD i v) then 1 else 0) =
        l.countP p + (if p v then 1 else 0) := by
  intro l
  induction l with
  | nil => intro i v hi; simp at hi
  | cons a l ih =>
    intro i v hi
    cases i with
    | zero =>
      simp only [List.set_cons_zero, List.countP_cons, List.getD_cons_zero]
      omega
    | succ j =>
      have hrec := ih j v (by simpa using hi)
      simp only [List.set_cons_succ, List.countP_cons, List.getD_cons_succ]
      omega

theorem find?_set_congr {α : Type} (p : α → Bool) :
    ∀ (l : List α) (i : Nat) (v : α), p v = false →
      p (l.getD i v) = false →
      (l.set i v).find? p = l.find? p := by
  intro l
  induction l with
  | nil => intro i v _ _; rfl
  | cons a l ih =>
    intro i v hv ha
    cases i with
    | zero =>
      rw [List.getD_cons_zero] at ha
      rw [List.set_cons_zero, List.find?_cons_of_neg _ (by simp [hv]),
        List.find?_cons_of_neg _ (by simp [ha])]
    | succ j =>
      rw [List.getD_cons_succ] at ha
      rw [List.set_cons_succ]
      by_cases hpa : p a
      · rw [List.find?_cons_of_pos _ hpa, List.find?_cons_of_pos _ hpa]
      · rw [List.find?_cons_of_neg _ (by simpa using hpa),
          List.find?_cons_of_neg _ (by simpa using hpa)]
        exact ih j v hv ha

theorem XS_occFind_present {s : XS.STable}
    (huniq : ∀ i j, i < s.table.length → j < s.table.length →
      (s.table.getD i default).status = XS.STATUS_OCCUPIED →
      (s.table.getD j default).status = XS.STATUS_OCCUPIED →
      (s.table.getD i default).key = (s.table.getD j default).key → i = j)
    {k j : Nat} (hj : j < s.table.length)
    (hocc : (s.table.getD j default).status = XS.STATUS_OCCUPIED)
    (hkey : (s.table.getD j default).key = k) :
    XS.occFind s k = some ((s.table.getD j default).data) := by
  unfold XS.occFind
  have hjmem : s.table.getD j default ∈ s.table := by
    rw [List.getD_eq_getElem?_getD, List.getElem?_eq_getElem hj]
    exact List.getElem_mem hj
  cases hf : s.table.find? (fun e =>
      decide (e.status = XS.STATUS_OCCUPIED) && decide (e.key = k)) with
  | none =>
    rw [List.find?_eq_none] at hf
    have hcontra := hf _ hjmem
    simp only [Bool.and_eq_true, decide_eq_true_eq, not_and] at hcontra
    exact absurd hkey (hcontra hocc)
  | some e0 =>
    have hmem := List.mem_of_find?_eq_some hf
    have hpe := List.find?_some hf
    simp only [Bool.and_eq_true, decide_eq_true_eq] at hpe
    obtain ⟨j0, hj0, hj0e⟩ := List.mem_iff_getElem.mp hmem
    have hgd : s.table.getD j0 default = e0 := by
      rw [List.getD_eq_getElem?_getD, List.getElem?_eq_getElem hj0, hj0e]
      rfl
    have hjj : j0 = j := huniq j0 j hj0 hj (by rw [hgd]; exact hpe.1) hocc
      (by rw [hgd, hkey]; exact hpe.2)
    subst hjj
    rw [← hgd]
    rfl

theorem XS_occFind_absent {s : XS.STable} {k : Nat}
    (habs : ∀ j, j < s.table.length →
      (s.table.getD j default).status = XS.STATUS_OCCUPIED →
      (s.table.getD j default).key ≠ k) :
    XS.occFind s k = none := by
  unfold XS.occFind
  rw [List.find?_eq_none.mpr]
  · rfl
  · intro e he
    obtain ⟨j, hjl, hje⟩ := List.mem_iff_getElem.mp he
    have hgd : s.table.getD j default = e := by
      rw [List.getD_eq_getElem?_getD, List.getElem?_eq_getElem hjl, hje]
      rfl
    intro hpe
    simp only [Bool.and_eq_true, decide_eq_true_eq] at hpe
    exact habs j hjl (hgd ▸ hpe.1) (hgd ▸ hpe.2)

theorem XS_FindData_present {hash : Nat → Nat} {s : XS.STable}
    (hinv : XS.SInv hash s) {k j : Nat} (hj : j < s.table.length)
    (hocc : (s.table.getD j default).status = XS.STATUS_OCCUPIED)
    (hkey : (s.table.getD j default).key = k) :
    XS.FindData s hash k = some ((s.table.getD j default).data) := by
  have hfp := XS_find_present hinv hj hocc hkey
  have hfi : XS.XFindIndex s hash k = some j := by
    unfold XS.XFindIndex
    rw [hfp]
    exact if_pos hocc
  unfold XS.FindData
  rw [hfi]
  rfl

theorem XS_FindData_absent {hash : Nat → Nat} {s : XS.STable}
    (hinv : XS.SInv hash s) {k : Nat}
    (habs : ∀ j, j < s.table.length →
      (s.table.getD j default).status = XS.STATUS_OCCUPIED →
      (s.table.getD j default).key ≠ k) :
    XS.FindData s hash k = none := by
  obtain ⟨p, hfp, hp, hpnocc⟩ := XS_find_absent hinv habs
  have hfi : XS.XFindIndex s hash k = none := by
    unfold XS.XFindIndex
    rw [hfp]
    exact if_neg hpnocc
  unfold XS.FindData
  rw [hfi]
  rfl

theorem XS_FindData_eq_occFind {hash : Nat → Nat} {s : XS.STable}
    (hinv : XS.SInv hash s) (k : Nat) :
    XS.FindData s hash k = XS.occFind s k := by
  by_cases hpres : ∃ j, j < s.table.length ∧
      (s.table.getD j default).status = XS.STATUS_OCCUPIED ∧
      (s.table.getD j default).key = k
  · obtain ⟨j, hj, hocc, hkey⟩ := hpres
    rw [XS_FindData_present hinv hj hocc hkey,
      XS_occFind_present hinv.1.2.2.2.2.2.1 hj hocc hkey]
  · push_neg at hpres
    have habs : ∀ j, j < s.table.length →
        (s.table.getD j default).status = XS.STATUS_OCCUPIED →
        (s.table.getD j default).key ≠ k := fun j hj hocc => hpres j hj hocc
    rw [XS_FindData_absent hinv habs, XS_occFind_absent habs]

/-- Writing `⟨k, d, Occupied⟩` at the slot the probe stopped on preserves
the open table's core invariant: the new slot's probe prefix is the path
the probe just walked, every other occupied slot keeps its old path (the
write only turns a slot Occupied), and `k` occurs occupied only at `q`. -/
theorem XS_SCore_write {hash : Nat → Nat} {s : XS.STable}
    (hcore : XS.SCore hash s) {k q dq : Nat} (d : Nat)
    (hq : q < s.table.length)
    (hqd : q = (XS.XIndex (hash k) s.table.length + dq) % s.table.length)
    (hdqT : dq < s.table.length)
    (hpathq : ∀ x, x < dq →
      (s.table.getD ((XS.XIndex (hash k) s.table.length + x) % s.table.length)
        default).status = XS.STATUS_OCCUPIED)
    (hkabs : ∀ j, j < s.table.length →
      (s.table.getD j default).status = XS.STATUS_OCCUPIED →
      (s.table.getD j default).key = k → j = q)
    {s' : XS.STable}
    (htab' : s'.table = s.table.set q ⟨k, d, XS.STATUS_OCCUPIED⟩)
    (hthr' : s'.threshold = s.threshold)
    (hcnt' : s'.count = s'.occupation)
    (hocc' : s'.occupation + (if (s.table.getD q default).status =
        XS.STATUS_OCCUPIED then 1 else 0) = s.occupation + 1) :
    XS.SCore hash s' := by
  obtain ⟨hthr, hT, hcnt, hocount, hstat, huniq, hpath⟩ := hcore
  have hlen' : s'.table.length = s.table.length := by
    rw [htab', List.length_set]
  have hgd' : ∀ p, s'.table.getD p default =
      if p = q then ⟨k, d, XS.STATUS_OCCUPIED⟩ else s.table.getD p default := by
    intro p
    rw [htab']
    by_cases hp : p = q
    · subst hp
      rw [if_pos rfl, getD_set_self_any hq]
    · rw [if_neg hp, getD_set_ne' hp]
  have hqocc' : (s'.table.getD q default).status = XS.STATUS_OCCUPIED := by
    rw [hgd' q, if_pos rfl]
  have hocc_mono : ∀ p, (s.table.getD p default).status = XS.STATUS_OCCUPIED →
      (s'.table.getD p default).status = XS.STATUS_OCCUPIED := by
    intro p hp
    rw [hgd' p]
    by_cases hpq : p = q
    · rw [if_pos hpq]
    · rw [if_neg hpq]
      exact hp
  have hstart : XS.XIndex (hash k) s.table.length < s.table.length :=
    XS_home_lt hT
  refine ⟨?_, ?_, hcnt', ?_, ?_, ?_, ?_⟩
  · rw [hthr', hlen', hthr]
  · omega
  · -- occupation counts the occupied slots
    have hcp := countP_set_add (fun e => decide (e.status = XS.STATUS_OCCUPIED))
      s.table q ⟨k, d, XS.STATUS_OCCUPIED⟩ hq
    have hgdq : s.table.getD q (⟨k, d, XS.STATUS_OCCUPIED⟩ : XS.SEntry) =
        s.table.getD q default := by
      rw [List.getD_eq_getElem?_getD, List.getElem?_eq_getElem hq,
        List.getD_eq_getElem?_getD, List.getElem?_eq_getElem hq]
      rfl
    rw [hgdq] at hcp
    have hif : (if (decide ((s.table.getD q default).status =
        XS.STATUS_OCCUPIED)) = true then 1 else 0) =
        (if (s.table.getD q default).status = XS.STATUS_OCCUPIED
          then 1 else 0) := by
      by_cases h : (s.table.getD q default).status = XS.STATUS_OCCUPIED <;>
        simp [h]
    rw [hif] at hcp
    have hnew : (if (decide ((⟨k, d, XS.STATUS_OCCUPIED⟩ :
        XS.SEntry).status = XS.STATUS_OCCUPIED)) = true then 1 else 0) = 1 := by
      simp
    rw [hnew] at hcp
    rw [htab']
    omega
  · intro e he
    rw [htab'] at he
    rcases List.mem_or_eq_of_mem_set he with h | h
    · exact hstat e h
    · subst h
      exact Or.inl rfl
  · intro i j hi hj hoi hoj hkij
    rw [hlen'] at hi hj
    rw [hgd' i] at hoi hkij
    rw [hgd' j] at hoj hkij
    by_cases hiq : i = q
    · by_cases hjq : j = q
      · rw [hiq, hjq]
      · rw [if_pos hiq] at hkij
        rw [if_neg hjq] at hoj hkij
        exact absurd (hkabs j hj hoj hkij.symm) hjq
    · by_cases hjq : j = q
      · rw [if_neg hiq] at hoi hkij
        rw [if_pos hjq] at hkij
        exact absurd (hkabs i hi hoi hkij) hiq
      · rw [if_neg hiq] at hoi hkij
        rw [if_neg hjq] at hoj hkij
        exact huniq i j hi hj hoi hoj hkij
  · intro j hj hoj x hx
    rw [hlen'] at hj hx ⊢
    rw [hgd' j] at hoj hx ⊢
    by_cases hjq : j = q
    · rw [if_pos hjq] at hx ⊢
      simp only at hx ⊢
      subst hjq
      have hdist : (j + s.table.length -
          XS.XIndex (hash k) s.table.length) % s.table.length = dq := by
        rw [hqd]
        exact cyc_dist_add hstart hdqT
      rw [hdist] at hx
      by_cases hsq : (XS.XIndex (hash k) s.table.length + x) %
          s.table.length = j
      · rw [hsq]
        exact hqocc'
      · rw [hgd' _, if_neg hsq]
        exact hpathq x hx
    · rw [if_neg hjq] at hoj hx ⊢
      by_cases hsq : (XS.XIndex (hash ((s.table.getD j default).key))
          s.table.length + x) % s.table.length = q
      · rw [hsq]
        exact hqocc'
      · rw [hgd' _, if_neg hsq]
        exact hpath j hj hoj x hx

/-- One override `XPut` from an invariant state: it always succeeds with
TRUE, preserves the core invariant, size and threshold, bumps Occupation
exactly when the key was absent, and realizes the association-map update
on `occFind`. -/
theorem XS_XPut_spec {hash : Nat → Nat} {s : XS.STable}
    (hinv : XS.SInv hash s) (k d : Nat) :
    ∃ s', XS.XPut s hash k d true = some (s', true) ∧
      XS.SCore hash s' ∧
      s'.table.length = s.table.length ∧
      s'.threshold = s.threshold ∧
      s'.occupation = s.occupation +
        (if XS.occFind s k = none then 1 else 0) ∧
      (∀ key, XS.occFind s' key =
        if key = k then some d else XS.occFind s key) := by
  obtain ⟨⟨hthr, hT, hcnt, hocount, hstat, huniq, hpath⟩, hocclt⟩ := hinv
  have hinv' : XS.SInv hash s :=
    ⟨⟨hthr, hT, hcnt, hocount, hstat, huniq, hpath⟩, hocclt⟩
  have hstart : XS.XIndex (hash k) s.table.length < s.table.length :=
    XS_home_lt hT
  by_cases hpres : ∃ j, j < s.table.length ∧
      (s.table.getD j default).status = XS.STATUS_OCCUPIED ∧
      (s.table.getD j default).key = k
  · -- key present: overwrite in place
    obtain ⟨j, hj, hocc, hkey⟩ := hpres
    have hfp := XS_find_present hinv' hj hocc hkey
    have hput := @XS.XPut_occupied s hash k d j true hfp hocc
    rw [if_pos rfl] at hput
    have hcore' : XS.SCore hash
        (⟨s.table.set j ⟨k, d, XS.STATUS_OCCUPIED⟩, s.count, s.occupation,
          s.threshold⟩ : XS.STable) := by
      refine @XS_SCore_write hash s
        ⟨hthr, hT, hcnt, hocount, hstat, huniq, hpath⟩ k j
        ((j + s.table.length - XS.XIndex (hash k) s.table.length) %
          s.table.length) d hj (cyc_add_dist hT hstart hj).symm
        (Nat.mod_lt _ hT) ?_ ?_ _ rfl rfl hcnt ?_
      · intro x hx
        have hpj := hpath j hj hocc
        rw [hkey] at hpj
        exact hpj x hx
      · intro j' hj' hocc' hkey'
        exact huniq j' j hj' hj hocc' hocc (by rw [hkey', hkey])
      · rw [if_pos hocc]
    have hlen' :
        (s.table.set j (⟨k, d, XS.STATUS_OCCUPIED⟩ : XS.SEntry)).length =
          s.table.length := List.length_set s.table j _
    have hgdj :
        (s.table.set j (⟨k, d, XS.STATUS_OCCUPIED⟩ : XS.SEntry)).getD
          j default = ⟨k, d, XS.STATUS_OCCUPIED⟩ := getD_set_self_any hj
    refine ⟨⟨s.table.set j ⟨k, d, XS.STATUS_OCCUPIED⟩, s.count, s.occupation,
      s.threshold⟩, hput, hcore', hlen', rfl, ?_, ?_⟩
    · rw [XS_occFind_present huniq hj hocc hkey]
      simp
    · intro key
      by_cases hkk : key = k
      · rw [if_pos hkk, hkk]
        have hres := XS_occFind_present hcore'.2.2.2.2.2.1
          (show j < (s.table.set j (⟨k, d, XS.STATUS_OCCUPIED⟩ :
            XS.SEntry)).length by rw [hlen']; exact hj)
          (show ((s.table.set j (⟨k, d, XS.STATUS_OCCUPIED⟩ :
            XS.SEntry)).getD j default).status = XS.STATUS_OCCUPIED by
            rw [hgdj])
          (show ((s.table.set j (⟨k, d, XS.STATUS_OCCUPIED⟩ :
            XS.SEntry)).getD j default).key = k by rw [hgdj])
        rw [hres]
        show some (((s.table.set j (⟨k, d, XS.STATUS_OCCUPIED⟩ :
          XS.SEntry)).getD j default).data) = some d
        rw [hgdj]
      · rw [if_neg hkk]
        show ((s.table.set j ⟨k, d, XS.STATUS_OCCUPIED⟩).find? (fun e =>
          decide (e.status = XS.STATUS_OCCUPIED) && decide (e.key = key))).map
          (fun e => e.data) = XS.occFind s key
        rw [find?_set_congr _ s.table j ⟨k, d, XS.STATUS_OCCUPIED⟩
          (by simp [Ne.symm hkk]) ?_]
        · rfl
        · have hgdd : s.table.getD j (⟨k, d, XS.STATUS_OCCUPIED⟩ :
              XS.SEntry) = s.table.getD j default := by
            rw [List.getD_eq_getElem?_getD, List.getElem?_eq_getElem hj,
              List.getD_eq_getElem?_getD, List.getElem?_eq_getElem hj]
            rfl
          rw [hgdd]
          simp only [Bool.and_eq_false_iff, decide_eq_false_iff_not]
          right
          rw [hkey]
          exact Ne.symm hkk
  · -- key absent: write a fresh slot
    push_neg at hpres
    have habs : ∀ j, j < s.table.length →
        (s.table.getD j default).status = XS.STATUS_OCCUPIED →
        (s.table.getD j default).key ≠ k := fun j hj hocc => hpres j hj hocc
    obtain ⟨p, hfp, hp, hpnocc⟩ := XS_find_absent hinv' habs
    have hpfree : (s.table.getD p default).status = XS.STATUS_FREE := by
      have hpm : s.table.getD p default ∈ s.table := by
        rw [List.getD_eq_getElem?_getD, List.getElem?_eq_getElem hp]
        exact List.getElem_mem hp
      rcases hstat _ hpm with h | h
      · exact absurd h hpnocc
      · exact h
    have hput := @XS.XPut_vacant s hash k d p true hfp hpnocc
    rw [if_neg (by rw [hpfree]; decide)] at hput
    obtain ⟨dq, hdq, hpd, hpathp⟩ := XFindPosLoop_path s.table.length
      (XS.XIndex (hash k) s.table.length) p hstart hfp
    have hkabs : ∀ j', j' < s.table.length →
        (s.table.getD j' default).status = XS.STATUS_OCCUPIED →
        (s.table.getD j' default).key = k → j' = p :=
      fun j' hj' hocc' hkey' => absurd hkey' (habs j' hj' hocc')
    have hcore' : XS.SCore hash
        (⟨s.table.set p ⟨k, d, XS.STATUS_OCCUPIED⟩, s.count + 1,
          s.occupation + 1, s.threshold⟩ : XS.STable) := by
      refine @XS_SCore_write hash s
        ⟨hthr, hT, hcnt, hocount, hstat, huniq, hpath⟩ k p dq d hp hpd hdq
        (fun x hx => (hpathp x hx).1) hkabs _ rfl rfl ?_ ?_
      · show s.count + 1 = s.occupation + 1
        rw [hcnt]
      · rw [if_neg hpnocc]
    have hlen' :
        (s.table.set p (⟨k, d, XS.STATUS_OCCUPIED⟩ : XS.SEntry)).length =
          s.table.length := List.length_set s.table p _
    have hgdp :
        (s.table.set p (⟨k, d, XS.STATUS_OCCUPIED⟩ : XS.SEntry)).getD
          p default = ⟨k, d, XS.STATUS_OCCUPIED⟩ := getD_set_self_any hp
    refine ⟨⟨s.table.set p ⟨k, d, XS.STATUS_OCCUPIED⟩, s.count + 1,
      s.occupation + 1, s.threshold⟩, hput, hcore', hlen', rfl, ?_, ?_⟩
    · rw [XS_occFind_absent habs]
      simp
    · intro key
      by_cases hkk : key = k
      · rw [if_pos hkk, hkk]
        have hres := XS_occFind_present hcore'.2.2.2.2.2.1
          (show p < (s.table.set p (⟨k, d, XS.STATUS_OCCUPIED⟩ :
            XS.SEntry)).length by rw [hlen']; exact hp)
          (show ((s.table.set p (⟨k, d, XS.STATUS_OCCUPIED⟩ :
            XS.SEntry)).getD p default).status = XS.STATUS_OCCUPIED by
            rw [hgdp])
          (show ((s.table.set p (⟨k, d, XS.STATUS_OCCUPIED⟩ :
            XS.SEntry)).getD p default).key = k by rw [hgdp])
        rw [hres]
        show some (((s.table.set p (⟨k, d, XS.STATUS_OCCUPIED⟩ :
          XS.SEntry)).getD p default).data) = some d
        rw [hgdp]
      · rw [if_neg hkk]
        show ((s.table.set p ⟨k, d, XS.STATUS_OCCUPIED⟩).find? (fun e =>
          decide (e.status = XS.STATUS_OCCUPIED) && decide (e.key = key))).map
          (fun e => e.data) = XS.occFind s key
        rw [find?_set_congr _ s.table p ⟨k, d, XS.STATUS_OCCUPIED⟩
          (by simp [Ne.symm hkk]) ?_]
        · rfl
        · have hgdd : s.table.getD p (⟨k, d, XS.STATUS_OCCUPIED⟩ :
              XS.SEntry) = s.table.getD p default := by
            rw [List.getD_eq_getElem?_getD, List.getElem?_eq_getElem hp,
              List.getD_eq_getElem?_getD, List.getElem?_eq_getElem hp]
            rfl
          rw [hgdd]
          simp only [Bool.and_eq_false_iff, decide_eq_false_iff_not]
          left
          exact hpnocc

theorem countP_singleton {α : Type} (p : α → Bool) (a : α) :
    [a].countP p = if p a then 1 else 0 := by
  rw [List.countP_cons, List.countP_nil]
  omega

theorem getD_replicate_default {m i : Nat} :
    (List.replicate m (default : XS.SEntry)).getD i default = default := by
  rw [List.getD_eq_getElem?_getD]
  rcases lt_or_ge i m with h | h
  · rw [List.getElem?_eq_getElem (by rw [List.length_replicate]; exact h)]
    rw [List.getElem_replicate]
    rfl
  · rw [List.getElem?_eq_none (by rw [List.length_replicate]; exact h)]
    rfl

/-- A fresh all-Free table of positive size with zeroed counters satisfies
the core invariant. -/
theorem XS_SCore_replicate (hash : Nat → Nat) {m : Nat} (hm : 0 < m) :
    XS.SCore hash
      (⟨List.replicate m default, 0, 0, 3 * m / 4⟩ : XS.STable) := by
  refine ⟨by rw [show (⟨List.replicate m default, 0, 0, 3 * m / 4⟩ :
      XS.STable).table = List.replicate m (default : XS.SEntry) from rfl,
      List.length_replicate], ?_, rfl, ?_, ?_, ?_, ?_⟩
  · show 0 < (List.replicate m (default : XS.SEntry)).length
    rw [List.length_replicate]
    exact hm
  · show 0 = (List.replicate m (default : XS.SEntry)).countP _
    rw [List.countP_eq_zero.mpr]
    intro a ha
    rw [List.eq_of_mem_replicate ha]
    decide
  · intro e he
    rw [List.eq_of_mem_replicate he]
    right
    rfl
  · intro i j _ _ hoi _ _
    rw [show (⟨List.replicate m default, 0, 0, 3 * m / 4⟩ :
      XS.STable).table = List.replicate m (default : XS.SEntry) from rfl,
      getD_replicate_default] at hoi
    exact absurd hoi (by decide)
  · intro j _ hoj
    rw [show (⟨List.replicate m default, 0, 0, 3 * m / 4⟩ :
      XS.STable).table = List.replicate m (default : XS.SEntry) from rfl,
      getD_replicate_default] at hoj
    exact absurd hoj (by decide)

theorem XS.RehashFuel_fold_eq (hash : Nat → Nat) (fuel : Nat)
    (s : XS.STable) (m : Nat) :
    XS.RehashFuel hash (fuel + 1) s m =
      (List.range s.table.length).foldl (XS.rehashStep hash s fuel)
        (some { table := List.replicate m default, count := 0,
                occupation := 0, threshold := 3 * m / 4 }) := rfl

theorem foldl_rehashStep_none (hash : Nat → Nat) (s : XS.STable)
    (fuel : Nat) :
    ∀ l : List Nat, l.foldl (XS.rehashStep hash s fuel) none = none := by
  intro l
  induction l with
  | nil => rfl
  | cons i l ih =>
    rw [List.foldl_cons]
    exact ih

/-- `XPut` never changes the slot count: it writes with `set` or leaves
the table alone. -/
theorem XS.XPut_length {s : XS.STable} {hash : Nat → Nat} {k d : Nat}
    {ovr : Bool} {s1 : XS.STable} {r : Bool}
    (h : XS.XPut s hash k d ovr = some (s1, r)) :
    s1.table.length = s.table.length := by
  cases hf : XS.XFindPos s hash k with
  | none =>
    unfold XS.XPut at h
    rw [hf] at h
    exact absurd h (by simp)
  | some idx =>
    by_cases hocc : (s.table.getD idx default).status = XS.STATUS_OCCUPIED
    · have heq := @XS.XPut_occupied s hash k d idx ovr hf hocc
      rw [heq] at h
      cases ovr with
      | true =>
        rw [if_pos rfl] at h
        have hs1 : _ = s1 := congrArg Prod.fst (Option.some_inj.mp h)
        rw [← hs1]
        exact List.length_set s.table idx _
      | false =>
        rw [if_neg (by simp)] at h
        have hs1 : _ = s1 := congrArg Prod.fst (Option.some_inj.mp h)
        rw [← hs1]
    · have heq := @XS.XPut_vacant s hash k d idx ovr hf hocc
      rw [heq] at h
      have hs1 : _ = s1 := congrArg Prod.fst (Option.some_inj.mp h)
      rw [← hs1]
      by_cases hdel : (s.table.getD idx default).status = XS.STATUS_DELETED
      · rw [if_pos hdel]
        exact List.length_set s.table idx _
      · rw [if_neg hdel]
        exact List.length_set s.table idx _

/-- Whatever `RehashFuel` returns has a slot count that is the requested
size times a power of two: each nested rehash doubles the current size
and nothing else resizes. -/
theorem XS_RehashFuel_length (hash : Nat → Nat) :
    ∀ (fuel : Nat) (s : XS.STable) (m : Nat) (r : XS.STable),
      XS.RehashFuel hash fuel s m = some r →
      ∃ t, r.table.length = m * 2 ^ t := by
  intro fuel
  induction fuel with
  | zero =>
    intro s m r h
    exact absurd h (by simp [XS.RehashFuel])
  | succ f ihf =>
    intro s m r h
    rw [XS.RehashFuel_fold_eq] at h
    have Hfold : ∀ (l : List Nat) (t : XS.STable) (u : Nat) (r : XS.STable),
        t.table.length = m * 2 ^ u →
        l.foldl (XS.rehashStep hash s f) (some t) = some r →
        ∃ w, r.table.length = m * 2 ^ w := by
      intro l
      induction l with
      | nil =>
        intro t u r hu hfold
        cases hfold
        exact ⟨u, hu⟩
      | cons i l ihl =>
        intro t u r hu hfold
        rw [List.foldl_cons] at hfold
        by_cases hst : (s.table.getD i default).status = XS.STATUS_OCCUPIED
        · have h1 : XS.rehashStep hash s f (some t) i =
              match XS.XPut t hash (s.table.getD i default).key
                  (s.table.getD i default).data true with
              | none => none
              | some (t1, rr) =>
                if rr then
                  if t1.occupation < t1.threshold then some t1
                  else XS.RehashFuel hash f t1 (t1.table.length * 2)
                else some t1 := if_pos hst
          cases hx : XS.XPut t hash (s.table.getD i default).key
              (s.table.getD i default).data true with
          | none =>
            have hnone : XS.rehashStep hash s f (some t) i = none := by
              rw [h1, hx]
            rw [hnone, foldl_rehashStep_none] at hfold
            exact absurd hfold (by simp)
          | some p =>
            obtain ⟨t1, rr⟩ := p
            have hlen1 : t1.table.length = t.table.length := XS.XPut_length hx
            cases rr with
            | false =>
              have hstep : XS.rehashStep hash s f (some t) i = some t1 := by
                rw [h1, hx]
                rfl
              rw [hstep] at hfold
              exact ihl t1 u r (by rw [hlen1, hu]) hfold
            | true =>
              by_cases hlt : t1.occupation < t1.threshold
              · have hstep : XS.rehashStep hash s f (some t) i = some t1 := by
                  rw [h1, hx]
                  exact if_pos hlt
                rw [hstep] at hfold
                exact ihl t1 u r (by rw [hlen1, hu]) hfold
              · have hstep : XS.rehashStep hash s f (some t) i =
                    XS.RehashFuel hash f t1 (t1.table.length * 2) := by
                  rw [h1, hx]
                  exact if_neg hlt
                rw [hstep] at hfold
                cases hre : XS.RehashFuel hash f t1 (t1.table.length * 2) with
                | none =>
                  rw [hre, foldl_rehashStep_none] at hfold
                  exact absurd hfold (by simp)
                | some t2 =>
                  obtain ⟨v, hv⟩ := ihf t1 (t1.table.length * 2) t2 hre
                  rw [hre] at hfold
                  refine ihl t2 (u + 1 + v) r ?_ hfold
                  rw [hv, hlen1, hu]
                  ring
        · have hstep : XS.rehashStep hash s f (some t) i = some t := if_neg hst
          rw [hstep] at hfold
          exact ihl t u r hu hfold
    refine Hfold (List.range s.table.length)
      { table := List.replicate m default, count := 0, occupation := 0,
        threshold := 3 * m / 4 } 0 r ?_ h
    show (List.replicate m (default : XS.SEntry)).length = m * 2 ^ 0
    rw [List.length_replicate]
    omega

/-- One override `XPut` on a table with accurate counters, no Deleted
slots and a vacancy: it succeeds with TRUE and keeps the counters
accurate — no content assumptions (keys may repeat), as needed inside a
rehash of an arbitrary table. -/
theorem XS_XPut_weak {hash : Nat → Nat} {t : XS.STable}
    (w1 : t.threshold = 3 * t.table.length / 4)
    (w2 : 0 < t.table.length)
    (w3 : t.occupation = t.table.countP
      (fun e => decide (e.status = XS.STATUS_OCCUPIED)))
    (w4 : ∀ e ∈ t.table, e.status = XS.STATUS_OCCUPIED ∨
      e.status = XS.STATUS_FREE)
    (w5 : t.occupation < t.table.length)
    (k d : Nat) :
    ∃ t1, XS.XPut t hash k d true = some (t1, true) ∧
      t1.threshold = 3 * t1.table.length / 4 ∧
      0 < t1.table.length ∧
      t1.occupation = t1.table.countP
        (fun e => decide (e.status = XS.STATUS_OCCUPIED)) ∧
      (∀ e ∈ t1.table, e.status = XS.STATUS_OCCUPIED ∨
        e.status = XS.STATUS_FREE) ∧
      t1.table.length = t.table.length ∧
      t1.occupation ≤ t.occupation + 1 := by
  have hvac := XS_count_lt_all w3 w5
  have hsome := @XFindPos_isSome t hash k hvac
  cases hfp : XS.XFindPos t hash k with
  | none =>
    rw [hfp] at hsome
    simp at hsome
  | some idx =>
    have hstart : XS.XIndex (hash k) t.table.length < t.table.length :=
      XS_home_lt w2
    have hidx : idx < t.table.length :=
      XFindPosLoop_lt t.table.length _ idx hstart hfp
    have hgdd : t.table.getD idx (⟨k, d, XS.STATUS_OCCUPIED⟩ : XS.SEntry) =
        t.table.getD idx default := by
      rw [List.getD_eq_getElem?_getD, List.getElem?_eq_getElem hidx,
        List.getD_eq_getElem?_getD, List.getElem?_eq_getElem hidx]
      rfl
    have hcp := countP_set_add (fun e =>
      decide (e.status = XS.STATUS_OCCUPIED)) t.table idx
      ⟨k, d, XS.STATUS_OCCUPIED⟩ hidx
    rw [hgdd] at hcp
    have hnew : (if (decide ((⟨k, d, XS.STATUS_OCCUPIED⟩ :
        XS.SEntry).status = XS.STATUS_OCCUPIED)) = true then 1 else 0) = 1 := by
      simp
    rw [hnew] at hcp
    have hstat' : ∀ e ∈ t.table.set idx ⟨k, d, XS.STATUS_OCCUPIED⟩,
        e.status = XS.STATUS_OCCUPIED ∨ e.status = XS.STATUS_FREE := by
      intro e he
      rcases List.mem_or_eq_of_mem_set he with h | h
      · exact w4 e h
      · subst h
        exact Or.inl rfl
    by_cases hocc : (t.table.getD idx default).status = XS.STATUS_OCCUPIED
    · have heq := @XS.XPut_occupied t hash k d idx true hfp hocc
      rw [if_pos rfl] at heq
      have hif : (if (decide ((t.table.getD idx default).status =
          XS.STATUS_OCCUPIED)) = true then 1 else 0) = 1 := by
        rw [decide_eq_true hocc]
        rfl
      rw [hif] at hcp
      refine ⟨_, heq, ?_, ?_, ?_, hstat', ?_, ?_⟩
      · show t.threshold =
          3 * (t.table.set idx ⟨k, d, XS.STATUS_OCCUPIED⟩).length / 4
        rw [List.length_set]
        exact w1
      · show 0 < (t.table.set idx ⟨k, d, XS.STATUS_OCCUPIED⟩).length
        rw [List.length_set]
        exact w2
      · show t.occupation = (t.table.set idx
          ⟨k, d, XS.STATUS_OCCUPIED⟩).countP
          (fun e => decide (e.status = XS.STATUS_OCCUPIED))
        omega
      · show (t.table.set idx ⟨k, d, XS.STATUS_OCCUPIED⟩).length =
          t.table.length
        rw [List.length_set]
      · show t.occupation ≤ t.occupation + 1
        omega
    · have hfree : (t.table.getD idx default).status = XS.STATUS_FREE := by
        have hmem : t.table.getD idx default ∈ t.table := by
          rw [List.getD_eq_getElem?_getD, List.getElem?_eq_getElem hidx]
          exact List.getElem_mem hidx
        rcases w4 _ hmem with h | h
        · exact absurd h hocc
        · exact h
      have heq := @XS.XPut_vacant t hash k d idx true hfp hocc
      rw [if_neg (by rw [hfree]; decide)] at heq
      have hif : (if (decide ((t.table.getD idx default).status =
          XS.STATUS_OCCUPIED)) = true then 1 else 0) = 0 := by
        rw [decide_eq_false hocc]
        rfl
      rw [hif] at hcp
      refine ⟨_, heq, ?_, ?_, ?_, hstat', ?_, ?_⟩
      · show t.threshold =
          3 * (t.table.set idx ⟨k, d, XS.STATUS_OCCUPIED⟩).length / 4
        rw [List.length_set]
        exact w1
      · show 0 < (t.table.set idx ⟨k, d, XS.STATUS_OCCUPIED⟩).length
        rw [List.length_set]
        exact w2
      · show t.occupation + 1 = (t.table.set idx
          ⟨k, d, XS.STATUS_OCCUPIED⟩).countP
          (fun e => decide (e.status = XS.STATUS_OCCUPIED))
        omega
      · show (t.table.set idx ⟨k, d, XS.STATUS_OCCUPIED⟩).length =
          t.table.length
        rw [List.length_set]
      · show t.occupation + 1 ≤ t.occupation + 1
        omega

/-- The `Rehash` re-insertion fold on an arbitrary source table: given
that nested rehashes succeed (hypothesis `Hnest`, discharged by the fuel
induction of `XS_RehashFuel_some`), the fold keeps the accumulator's
counters accurate and its occupation bounded by the source's occupied
count. -/
theorem XS_RehashFold_weak (hash : Nat → Nat) (s : XS.STable) (m fuel : Nat)
    (Hnest : ∀ acc1 : XS.STable,
      acc1.threshold = 3 * acc1.table.length / 4 →
      0 < acc1.table.length →
      acc1.occupation = acc1.table.countP
        (fun e => decide (e.status = XS.STATUS_OCCUPIED)) →
      (∀ e ∈ acc1.table, e.status = XS.STATUS_OCCUPIED ∨
        e.status = XS.STATUS_FREE) →
      m ≤ acc1.table.length →
      acc1.occupation ≤ s.table.countP
        (fun e => decide (e.status = XS.STATUS_OCCUPIED)) →
      acc1.threshold ≤ acc1.occupation →
      ∃ r, XS.RehashFuel hash fuel acc1 (acc1.table.length * 2) = some r ∧
        r.threshold = 3 * r.table.length / 4 ∧ 0 < r.table.length ∧
        r.occupation = r.table.countP
          (fun e => decide (e.status = XS.STATUS_OCCUPIED)) ∧
        (∀ e ∈ r.table, e.status = XS.STATUS_OCCUPIED ∨
          e.status = XS.STATUS_FREE) ∧
        r.occupation < r.table.length ∧
        acc1.table.length ≤ r.table.length ∧
        r.occupation ≤ acc1.occupation) :
    ∀ (cnt st : Nat) (acc : XS.STable), st + cnt ≤ s.table.length →
      acc.threshold = 3 * acc.table.length / 4 →
      0 < acc.table.length →
      acc.occupation = acc.table.countP
        (fun e => decide (e.status = XS.STATUS_OCCUPIED)) →
      (∀ e ∈ acc.table, e.status = XS.STATUS_OCCUPIED ∨
        e.status = XS.STATUS_FREE) →
      acc.occupation < acc.table.length →
      m ≤ acc.table.length →
      acc.occupation ≤ (s.table.take st).countP
        (fun e => decide (e.status = XS.STATUS_OCCUPIED)) →
      ∃ r, (List.range' st cnt).foldl (XS.rehashStep hash s fuel)
          (some acc) = some r ∧
        r.threshold = 3 * r.table.length / 4 ∧ 0 < r.table.length ∧
        r.occupation = r.table.countP
          (fun e => decide (e.status = XS.STATUS_OCCUPIED)) ∧
        (∀ e ∈ r.table, e.status = XS.STATUS_OCCUPIED ∨
          e.status = XS.STATUS_FREE) ∧
        r.occupation < r.table.length ∧
        m ≤ r.table.length ∧
        r.occupation ≤ (s.table.take (st + cnt)).countP
          (fun e => decide (e.status = XS.STATUS_OCCUPIED)) := by
  intro cnt
  induction cnt with
  | zero =>
    intro st acc hle w1 w2 w3 w4 w5 w6 w7
    exact ⟨acc, rfl, w1, w2, w3, w4, w5, w6, w7⟩
  | succ c ihc =>
    intro st acc hle w1 w2 w3 w4 w5 w6 w7
    have hst : st < s.table.length := by omega
    have hgdst : s.table.getD st default = s.table[st] := by
      rw [List.getD_eq_getElem?_getD, List.getElem?_eq_getElem hst]
      rfl
    have htake : s.table.take (st + 1) =
        s.table.take st ++ [s.table.getD st default] := by
      rw [List.take_succ, List.getElem?_eq_getElem hst, hgdst]
      rfl
    have hsub : (s.table.take (st + 1)).countP
        (fun e => decide (e.status = XS.STATUS_OCCUPIED)) ≤
        s.table.countP (fun e => decide (e.status = XS.STATUS_OCCUPIED)) :=
      (List.take_sublist (st + 1) s.table).countP_le _
    have hmono : (s.table.take st).countP
        (fun e => decide (e.status = XS.STATUS_OCCUPIED)) ≤
        (s.table.take (st + 1)).countP
          (fun e => decide (e.status = XS.STATUS_OCCUPIED)) := by
      rw [htake, List.countP_append]
      omega
    rw [List.range'_succ, List.foldl_cons]
    have hidx : st + (c + 1) = (st + 1) + c := by omega
    rw [hidx]
    by_cases hestat : (s.table.getD st default).status = XS.STATUS_OCCUPIED
    · -- occupied source slot: one full Insert into the accumulator
      obtain ⟨t1, hput, v1, v2, v3, v4, v5len, v6occ⟩ :=
        XS_XPut_weak w1 w2 w3 w4 w5 (s.table.getD st default).key
          (s.table.getD st default).data
      have h1 : XS.rehashStep hash s fuel (some acc) st =
          match XS.XPut acc hash (s.table.getD st default).key
              (s.table.getD st default).data true with
          | none => none
          | some (t1, rr) =>
            if rr then
              if t1.occupation < t1.threshold then some t1
              else XS.RehashFuel hash fuel t1 (t1.table.length * 2)
            else some t1 := if_pos hestat
      have hcnt1 : (s.table.take (st + 1)).countP
          (fun e => decide (e.status = XS.STATUS_OCCUPIED)) =
          (s.table.take st).countP
            (fun e => decide (e.status = XS.STATUS_OCCUPIED)) + 1 := by
        rw [htake, List.countP_append, countP_singleton,
          if_pos (decide_eq_true hestat)]
      by_cases hlt : t1.occupation < t1.threshold
      · have hstep : XS.rehashStep hash s fuel (some acc) st = some t1 := by
          rw [h1, hput]
          exact if_pos hlt
        rw [hstep]
        refine ihc (st + 1) t1 (by omega) v1 v2 v3 v4 ?_ ?_ ?_
        · rw [v1] at hlt
          omega
        · rw [v5len]
          exact w6
        · omega
      · have hstep : XS.rehashStep hash s fuel (some acc) st =
            XS.RehashFuel hash fuel t1 (t1.table.length * 2) := by
          rw [h1, hput]
          exact if_neg hlt
        rw [hstep]
        obtain ⟨r1, hre, u1, u2, u3, u4, u5, u6, u7⟩ :=
          Hnest t1 v1 v2 v3 v4 (by rw [v5len]; exact w6) (by omega)
            (by omega)
        rw [hre]
        refine ihc (st + 1) r1 (by omega) u1 u2 u3 u4 u5 ?_ ?_
        · calc m ≤ t1.table.length := by rw [v5len]; exact w6
            _ ≤ r1.table.length := u6
        · omega
    · -- empty or deleted source slot: skipped
      have hstep : XS.rehashStep hash s fuel (some acc) st = some acc :=
        if_neg hestat
      rw [hstep]
      have hcnt1 : (s.table.take (st + 1)).countP
          (fun e => decide (e.status = XS.STATUS_OCCUPIED)) =
          (s.table.take st).countP
            (fun e => decide (e.status = XS.STATUS_OCCUPIED)) := by
        rw [htake, List.countP_append, countP_singleton,
          if_neg (by rw [decide_eq_false hestat]; exact Bool.false_ne_true)]
        omega
      refine ihc (st + 1) acc (by omega) w1 w2 w3 w4 w5 w6 (by omega)

/-- `RehashFuel` succeeds on every table whose occupied-slot count is
covered by the fuel's doubling headroom, and rebuilds a table with
accurate counters, no Deleted slots, a vacancy, at least the requested
size, and no more occupied slots than the source. -/
theorem XS_RehashFuel_some (hash : Nat → Nat) :
    ∀ (fuel : Nat) (s : XS.STable) (m : Nat),
      0 < m →
      4 * s.table.countP (fun e => decide (e.status = XS.STATUS_OCCUPIED)) +
        4 ≤ 3 * (m * 2 ^ fuel) →
      ∃ r, XS.RehashFuel hash (fuel + 1) s m = some r ∧
        r.threshold = 3 * r.table.length / 4 ∧ 0 < r.table.length ∧
        r.occupation = r.table.countP
          (fun e => decide (e.status = XS.STATUS_OCCUPIED)) ∧
        (∀ e ∈ r.table, e.status = XS.STATUS_OCCUPIED ∨
          e.status = XS.STATUS_FREE) ∧
        r.occupation < r.table.length ∧
        m ≤ r.table.length ∧
        r.occupation ≤ s.table.countP
          (fun e => decide (e.status = XS.STATUS_OCCUPIED)) := by
  intro fuel
  induction fuel with
  | zero =>
    intro s m hm hbound
    rw [Nat.pow_zero, Nat.mul_one] at hbound
    have Hnest : ∀ acc1 : XS.STable,
        acc1.threshold = 3 * acc1.table.length / 4 →
        0 < acc1.table.length →
        acc1.occupation = acc1.table.countP
          (fun e => decide (e.status = XS.STATUS_OCCUPIED)) →
        (∀ e ∈ acc1.table, e.status = XS.STATUS_OCCUPIED ∨
          e.status = XS.STATUS_FREE) →
        m ≤ acc1.table.length →
        acc1.occupation ≤ s.table.countP
          (fun e => decide (e.status = XS.STATUS_OCCUPIED)) →
        acc1.threshold ≤ acc1.occupation →
        ∃ r, XS.RehashFuel hash 0 acc1 (acc1.table.length * 2) = some r ∧
          r.threshold = 3 * r.table.length / 4 ∧ 0 < r.table.length ∧
          r.occupation = r.table.countP
            (fun e => decide (e.status = XS.STATUS_OCCUPIED)) ∧
          (∀ e ∈ r.table, e.status = XS.STATUS_OCCUPIED ∨
            e.status = XS.STATUS_FREE) ∧
          r.occupation < r.table.length ∧
          acc1.table.length ≤ r.table.length ∧
          r.occupation ≤ acc1.occupation := by
      intro acc1 v1 v2 v3 v4 v6 v7 vfail
      exfalso
      rw [v1] at vfail
      omega
    rw [XS.RehashFuel_fold_eq, List.range_eq_range']
    have hstart := XS_RehashFold_weak hash s m 0 Hnest s.table.length 0
      { table := List.replicate m default, count := 0, occupation := 0,
        threshold := 3 * m / 4 }
      (by omega)
      (by show 3 * m / 4 =
            3 * (List.replicate m (default : XS.SEntry)).length / 4
          rw [List.length_replicate])
      (by show 0 < (List.replicate m (default : XS.SEntry)).length
          rw [List.length_replicate]
          exact hm)
      (by show 0 = (List.replicate m (default : XS.SEntry)).countP _
          rw [List.countP_eq_zero.mpr]
          intro a ha
          rw [List.eq_of_mem_replicate ha]
          decide)
      (by intro e he
          rw [List.eq_of_mem_replicate he]
          right
          rfl)
      (by show 0 < (List.replicate m (default : XS.SEntry)).length
          rw [List.length_replicate]
          exact hm)
      (by show m ≤ (List.replicate m (default : XS.SEntry)).length
          rw [List.length_replicate])
      (Nat.zero_le _)
    obtain ⟨r, hr, u1, u2, u3, u4, u5, u6, u7⟩ := hstart
    refine ⟨r, hr, u1, u2, u3, u4, u5, u6, ?_⟩
    have : (s.table.take (0 + s.table.length)).countP
        (fun e => decide (e.status = XS.STATUS_OCCUPIED)) =
        s.table.countP (fun e => decide (e.status = XS.STATUS_OCCUPIED)) := by
      rw [show 0 + s.table.length = s.table.length from by omega,
        List.take_length]
    omega
  | succ f ihf =>
    intro s m hm hbound
    have Hnest : ∀ acc1 : XS.STable,
        acc1.threshold = 3 * acc1.table.length / 4 →
        0 < acc1.table.length →
        acc1.occupation = acc1.table.countP
          (fun e => decide (e.status = XS.STATUS_OCCUPIED)) →
        (∀ e ∈ acc1.table, e.status = XS.STATUS_OCCUPIED ∨
          e.status = XS.STATUS_FREE) →
        m ≤ acc1.table.length →
        acc1.occupation ≤ s.table.countP
          (fun e => decide (e.status = XS.STATUS_OCCUPIED)) →
        acc1.threshold ≤ acc1.occupation →
        ∃ r, XS.RehashFuel hash (f + 1) acc1 (acc1.table.length * 2) =
            some r ∧
          r.threshold = 3 * r.table.length / 4 ∧ 0 < r.table.length ∧
          r.occupation = r.table.countP
            (fun e => decide (e.status = XS.STATUS_OCCUPIED)) ∧
          (∀ e ∈ r.table, e.status = XS.STATUS_OCCUPIED ∨
            e.status = XS.STATUS_FREE) ∧
          r.occupation < r.table.length ∧
          acc1.table.length ≤ r.table.length ∧
          r.occupation ≤ acc1.occupation := by
      intro acc1 v1 v2 v3 v4 v6 v7 vfail
      have hb1 : 4 * acc1.table.countP
          (fun e => decide (e.status = XS.STATUS_OCCUPIED)) + 4 ≤
          3 * (acc1.table.length * 2 * 2 ^ f) := by
        have hmul : m * 2 ^ (f + 1) ≤ acc1.table.length * 2 * 2 ^ f := by
          have h2 : m * 2 ≤ acc1.table.length * 2 := by omega
          calc m * 2 ^ (f + 1) = m * 2 * 2 ^ f := by ring
            _ ≤ acc1.table.length * 2 * 2 ^ f :=
              Nat.mul_le_mul_right _ h2
        omega
      obtain ⟨r, hr, u1, u2, u3, u4, u5, u6, u7⟩ :=
        ihf acc1 (acc1.table.length * 2) (by omega) hb1
      exact ⟨r, hr, u1, u2, u3, u4, u5, by omega, by omega⟩
    rw [XS.RehashFuel_fold_eq, List.range_eq_range']
    have hstart := XS_RehashFold_weak hash s m (f + 1) Hnest s.table.length 0
      { table := List.replicate m default, count := 0, occupation := 0,
        threshold := 3 * m / 4 }
      (by omega)
      (by show 3 * m / 4 =
            3 * (List.replicate m (default : XS.SEntry)).length / 4
          rw [List.length_replicate])
      (by show 0 < (List.replicate m (default : XS.SEntry)).length
          rw [List.length_replicate]
          exact hm)
      (by show 0 = (List.replicate m (default : XS.SEntry)).countP _
          rw [List.countP_eq_zero.mpr]
          intro a ha
          rw [List.eq_of_mem_replicate ha]
          decide)
      (by intro e he
          rw [List.eq_of_mem_replicate he]
          right
          rfl)
      (by show 0 < (List.replicate m (default : XS.SEntry)).length
          rw [List.length_replicate]
          exact hm)
      (by show m ≤ (List.replicate m (default : XS.SEntry)).length
          rw [List.length_replicate])
      (Nat.zero_le _)
    obtain ⟨r, hr, u1, u2, u3, u4, u5, u6, u7⟩ := hstart
    refine ⟨r, hr, u1, u2, u3, u4, u5, u6, ?_⟩
    have : (s.table.take (0 + s.table.length)).countP
        (fun e => decide (e.status = XS.STATUS_OCCUPIED)) =
        s.table.countP (fun e => decide (e.status = XS.STATUS_OCCUPIED)) := by
      rw [show 0 + s.table.length = s.table.length from by omega,
        List.take_length]
    omega


/-- C7 (amended): duplicate-without-override `Insert` returns FALSE and
leaves the table exactly unchanged, and every other combination returns
TRUE, where: for the chained table "present" is `XFind` success (and an
absent-key insert succeeds under the constructor/rehash capacity
discipline `poolAlloc = 3·buckets/4`, `buckets ≥ 4`); for the
open-addressing table "present" must be read as "the probe lands on the
key's Occupied slot" — a tombstone shadowing the key on its probe path
makes `Insert` treat the key as absent (see the counterexample) — and an
absent-key insert needs a non-Occupied slot for the probe to stop at. -/
theorem C7_insert_override (hash : Nat → Nat) (k v : Nat)
    (c : XC.CTable) (i : Nat) (hpres : XC.XFindIndex c hash k = some i)
    (c2 : XC.CTable) (habs : ∀ e ∈ c2.pool, e.key ≠ k)
    (hcap : c2.poolAlloc = 3 * c2.table.length / 4) (hL : 4 ≤ c2.table.length)
    (s : XS.STable) (idx : Nat) (hfind : XS.XFindPos s hash k = some idx)
    (hocc : (s.table.getD idx default).status = XS.STATUS_OCCUPIED)
    (s2 : XS.STable)
    (habs2 : ∀ j, j < s2.table.length →
      ¬((s2.table.getD j default).status = XS.STATUS_OCCUPIED ∧
        (s2.table.getD j default).key = k))
    (hvac2 : ∃ j, j < s2.table.length ∧
      (s2.table.getD j default).status ≠ XS.STATUS_OCCUPIED) :
    XC.Insert c hash k v false = some (c, false) ∧
    XC.Insert c hash k v true =
      some ({ c with pool := XC.setData c.pool i v }, true) ∧
    (∀ ovr, ∃ c3, XC.Insert c2 hash k v ovr = some (c3, true)) ∧
    XS.Insert s hash k v false = some (s, false) ∧
    (∃ s3, XS.Insert s hash k v true = some (s3, true)) ∧
    (∀ ovr, ∃ s4, XS.Insert s2 hash k v ovr = some (s4, true)) := by
  have hpres' : XC.XFind c k (XC.IndexK c hash k) = some i := hpres
  refine ⟨?_, ?_, ?_, ?_, ?_, ?_⟩
  · show XC.InsertFuel hash k v false (c.pool.length + 2) c = some (c, false)
    rw [XC.InsertFuel]
    simp [hpres']
  · show XC.InsertFuel hash k v true (c.pool.length + 2) c =
      some ({ c with pool := XC.setData c.pool i v }, true)
    rw [XC.InsertFuel]
    simp [hpres']
  · intro ovr
    have hfd : ∀ (cc : XC.CTable), (∀ e ∈ cc.pool, e.key ≠ k) →
        ∀ ix, XC.XFind cc k ix = none := by
      intro cc hab ix
      unfold XC.XFind
      exact XFindLoop_none hab _ _
    by_cases hfull : c2.pool.length = c2.poolAlloc
    · set c3 := XC.Rehash c2 hash (c2.table.length * 2) with hc3
      have hkd := Rehash_pool_map_kd c2 hash (c2.table.length * 2)
      have habs3 : ∀ e ∈ c3.pool, e.key ≠ k := absent_of_map_kd hkd habs
      have hlen3 : c3.pool.length = c2.pool.length :=
        Rehash_pool_length c2 hash _
      have halloc3 : c3.poolAlloc =
          max (3 * (c2.table.length * 2) / 4) c2.pool.length :=
        Rehash_poolAlloc c2 hash _
      have hnotfull : ¬ c3.pool.length = c3.poolAlloc := by
        rw [hlen3, halloc3, hfull, hcap]
        have : 3 * c2.table.length / 4 < 3 * (c2.table.length * 2) / 4 := by
          omega
        omega
      refine ⟨XC.XInsert c3 (XC.IndexK c3 hash k) k v, ?_⟩
      show XC.InsertFuel hash k v ovr (c2.pool.length + 2) c2 = _
      rw [XC.InsertFuel]
      simp only [hfd c2 habs _, hfull, if_true]
      rw [XC.InsertFuel]
      simp only [hfd c3 habs3 _, if_neg hnotfull, ← hc3]
    · refine ⟨XC.XInsert c2 (XC.IndexK c2 hash k) k v, ?_⟩
      show XC.InsertFuel hash k v ovr (c2.pool.length + 2) c2 = _
      rw [XC.InsertFuel]
      simp only [hfd c2 habs _, if_neg hfull]
  · have hput := @XS.XPut_occupied _ _ k v _ false hfind hocc
    rw [if_neg (by simp)] at hput
    exact XS.Insert_eq_of_XPut hput (by simp)
  · have hput := @XS.XPut_occupied _ _ k v _ true hfind hocc
    rw [if_pos rfl] at hput
    unfold XS.Insert
    rw [hput]
    set s1 : XS.STable :=
      { s with table := s.table.set idx ⟨k, v, XS.STATUS_OCCUPIED⟩ } with hs1
    by_cases hlt : s1.occupation < s1.threshold
    · exact ⟨s1, by simp [hlt]⟩
    · have hlen0 : 0 < s.table.length := by
        by_contra h0
        have hnil : s.table = [] := List.length_eq_zero.mp (by omega)
        rw [hnil] at hocc
        have hFO : XS.STATUS_FREE = XS.STATUS_OCCUPIED := hocc
        exact absurd hFO (by decide)
      have hlen1 : 0 < s1.table.length := by
        show 0 < (s.table.set idx ⟨k, v, XS.STATUS_OCCUPIED⟩).length
        rw [List.length_set]
        exact hlen0
      have hk : s1.table.countP
          (fun e => decide (e.status = XS.STATUS_OCCUPIED)) ≤
          s1.table.length := List.countP_le_length _
      have hp : 2 ≤ 2 ^ (s1.count + 1) := by
        have h1 : (2 : Nat) ^ 1 ≤ 2 ^ (s1.count + 1) :=
          Nat.pow_le_pow_right (by omega) (by omega)
        simpa using h1
      have hmul : s1.table.length * 2 * 2 ≤
          s1.table.length * 2 * 2 ^ (s1.count + 1) :=
        Nat.mul_le_mul_left _ hp
      obtain ⟨r, hre, _, _, _, _, _, _, _⟩ := XS_RehashFuel_some hash
        (s1.count + 1) s1 (s1.table.length * 2) (by omega) (by omega)
      have hre' : XS.RehashFuel hash (s1.count + 2) s1
          (s1.table.length * 2) = some r := hre
      refine ⟨r, ?_⟩
      show (if s1.occupation < s1.threshold then some (s1, true)
        else (XS.RehashFuel hash (s1.count + 2) s1
          (s1.table.length * 2)).map (fun t => (t, true))) = some (r, true)
      rw [if_neg hlt, hre']
      rfl
  · intro ovr
    have hsome := @XFindPos_isSome _ hash k hvac2
    cases hfind2 : XS.XFindPos s2 hash k with
    | none => rw [hfind2] at hsome; simp at hsome
    | some idx2 =>
      have hlen : 0 < s2.table.length := by
        obtain ⟨j, hjlt, _⟩ := hvac2
        omega
      have hstart : XS.XIndex (hash k) s2.table.length < s2.table.length := by
        have : XS.XIndex (hash k) s2.table.length ≤ s2.table.length - 1 :=
          Nat.and_le_right
        omega
      have hfind2' : XS.XFindPosLoop s2.table k s2.table.length
          (XS.XIndex (hash k) s2.table.length) = some idx2 := hfind2
      have hidxlt : idx2 < s2.table.length :=
        XFindPosLoop_lt s2.table.length _ idx2 hstart hfind2'
      have hspec := XFindPosLoop_spec s2.table.length _ idx2 hfind2'
      have hnocc : (s2.table.getD idx2 default).status ≠ XS.STATUS_OCCUPIED := by
        rcases hspec with h | ⟨h1, h2⟩
        · exact h
        · exact absurd ⟨h1, h2⟩ (habs2 idx2 hidxlt)
      have hput := @XS.XPut_vacant _ _ k v _ ovr hfind2 hnocc
      unfold XS.Insert
      rw [hput]
      by_cases hdel : (s2.table.getD idx2 default).status = XS.STATUS_DELETED
      · rw [if_pos hdel]
        set s1 := { s2 with count := s2.count + 1
                            table := s2.table.set idx2 ⟨k, v, XS.STATUS_OCCUPIED⟩ }
        by_cases hlt : s1.occupation < s1.threshold
        · exact ⟨s1, by simp [hlt]⟩
        · have hlen1 : 0 < s1.table.length := by
            show 0 < (s2.table.set idx2 ⟨k, v, XS.STATUS_OCCUPIED⟩).length
            rw [List.length_set]
            exact hlen
          have hk : s1.table.countP
              (fun e => decide (e.status = XS.STATUS_OCCUPIED)) ≤
              s1.table.length := List.countP_le_length _
          have hp : 2 ≤ 2 ^ (s1.count + 1) := by
            have h1 : (2 : Nat) ^ 1 ≤ 2 ^ (s1.count + 1) :=
              Nat.pow_le_pow_right (by omega) (by omega)
            simpa using h1
          have hmul : s1.table.length * 2 * 2 ≤
              s1.table.length * 2 * 2 ^ (s1.count + 1) :=
            Nat.mul_le_mul_left _ hp
          obtain ⟨r, hre, _, _, _, _, _, _, _⟩ := XS_RehashFuel_some hash
            (s1.count + 1) s1 (s1.table.length * 2) (by omega) (by omega)
          have hre' : XS.RehashFuel hash (s1.count + 2) s1
              (s1.table.length * 2) = some r := hre
          refine ⟨r, ?_⟩
          show (if s1.occupation < s1.threshold then some (s1, true)
            else (XS.RehashFuel hash (s1.count + 2) s1
              (s1.table.length * 2)).map (fun t => (t, true))) = some (r, true)
          rw [if_neg hlt, hre']
          rfl
      · rw [if_neg hdel]
        set s1 := { s2 with count := s2.count + 1
                            occupation := s2.occupation + 1
                            table := s2.table.set idx2 ⟨k, v, XS.STATUS_OCCUPIED⟩ }
        by_cases hlt : s1.occupation < s1.threshold
        · exact ⟨s1, by simp [hlt]⟩
        · have hlen1 : 0 < s1.table.length := by
            show 0 < (s2.table.set idx2 ⟨k, v, XS.STATUS_OCCUPIED⟩).length
            rw [List.length_set]
            exact hlen
          have hk : s1.table.countP
              (fun e => decide (e.status = XS.STATUS_OCCUPIED)) ≤
              s1.table.length := List.countP_le_length _
          have hp : 2 ≤ 2 ^ (s1.count + 1) := by
            have h1 : (2 : Nat) ^ 1 ≤ 2 ^ (s1.count + 1) :=
              Nat.pow_le_pow_right (by omega) (by omega)
            simpa using h1
          have hmul : s1.table.length * 2 * 2 ≤
              s1.table.length * 2 * 2 ^ (s1.count + 1) :=
            Nat.mul_le_mul_left _ hp
          obtain ⟨r, hre, _, _, _, _, _, _, _⟩ := XS_RehashFuel_some hash
            (s1.count + 1) s1 (s1.table.length * 2) (by omega) (by omega)
          have hre' : XS.RehashFuel hash (s1.count + 2) s1
              (s1.table.length * 2) = some r := hre
          refine ⟨r, ?_⟩
          show (if s1.occupation < s1.threshold then some (s1, true)
            else (XS.RehashFuel hash (s1.count + 2) s1
              (s1.table.length * 2)).map (fun t => (t, true))) = some (r, true)
          rw [if_neg hlt, hre']
          rfl

/-- Witness for C7's amended theorem at concrete inputs: a chained table
holding key 1, an empty chained table, an open table holding key 1 at its
probe slot, and an empty open table. -/
theorem C7_insert_override_witness :
    XC.Insert (XC.XInsert (XC.mkCTable 4) 1 1 10) id 1 99 false =
      some (XC.XInsert (XC.mkCTable 4) 1 1 10, false) ∧
    XC.Insert (XC.XInsert (XC.mkCTable 4) 1 1 10) id 1 99 true =
      some ({ XC.XInsert (XC.mkCTable 4) 1 1 10 with
        pool := XC.setData (XC.XInsert (XC.mkCTable 4) 1 1 10).pool 0 99 },
        true) ∧
    (∀ ovr, ∃ c3, XC.Insert (XC.mkCTable 4) id 1 99 ovr = some (c3, true)) ∧
    XS.Insert (⟨[⟨0, 0, XS.STATUS_FREE⟩, ⟨1, 10, XS.STATUS_OCCUPIED⟩,
        ⟨0, 0, XS.STATUS_FREE⟩, ⟨0, 0, XS.STATUS_FREE⟩], 1, 1, 3⟩ : XS.STable)
      id 1 99 false =
      some ((⟨[⟨0, 0, XS.STATUS_FREE⟩, ⟨1, 10, XS.STATUS_OCCUPIED⟩,
        ⟨0, 0, XS.STATUS_FREE⟩, ⟨0, 0, XS.STATUS_FREE⟩], 1, 1, 3⟩ : XS.STable),
        false) ∧
    (∃ s3, XS.Insert (⟨[⟨0, 0, XS.STATUS_FREE⟩, ⟨1, 10, XS.STATUS_OCCUPIED⟩,
        ⟨0, 0, XS.STATUS_FREE⟩, ⟨0, 0, XS.STATUS_FREE⟩], 1, 1, 3⟩ : XS.STable)
      id 1 99 true = some (s3, true)) ∧
    (∀ ovr, ∃ s4, XS.Insert (XS.mkSTable 4) id 1 99 ovr = some (s4, true)) :=
  C7_insert_override id 1 99 (XC.XInsert (XC.mkCTable 4) 1 1 10) 0 (by decide)
    (XC.mkCTable 4) (by decide) (by decide) (by decide)
    (⟨[⟨0, 0, XS.STATUS_FREE⟩, ⟨1, 10, XS.STATUS_OCCUPIED⟩,
      ⟨0, 0, XS.STATUS_FREE⟩, ⟨0, 0, XS.STATUS_FREE⟩], 1, 1, 3⟩ : XS.STable)
    1 (by decide) (by decide)
    (XS.mkSTable 4) (by decide) ⟨0, by decide⟩

/-- The `Rehash` re-insertion fold on a source table with unique occupied
keys: the accumulator keeps the full core invariant and realizes exactly
the processed prefix of the source, both in occupied count and in lookup.
Nested rehashes are abstracted into `Hnest`, discharged by the fuel
induction of `XS_RehashFuel_spec`. -/
theorem XS_RehashFold_strong {hash : Nat → Nat} (s : XS.STable)
    (m fuel : Nat)
    (hsuniq : ∀ i j, i < s.table.length → j < s.table.length →
      (s.table.getD i default).status = XS.STATUS_OCCUPIED →
      (s.table.getD j default).status = XS.STATUS_OCCUPIED →
      (s.table.getD i default).key = (s.table.getD j default).key → i = j)
    (Hnest : ∀ acc1 : XS.STable, XS.SCore hash acc1 →
      m ≤ acc1.table.length →
      acc1.occupation ≤ s.table.countP
        (fun e => decide (e.status = XS.STATUS_OCCUPIED)) →
      acc1.threshold ≤ acc1.occupation →
      ∃ r, XS.RehashFuel hash fuel acc1 (acc1.table.length * 2) = some r ∧
        XS.SCore hash r ∧ acc1.table.length ≤ r.table.length ∧
        r.occupation < r.table.length ∧ r.occupation = acc1.occupation ∧
        (∀ key, XS.occFind r key = XS.occFind acc1 key)) :
    ∀ (cnt st : Nat) (acc : XS.STable), st + cnt ≤ s.table.length →
      XS.SCore hash acc →
      m ≤ acc.table.length →
      acc.occupation < acc.table.length →
      acc.occupation = (s.table.take st).countP
        (fun e => decide (e.status = XS.STATUS_OCCUPIED)) →
      (∀ key, XS.occFind acc key = ((s.table.take st).find? (fun e =>
        decide (e.status = XS.STATUS_OCCUPIED) && decide (e.key = key))).map
        (fun e => e.data)) →
      ∃ r, (List.range' st cnt).foldl (XS.rehashStep hash s fuel)
          (some acc) = some r ∧
        XS.SCore hash r ∧ m ≤ r.table.length ∧
        r.occupation < r.table.length ∧
        r.occupation = (s.table.take (st + cnt)).countP
          (fun e => decide (e.status = XS.STATUS_OCCUPIED)) ∧
        (∀ key, XS.occFind r key = ((s.table.take (st + cnt)).find? (fun e =>
          decide (e.status = XS.STATUS_OCCUPIED) &&
          decide (e.key = key))).map (fun e => e.data)) := by
  intro cnt
  induction cnt with
  | zero =>
    intro st acc hle hsc hm6 hocc5 hoccp hfindp
    exact ⟨acc, rfl, hsc, hm6, hocc5, hoccp, hfindp⟩
  | succ c ihc =>
    intro st acc hle hsc hm6 hocc5 hoccp hfindp
    have hst : st < s.table.length := by omega
    have hgdst : s.table.getD st default = s.table[st] := by
      rw [List.getD_eq_getElem?_getD, List.getElem?_eq_getElem hst]
      rfl
    have htake : s.table.take (st + 1) =
        s.table.take st ++ [s.table.getD st default] := by
      rw [List.take_succ, List.getElem?_eq_getElem hst, hgdst]
      rfl
    have hsub : (s.table.take (st + 1)).countP
        (fun e => decide (e.status = XS.STATUS_OCCUPIED)) ≤
        s.table.countP (fun e => decide (e.status = XS.STATUS_OCCUPIED)) :=
      (List.take_sublist (st + 1) s.table).countP_le _
    rw [List.range'_succ, List.foldl_cons]
    have hidx : st + (c + 1) = (st + 1) + c := by omega
    rw [hidx]
    by_cases hestat : (s.table.getD st default).status = XS.STATUS_OCCUPIED
    · -- occupied source slot: one full Insert into the accumulator
      obtain ⟨s', hput, hsc', hlen', hthr', hocc', hfind'⟩ :=
        XS_XPut_spec ⟨hsc, hocc5⟩ (s.table.getD st default).key
          (s.table.getD st default).data
      have h1 : XS.rehashStep hash s fuel (some acc) st =
          match XS.XPut acc hash (s.table.getD st default).key
              (s.table.getD st default).data true with
          | none => none
          | some (t1, rr) =>
            if rr then
              if t1.occupation < t1.threshold then some t1
              else XS.RehashFuel hash fuel t1 (t1.table.length * 2)
            else some t1 := if_pos hestat
      have hprefnone : (s.table.take st).find? (fun x =>
          decide (x.status = XS.STATUS_OCCUPIED) &&
          decide (x.key = (s.table.getD st default).key)) = none := by
        rw [List.find?_eq_none]
        intro x hx hpx
        simp only [Bool.and_eq_true, decide_eq_true_eq] at hpx
        obtain ⟨j, hj, hje⟩ := List.mem_iff_getElem.mp hx
        have hjst1 : j < st := by
          simp only [List.length_take] at hj
          omega
        have hjst2 : j < s.table.length := by
          simp only [List.length_take] at hj
          omega
        have hjget : (s.table.take st)[j] = s.table[j] :=
          List.getElem_take s.table
        have hgdj : s.table.getD j default = x := by
          rw [List.getD_eq_getElem?_getD, List.getElem?_eq_getElem hjst2]
          show s.table[j] = x
          rw [← hjget]
          exact hje
        have := hsuniq j st hjst2 hst (by rw [hgdj]; exact hpx.1) hestat
          (by rw [hgdj]; exact hpx.2)
        omega
      have habsk : XS.occFind acc (s.table.getD st default).key = none := by
        rw [hfindp _, hprefnone]
        rfl
      have hocc'' : s'.occupation = acc.occupation + 1 := by
        rw [hocc', habsk, if_pos rfl]
      have hcnt1 : (s.table.take (st + 1)).countP
          (fun e => decide (e.status = XS.STATUS_OCCUPIED)) =
          (s.table.take st).countP
            (fun e => decide (e.status = XS.STATUS_OCCUPIED)) + 1 := by
        rw [htake, List.countP_append, countP_singleton,
          if_pos (decide_eq_true hestat)]
      have hfind'' : ∀ key, XS.occFind s' key =
          ((s.table.take (st + 1)).find? (fun e =>
            decide (e.status = XS.STATUS_OCCUPIED) &&
            decide (e.key = key))).map (fun e => e.data) := by
        intro key
        rw [hfind' key, htake, List.find?_append]
        by_cases hkk : key = (s.table.getD st default).key
        · rw [if_pos hkk, hkk, hprefnone]
          have hsing : List.find? (fun x =>
              decide (x.status = XS.STATUS_OCCUPIED) &&
              decide (x.key = (s.table.getD st default).key))
              [s.table.getD st default] = some (s.table.getD st default) := by
            rw [List.find?_cons_of_pos]
            simp only [Bool.and_eq_true, decide_eq_true_eq]
            exact ⟨hestat, trivial⟩
          rw [hsing]
          rfl
        · rw [if_neg hkk, hfindp key]
          have hsing : List.find? (fun x =>
              decide (x.status = XS.STATUS_OCCUPIED) &&
              decide (x.key = key)) [s.table.getD st default] = none := by
            have hne : (s.table.getD st default).key ≠ key :=
              fun h => hkk h.symm
            rw [List.find?_cons_of_neg]
            · rfl
            · simp only [Bool.and_eq_true, decide_eq_true_eq, not_and]
              exact fun _ => hne
          rw [hsing, Option.or_none]
      by_cases hlt : s'.occupation < s'.threshold
      · have hstep : XS.rehashStep hash s fuel (some acc) st = some s' := by
          rw [h1, hput]
          exact if_pos hlt
        rw [hstep]
        refine ihc (st + 1) s' (by omega) hsc' (by rw [hlen']; exact hm6)
          ?_ (by rw [hocc'', hcnt1, hoccp]) hfind''
        have hthr'' := hsc'.1
        rw [hthr''] at hlt
        have hT'' := hsc'.2.1
        omega
      · have hstep : XS.rehashStep hash s fuel (some acc) st =
            XS.RehashFuel hash fuel s' (s'.table.length * 2) := by
          rw [h1, hput]
          exact if_neg hlt
        rw [hstep]
        obtain ⟨r1, hre, u1, u2, u3, u4, u5⟩ :=
          Hnest s' hsc' (by rw [hlen']; exact hm6)
            (by rw [hocc'', hoccp]; omega) (by omega)
        rw [hre]
        refine ihc (st + 1) r1 (by omega) u1 ?_ u3 ?_ ?_
        · calc m ≤ s'.table.length := by rw [hlen']; exact hm6
            _ ≤ r1.table.length := u2
        · rw [u4, hocc'', hcnt1, hoccp]
        · intro key
          rw [u5 key]
          exact hfind'' key
    · -- empty or deleted source slot: skipped
      have hstep : XS.rehashStep hash s fuel (some acc) st = some acc :=
        if_neg hestat
      rw [hstep]
      have hcnt1 : (s.table.take (st + 1)).countP
          (fun e => decide (e.status = XS.STATUS_OCCUPIED)) =
          (s.table.take st).countP
            (fun e => decide (e.status = XS.STATUS_OCCUPIED)) := by
        rw [htake, List.countP_append, countP_singleton,
          if_neg (by rw [decide_eq_false hestat]; exact Bool.false_ne_true)]
        omega
      refine ihc (st + 1) acc (by omega) hsc hm6 hocc5 (by omega) ?_
      intro key
      rw [hfindp key, htake, List.find?_append]
      have hsing : List.find? (fun x =>
          decide (x.status = XS.STATUS_OCCUPIED) &&
          decide (x.key = key)) [s.table.getD st default] = none := by
        rw [List.find?_cons_of_neg]
        · rfl
        · simp only [Bool.and_eq_true, decide_eq_true_eq, not_and]
          exact fun h => absurd h hestat
      rw [hsing, Option.or_none]

/-- `RehashFuel` from a table with unique occupied keys (e.g. any
invariant `Insert` state) succeeds under the fuel's doubling headroom and
rebuilds an invariant table of at least the requested size holding
exactly the same mapping and occupation. -/
theorem XS_RehashFuel_spec (hash : Nat → Nat) :
    ∀ (fuel : Nat) (s : XS.STable) (m : Nat),
      0 < m →
      (∀ i j, i < s.table.length → j < s.table.length →
        (s.table.getD i default).status = XS.STATUS_OCCUPIED →
        (s.table.getD j default).status = XS.STATUS_OCCUPIED →
        (s.table.getD i default).key = (s.table.getD j default).key →
        i = j) →
      4 * s.table.countP (fun e => decide (e.status = XS.STATUS_OCCUPIED)) +
        4 ≤ 3 * (m * 2 ^ fuel) →
      ∃ r, XS.RehashFuel hash (fuel + 1) s m = some r ∧
        XS.SCore hash r ∧ m ≤ r.table.length ∧
        r.occupation < r.table.length ∧
        r.occupation = s.table.countP
          (fun e => decide (e.status = XS.STATUS_OCCUPIED)) ∧
        (∀ key, XS.occFind r key = XS.occFind s key) := by
  intro fuel
  induction fuel with
  | zero =>
    intro s m hm hsuniq hbound
    rw [Nat.pow_zero, Nat.mul_one] at hbound
    have Hnest : ∀ acc1 : XS.STable, XS.SCore hash acc1 →
        m ≤ acc1.table.length →
        acc1.occupation ≤ s.table.countP
          (fun e => decide (e.status = XS.STATUS_OCCUPIED)) →
        acc1.threshold ≤ acc1.occupation →
        ∃ r, XS.RehashFuel hash 0 acc1 (acc1.table.length * 2) = some r ∧
          XS.SCore hash r ∧ acc1.table.length ≤ r.table.length ∧
          r.occupation < r.table.length ∧ r.occupation = acc1.occupation ∧
          (∀ key, XS.occFind r key = XS.occFind acc1 key) := by
      intro acc1 hsc1 v6 v7 vfail
      exfalso
      have hthr1 := hsc1.1
      rw [hthr1] at vfail
      omega
    rw [XS.RehashFuel_fold_eq, List.range_eq_range']
    have hstart := XS_RehashFold_strong s m 0 hsuniq Hnest s.table.length 0
      { table := List.replicate m default, count := 0, occupation := 0,
        threshold := 3 * m / 4 }
      (by omega) (XS_SCore_replicate hash hm)
      (by show m ≤ (List.replicate m (default : XS.SEntry)).length
          rw [List.length_replicate])
      (by show (0 : Nat) < (List.replicate m (default : XS.SEntry)).length
          rw [List.length_replicate]
          exact hm)
      (by rw [List.take_zero]; rfl)
      (by
        intro key
        rw [List.take_zero]
        show ((List.replicate m (default : XS.SEntry)).find? _).map _ = _
        rw [List.find?_eq_none.mpr]
        · rfl
        · intro a ha
          rw [List.eq_of_mem_replicate ha]
          simp only [Bool.and_eq_true, decide_eq_true_eq, not_and]
          intro h
          exact absurd h (by decide))
    obtain ⟨r, hr, u1, u2, u3, u4, u5⟩ := hstart
    have htake_all : (0 : Nat) + s.table.length = s.table.length := by omega
    rw [htake_all, List.take_length] at u4 u5
    exact ⟨r, hr, u1, u2, u3, u4, fun key => u5 key⟩
  | succ f ihf =>
    intro s m hm hsuniq hbound
    have Hnest : ∀ acc1 : XS.STable, XS.SCore hash acc1 →
        m ≤ acc1.table.length →
        acc1.occupation ≤ s.table.countP
          (fun e => decide (e.status = XS.STATUS_OCCUPIED)) →
        acc1.threshold ≤ acc1.occupation →
        ∃ r, XS.RehashFuel hash (f + 1) acc1 (acc1.table.length * 2) =
            some r ∧
          XS.SCore hash r ∧ acc1.table.length ≤ r.table.length ∧
          r.occupation < r.table.length ∧ r.occupation = acc1.occupation ∧
          (∀ key, XS.occFind r key = XS.occFind acc1 key) := by
      intro acc1 hsc1 v6 v7 vfail
      have huniq1 := hsc1.2.2.2.2.2.1
      have hocount1 := hsc1.2.2.2.1
      have hb1 : 4 * acc1.table.countP
          (fun e => decide (e.status = XS.STATUS_OCCUPIED)) + 4 ≤
          3 * (acc1.table.length * 2 * 2 ^ f) := by
        have hmul : m * 2 ^ (f + 1) ≤ acc1.table.length * 2 * 2 ^ f := by
          have h2 : m * 2 ≤ acc1.table.length * 2 := by omega
          calc m * 2 ^ (f + 1) = m * 2 * 2 ^ f := by ring
            _ ≤ acc1.table.length * 2 * 2 ^ f :=
              Nat.mul_le_mul_right _ h2
        omega
      obtain ⟨r, hr, u1, u2, u3, u4, u5⟩ :=
        ihf acc1 (acc1.table.length * 2) (by omega) huniq1 hb1
      refine ⟨r, hr, u1, by omega, u3, ?_, u5⟩
      rw [u4, ← hocount1]
    rw [XS.RehashFuel_fold_eq, List.range_eq_range']
    have hstart := XS_RehashFold_strong s m (f + 1) hsuniq Hnest
      s.table.length 0
      { table := List.replicate m default, count := 0, occupation := 0,
        threshold := 3 * m / 4 }
      (by omega) (XS_SCore_replicate hash hm)
      (by show m ≤ (List.replicate m (default : XS.SEntry)).length
          rw [List.length_replicate])
      (by show (0 : Nat) < (List.replicate m (default : XS.SEntry)).length
          rw [List.length_replicate]
          exact hm)
      (by rw [List.take_zero]; rfl)
      (by
        intro key
        rw [List.take_zero]
        show ((List.replicate m (default : XS.SEntry)).find? _).map _ = _
        rw [List.find?_eq_none.mpr]
        · rfl
        · intro a ha
          rw [List.eq_of_mem_replicate ha]
          simp only [Bool.and_eq_true, decide_eq_true_eq, not_and]
          intro h
          exact absurd h (by decide))
    obtain ⟨r, hr, u1, u2, u3, u4, u5⟩ := hstart
    have htake_all : (0 : Nat) + s.table.length = s.table.length := by omega
    rw [htake_all, List.take_length] at u4 u5
    exact ⟨r, hr, u1, u2, u3, u4, fun key => u5 key⟩

/-- Full `Insert` with override from an invariant state: always succeeds
with TRUE, restores the full invariant (rehashing on demand), bumps
Occupation exactly on new keys, and realizes the association-map update. -/
theorem XS_Insert_spec {hash : Nat → Nat} {s : XS.STable}
    (hinv : XS.SInv hash s) (k d : Nat) :
    ∃ s', XS.Insert s hash k d true = some (s', true) ∧
      XS.SInv hash s' ∧
      s'.occupation = s.occupation +
        (if XS.occFind s k = none then 1 else 0) ∧
      (∀ key, XS.occFind s' key =
        if key = k then some d else XS.occFind s key) := by
  obtain ⟨s1, hput, hsc1, hlen1, hthr1, hocc1, hfind1⟩ := XS_XPut_spec hinv k d
  have hins : XS.Insert s hash k d true =
      if s1.occupation < s1.threshold then some (s1, true)
      else (XS.RehashFuel hash (s1.count + 2) s1
        (s1.table.length * 2)).map (fun t => (t, true)) := by
    unfold XS.Insert
    rw [hput]
    exact rfl
  by_cases hlt : s1.occupation < s1.threshold
  · refine ⟨s1, by rw [hins, if_pos hlt], ⟨hsc1, ?_⟩, hocc1, hfind1⟩
    have hthr := hinv.1.1
    have hT := hinv.1.2.1
    rw [hthr1, hthr] at hlt
    rw [hlen1]
    omega
  · have hT1 : 0 < s1.table.length := hsc1.2.1
    have hk : s1.table.countP
        (fun e => decide (e.status = XS.STATUS_OCCUPIED)) ≤
        s1.table.length := List.countP_le_length _
    have hp : 2 ≤ 2 ^ (s1.count + 1) := by
      have h1 : (2 : Nat) ^ 1 ≤ 2 ^ (s1.count + 1) :=
        Nat.pow_le_pow_right (by omega) (by omega)
      simpa using h1
    have hmul : s1.table.length * 2 * 2 ≤
        s1.table.length * 2 * 2 ^ (s1.count + 1) :=
      Nat.mul_le_mul_left _ hp
    have huniq1 := hsc1.2.2.2.2.2.1
    obtain ⟨r, hre, hscr, hmlen, hocclt_r, hoccr, hfindr⟩ :=
      XS_RehashFuel_spec hash (s1.count + 1) s1 (s1.table.length * 2)
        (by omega) huniq1 (by omega)
    have hre' : XS.RehashFuel hash (s1.count + 2) s1
        (s1.table.length * 2) = some r := hre
    refine ⟨r, ?_, ⟨hscr, hocclt_r⟩, ?_, ?_⟩
    · rw [hins, if_neg hlt, hre']
      rfl
    · rw [hoccr, ← hsc1.2.2.2.1]
      exact hocc1
    · intro key
      rw [hfindr key]
      exact hfind1 key

/-- The open-table constructor produces an invariant state. -/
theorem XS_SInv_mk (hash : Nat → Nat) (n : Nat) :
    XS.SInv hash (XS.mkSTable n) := by
  have hpos : 0 < XS.ctorSize n := by
    simp only [XS.ctorSize]
    split
    · omega
    · exact Nat.two_pow_pos _
  refine ⟨XS_SCore_replicate hash hpos, ?_⟩
  show 0 < (List.replicate (XS.ctorSize n) (default : XS.SEntry)).length
  rw [List.length_replicate]
  exact hpos

/-- A freshly constructed open table holds no key. -/
theorem XS_occFind_mk (n key : Nat) :
    XS.occFind (XS.mkSTable n) key = none := by
  show ((List.replicate (XS.ctorSize n) (default : XS.SEntry)).find?
    (fun e => decide (e.status = XS.STATUS_OCCUPIED) &&
      decide (e.key = key))).map (fun e => e.data) = none
  rw [List.find?_eq_none.mpr]
  · rfl
  · intro a ha
    rw [List.eq_of_mem_replicate ha]
    simp only [Bool.and_eq_true, decide_eq_true_eq, not_and]
    intro h
    exact absurd h (by decide)

/-- Running a list of override inserts through the open table from any
invariant state realizing the association list `acc` yields an invariant
state realizing the updated association list, with Occupation equal to
its length. -/
theorem XS_run_spec (hash : Nat → Nat) :
    ∀ (L : List (Nat × Nat)) (s : XS.STable) (acc : List (Nat × Nat)),
      XS.SInv hash s → (∀ key, XS.occFind s key = assocFind acc key) →
      s.occupation = acc.length →
      ∃ s', XS.runInserts hash L s = some s' ∧ XS.SInv hash s' ∧
        (∀ key, XS.occFind s' key =
          assocFind (L.foldl (fun m p => specUpsert m p.1 p.2) acc) key) ∧
        s'.occupation =
          (L.foldl (fun m p => specUpsert m p.1 p.2) acc).length := by
  intro L
  induction L with
  | nil =>
    intro s acc hinv hfind hocc
    exact ⟨s, rfl, hinv, by simpa using hfind, by simpa using hocc⟩
  | cons p L ihL =>
    intro s acc hinv hfind hocc
    obtain ⟨s1, heq1, hinv1, hocc1, hfind1⟩ := XS_Insert_spec hinv p.1 p.2
    have hfind1' : ∀ key, XS.occFind s1 key =
        assocFind (specUpsert acc p.1 p.2) key := by
      intro key
      rw [hfind1 key, assocFind_specUpsert]
      by_cases hkk : key = p.1
      · rw [if_pos hkk, if_pos hkk]
      · rw [if_neg hkk, if_neg hkk, hfind key]
    have hocc1' : s1.occupation = (specUpsert acc p.1 p.2).length := by
      rw [hocc1, hfind p.1, length_specUpsert]
      by_cases hnone : assocFind acc p.1 = none
      · rw [if_pos hnone, if_pos hnone]
        omega
      · rw [if_neg hnone, if_neg hnone]
        omega
    obtain ⟨s', heq', hinv', hfind', hocc'⟩ := ihL s1
      (specUpsert acc p.1 p.2) hinv1 hfind1' hocc1'
    refine ⟨s', ?_, hinv', by rw [List.foldl_cons]; exact hfind',
      by rw [List.foldl_cons]; exact hocc'⟩
    show (p :: L).foldl (fun os q => XS.insertB hash q.1 q.2 true os)
      (some s) = some s'
    rw [List.foldl_cons]
    have hb : XS.insertB hash p.1 p.2 true (some s) = some s1 := by
      unfold XS.insertB
      simp [heq1]
    rw [hb]
    exact heq'

/-- Two open tables of any two initial capacity hints receive the same
inserts and end with the same Size and the same Find results. -/
theorem XS_run_equiv (hash : Nat → Nat) (L : List (Nat × Nat)) (a b : Nat) :
    ∃ sa sb, XS.runInserts hash L (XS.mkSTable a) = some sa ∧
      XS.runInserts hash L (XS.mkSTable b) = some sb ∧
      XS.Size sa = XS.Size sb ∧
      ∀ key, XS.FindData sa hash key = XS.FindData sb hash key := by
  obtain ⟨sa, heqa, hinva, hfinda, hocca⟩ := XS_run_spec hash L
    (XS.mkSTable a) [] (XS_SInv_mk hash a)
    (fun key => XS_occFind_mk a key) rfl
  obtain ⟨sb, heqb, hinvb, hfindb, hoccb⟩ := XS_run_spec hash L
    (XS.mkSTable b) [] (XS_SInv_mk hash b)
    (fun key => XS_occFind_mk b key) rfl
  refine ⟨sa, sb, heqa, heqb, ?_, ?_⟩
  · show sa.count = sb.count
    rw [hinva.1.2.2.1, hinvb.1.2.2.1, hocca, hoccb]
  · intro key
    rw [XS_FindData_eq_occFind hinva key, XS_FindData_eq_occFind hinvb key,
      hfinda key, hfindb key]

/-- C6: inserting any list of key/value pairs in order yields the same
final mapping (same Size, same Find result for every key) regardless of
the initial capacity hint — in particular, a hint small enough to force
two or more rehashes versus a hint large enough to avoid them — for both
the chained table and the open-addressing table. -/
theorem C6_insert_equivalence (hash : Nat → Nat) (L : List (Nat × Nat))
    (a b : Nat) :
    (∃ ca cb, XC.runInserts hash L (XC.mkCTable a) = some ca ∧
      XC.runInserts hash L (XC.mkCTable b) = some cb ∧
      XC.Size ca = XC.Size cb ∧
      ∀ key, XC.FindData ca hash key = XC.FindData cb hash key) ∧
    (∃ sa sb, XS.runInserts hash L (XS.mkSTable a) = some sa ∧
      XS.runInserts hash L (XS.mkSTable b) = some sb ∧
      XS.Size sa = XS.Size sb ∧
      ∀ key, XS.FindData sa hash key = XS.FindData sb hash key) :=
  ⟨XC_run_equiv hash L a b, XS_run_equiv hash L a b⟩

section SizeEvolution

/-- `Insert` leaves the slot count alone or doubles it through (possibly
nested) rehashes. -/
theorem XS_Insert_length {s : XS.STable} {hash : Nat → Nat} {k d : Nat}
    {ovr : Bool} {s' : XS.STable} {r : Bool}
    (h : XS.Insert s hash k d ovr = some (s', r)) :
    ∃ t, s'.table.length = s.table.length * 2 ^ t := by
  unfold XS.Insert at h
  split at h
  · exact absurd h (by simp)
  · rename_i p s1 r1 hx
    have hlen1 : s1.table.length = s.table.length := XS.XPut_length hx
    split at h
    · split at h
      · have hs' : _ = s' := congrArg Prod.fst (Option.some_inj.mp h)
        refine ⟨0, ?_⟩
        rw [← hs']
        show s1.table.length = s.table.length * 2 ^ 0
        rw [hlen1]
        omega
      · cases hre : XS.RehashFuel hash (s1.count + 2) s1
            (s1.table.length * 2) with
        | none =>
          rw [hre] at h
          exact absurd h (by simp)
        | some r2 =>
          rw [hre] at h
          have hs' : _ = s' := congrArg Prod.fst (Option.some_inj.mp h)
          obtain ⟨v, hv⟩ := XS_RehashFuel_length hash (s1.count + 2) s1
            (s1.table.length * 2) r2 hre
          refine ⟨v + 1, ?_⟩
          rw [← hs']
          show r2.table.length = s.table.length * 2 ^ (v + 1)
          rw [hv, hlen1]
          ring
    · have hs' : _ = s' := congrArg Prod.fst (Option.some_inj.mp h)
      refine ⟨0, ?_⟩
      rw [← hs']
      show s1.table.length = s.table.length * 2 ^ 0
      rw [hlen1]
      omega

/-- `InsertUnique`'s rehash-and-retry recursion likewise only doubles. -/
theorem XS_InsertUniqueFuel_length {hash : Nat → Nat} {k d : Nat} :
    ∀ (fuel : Nat) (s s' : XS.STable),
      XS.InsertUniqueFuel hash k d fuel s = some s' →
      ∃ t, s'.table.length = s.table.length * 2 ^ t := by
  intro fuel
  induction fuel with
  | zero =>
    intro s s' h
    exact absurd h (by simp [XS.InsertUniqueFuel])
  | succ f ihf =>
    intro s s' h
    unfold XS.InsertUniqueFuel at h
    split at h
    · exact absurd h (by simp)
    · rename_i idx hfp
      dsimp only [] at h
      split at h
      · have hs' : s = s' := Option.some_inj.mp h
        exact ⟨0, by rw [← hs']; omega⟩
      · have htail : ∀ R : XS.STable, R.table = s.table →
            ((if R.threshold ≤ R.count then
                (XS.RehashFuel hash (R.count + 2) R
                  (R.table.length * 2)).bind (XS.InsertUniqueFuel hash k d f)
              else some { R with table := (R.table.set idx
                ⟨k, d, XS.STATUS_OCCUPIED⟩) }) = some s') →
            ∃ t, s'.table.length = s.table.length * 2 ^ t := by
          intro R hR hh
          split at hh
          · cases hre : XS.RehashFuel hash (R.count + 2) R
                (R.table.length * 2) with
            | none =>
              rw [hre] at hh
              exact absurd hh (by simp)
            | some r2 =>
              rw [hre] at hh
              have h2 : XS.InsertUniqueFuel hash k d f r2 = some s' := hh
              obtain ⟨w, hw⟩ := ihf r2 s' h2
              obtain ⟨v, hv⟩ := XS_RehashFuel_length hash (R.count + 2) R
                (R.table.length * 2) r2 hre
              refine ⟨v + 1 + w, ?_⟩
              rw [hw, hv, hR]
              ring
          · have hs' : _ = s' := Option.some_inj.mp hh
            refine ⟨0, ?_⟩
            rw [← hs']
            show (R.table.set idx ⟨k, d, XS.STATUS_OCCUPIED⟩).length =
              s.table.length * 2 ^ 0
            rw [List.length_set, hR]
            omega
        split at h
        · exact htail ({ s with count := s.count + 1, occupation := s.occupation + 1 } : XS.STable) rfl h
        · exact htail ({ s with count := s.count + 1 } : XS.STable) rfl h

theorem XS_InsertUnique_length {s : XS.STable} {hash : Nat → Nat}
    {k d : Nat} {s' : XS.STable}
    (h : XS.InsertUnique s hash k d = some s') :
    ∃ t, s'.table.length = s.table.length * 2 ^ t :=
  XS_InsertUniqueFuel_length (s.count + 2) s s' h

/-- `Remove` never resizes the open table. -/
theorem XS_Remove_length {s : XS.STable} {hash : Nat → Nat} {k : Nat}
    {s' : XS.STable} (h : XS.Remove s hash k = some s') :
    s'.table.length = s.table.length := by
  unfold XS.Remove at h
  split at h
  · exact absurd h (by simp)
  · rename_i idx hfp
    dsimp only [] at h
    split at h
    · have hs' : _ = s' := Option.some_inj.mp h
      rw [← hs']
      show (s.table.set idx _).length = s.table.length
      rw [List.length_set]
    · have hs' : s = s' := Option.some_inj.mp h
      rw [← hs']

/-- `Clear` never resizes the open table. -/
theorem XS_Clear_length (s : XS.STable) :
    (XS.Clear s).table.length = s.table.length := by
  show (s.table.map _).length = s.table.length
  rw [List.length_map]

/-- The tail of `operator[]` after its probe: keep the size or defer to
the rehash, which multiplies it by powers of two. -/
theorem XS_opIndex_tail_length {hash : Nat → Nat} {k : Nat}
    {s1 s' : XS.STable} {idx i : Nat}
    (h : (if s1.occupation < s1.threshold then some (s1, idx)
          else
            match XS.RehashFuel hash (s1.count + 2) s1
                (s1.table.length * 2) with
            | none => none
            | some s2 =>
              match XS.XFindPos s2 hash k with
              | none => none
              | some index2 => some (s2, index2)) = some (s', i)) :
    ∃ t, s'.table.length = s1.table.length * 2 ^ t := by
  split at h
  · have hs' : _ = s' := congrArg Prod.fst (Option.some_inj.mp h)
    refine ⟨0, ?_⟩
    rw [← hs']
    show s1.table.length = s1.table.length * 2 ^ 0
    omega
  · split at h
    · exact absurd h (by simp)
    · rename_i s2 hre
      split at h
      · exact absurd h (by simp)
      · have hs' : _ = s' := congrArg Prod.fst (Option.some_inj.mp h)
        obtain ⟨v, hv⟩ := XS_RehashFuel_length hash (s1.count + 2) s1
          (s1.table.length * 2) s2 hre
        refine ⟨v + 1, ?_⟩
        rw [← hs']
        show s2.table.length = s1.table.length * 2 ^ (v + 1)
        rw [hv]
        ring

/-- `operator[]` leaves the slot count alone or doubles it through
rehashes. -/
theorem XS_OpIndex_length {s : XS.STable} {hash : Nat → Nat} {k : Nat}
    {s' : XS.STable} {i : Nat}
    (h : XS.OpIndex s hash k = some (s', i)) :
    ∃ t, s'.table.length = s.table.length * 2 ^ t := by
  unfold XS.OpIndex at h
  split at h
  · exact absurd h (by simp)
  · rename_i idx hfp
    dsimp only [] at h
    obtain ⟨t, ht⟩ := XS_opIndex_tail_length h
    refine ⟨t, ?_⟩
    rw [ht]
    congr 1
    split
    · rfl
    · show ((if (s.table.getD idx default).status ≠ XS.STATUS_DELETED then
          ({ s with count := s.count + 1, occupation := s.occupation + 1 } : XS.STable)
        else { s with count := s.count + 1 }).table.set idx _).length =
        s.table.length
      have htb : (if (s.table.getD idx default).status ≠
          XS.STATUS_DELETED then
            ({ s with count := s.count + 1, occupation := s.occupation + 1 } : XS.STable)
          else { s with count := s.count + 1 }).table = s.table := by
        split
        · rfl
        · rfl
      rw [htb, List.length_set]

/-- `RematEntry` only retargets links: the bucket array's length is
untouched. -/
theorem RematEntry_table_length (c : XC.CTable) (hash : Nat → Nat)
    (iOld iNew : Nat) :
    (XC.RematEntry c hash iOld iNew).table.length = c.table.length := by
  rw [RematEntry_eq]
  split
  · rfl
  · split
    · show (c.table.set _ _).length = c.table.length
      rw [List.length_set]
    · rfl

/-- The compaction tail of `Remove` only rewrites pool entries and single
bucket heads: the bucket array's length is untouched. -/
theorem RemoveTail_table_length (c1 : XC.CTable) (hash : Nat → Nat)
    (i : Nat) :
    (XC.RemoveTail c1 hash i).table.length = c1.table.length := by
  unfold XC.RemoveTail
  dsimp only []
  split
  · split
    · rw [RematEntry_table_length]
    · rfl
  · split
    · rw [RematEntry_table_length]
    · rfl

/-- `Remove` never resizes the chained table's bucket array. -/
theorem XC_Remove_table_length (c : XC.CTable) (hash : Nat → Nat)
    (k : Nat) :
    (XC.Remove c hash k).table.length = c.table.length := by
  cases hw : XC.RemoveWalk c.pool k c.pool.length
      (c.table.getD (XC.IndexK c hash k) none) none with
  | none =>
    have hc : XC.Remove c hash k = c := by
      unfold XC.Remove
      dsimp only []
      rw [hw]
    rw [hc]
  | some p =>
    obtain ⟨i, old⟩ := p
    rw [Remove_eq_tail hw, RemoveTail_table_length]
    cases old with
    | some q => rfl
    | none =>
      show (c.table.set (XC.IndexK c hash k) _).length = c.table.length
      rw [List.length_set]

/-- `Clear` never resizes the chained table's bucket array. -/
theorem XC_Clear_table_length (c : XC.CTable) :
    (XC.Clear c).table.length = c.table.length := by
  show (List.replicate c.table.length (none : Option Nat)).length =
    c.table.length
  rw [List.length_replicate]

/-- Chained `Insert` (with its rehash-and-retry recursion) leaves the
bucket count alone or doubles it repeatedly. -/
theorem XC_InsertFuel_length (hash : Nat → Nat) (k o : Nat) (ovr : Bool) :
    ∀ (fuel : Nat) (c c' : XC.CTable) (r : Bool),
      XC.InsertFuel hash k o ovr fuel c = some (c', r) →
      ∃ t, c'.table.length = c.table.length * 2 ^ t := by
  intro fuel
  induction fuel with
  | zero =>
    intro c c' r h
    exact absurd h (by simp [XC.InsertFuel])
  | succ f ihf =>
    intro c c' r h
    rw [XC.InsertFuel] at h
    split at h
    · split at h
      · have hc' : _ = c' := congrArg Prod.fst (Option.some_inj.mp h)
        refine ⟨0, ?_⟩
        rw [← hc']
        show c.table.length = c.table.length * 2 ^ 0
        omega
      · have hc' : _ = c' := congrArg Prod.fst (Option.some_inj.mp h)
        refine ⟨0, ?_⟩
        rw [← hc']
        show c.table.length = c.table.length * 2 ^ 0
        omega
    · split at h
      · obtain ⟨w, hw⟩ := ihf (XC.Rehash c hash (c.table.length * 2)) c' r h
        refine ⟨w + 1, ?_⟩
        rw [hw, Rehash_table_length]
        ring
      · have hc' : _ = c' := congrArg Prod.fst (Option.some_inj.mp h)
        refine ⟨0, ?_⟩
        rw [← hc']
        show (c.table.set (XC.IndexK c hash k) (some c.pool.length)).length =
          c.table.length * 2 ^ 0
        rw [List.length_set]
        omega

theorem XC_Insert_length {c : XC.CTable} {hash : Nat → Nat} {k o : Nat}
    {ovr : Bool} {c' : XC.CTable} {r : Bool}
    (h : XC.Insert c hash k o ovr = some (c', r)) :
    ∃ t, c'.table.length = c.table.length * 2 ^ t :=
  XC_InsertFuel_length hash k o ovr (c.pool.length + 2) c c' r h

end SizeEvolution

/-- C4 (amended): the chained `XHashTable` constructor produces the
smallest power of two ≥ the hint, never less than 4 (with `Near2Power`
modelled from the spec), exactly as the claim states; the open-addressing
`XSHashTable` constructor instead produces the *largest* power of two
≤ the hint (1 for hint 0), which can be smaller than both the hint and 4.
Across operations the sizes then stay powers of two, because all the
mutators either keep the bucket/slot count (`Remove`, `Clear`, the
non-rehashing insert paths) or multiply it by `2 ^ t` (each rehash
doubles): in particular both `Insert`s map power-of-two sizes to
power-of-two sizes. -/
theorem C4_ctor_sizes (n : Nat) :
    (((∃ j, XC.ctorSize n = 2 ^ j) ∧ 4 ≤ XC.ctorSize n ∧ n ≤ XC.ctorSize n ∧
      (∀ j, 4 ≤ 2 ^ j → n ≤ 2 ^ j → XC.ctorSize n ≤ 2 ^ j) ∧
      (XC.mkCTable n).table.length = XC.ctorSize n) ∧
    ((∃ k, XS.ctorSize n = 2 ^ k) ∧ (1 ≤ n → XS.ctorSize n ≤ n) ∧
      (∀ j, 2 ^ j ≤ n → 2 ^ j ≤ XS.ctorSize n) ∧ XS.ctorSize 0 = 1 ∧
      (XS.mkSTable n).table.length = XS.ctorSize n)) ∧
    ((∀ (hash : Nat → Nat) (s : XS.STable) (k d : Nat) (ovr : Bool)
        (s' : XS.STable) (r : Bool), XS.Insert s hash k d ovr = some (s', r) →
        ∃ t, s'.table.length = s.table.length * 2 ^ t) ∧
      (∀ (hash : Nat → Nat) (s : XS.STable) (k d : Nat) (s' : XS.STable),
        XS.InsertUnique s hash k d = some s' →
        ∃ t, s'.table.length = s.table.length * 2 ^ t) ∧
      (∀ (hash : Nat → Nat) (s : XS.STable) (k : Nat) (s' : XS.STable),
        XS.Remove s hash k = some s' →
        s'.table.length = s.table.length) ∧
      (∀ s : XS.STable, (XS.Clear s).table.length = s.table.length) ∧
      (∀ (hash : Nat → Nat) (s : XS.STable) (k : Nat) (s' : XS.STable)
        (i : Nat), XS.OpIndex s hash k = some (s', i) →
        ∃ t, s'.table.length = s.table.length * 2 ^ t) ∧
      (∀ (hash : Nat → Nat) (c : XC.CTable) (k o : Nat) (ovr : Bool)
        (c' : XC.CTable) (r : Bool), XC.Insert c hash k o ovr = some (c', r) →
        ∃ t, c'.table.length = c.table.length * 2 ^ t) ∧
      (∀ (hash : Nat → Nat) (c : XC.CTable) (k : Nat),
        (XC.Remove c hash k).table.length = c.table.length) ∧
      (∀ c : XC.CTable, (XC.Clear c).table.length = c.table.length) ∧
      (∀ (hash : Nat → Nat) (s : XS.STable) (k d : Nat) (ovr : Bool)
        (s' : XS.STable) (r : Bool) (j : Nat),
        XS.Insert s hash k d ovr = some (s', r) →
        s.table.length = 2 ^ j → ∃ j2, s'.table.length = 2 ^ j2) ∧
      (∀ (hash : Nat → Nat) (c : XC.CTable) (k o : Nat) (ovr : Bool)
        (c' : XC.CTable) (r : Bool) (j : Nat),
        XC.Insert c hash k o ovr = some (c', r) →
        c.table.length = 2 ^ j → ∃ j2, c'.table.length = 2 ^ j2)) := by
  refine ⟨ctor_sizes_core n, ?_, ?_, ?_, ?_, ?_, ?_, ?_, ?_, ?_, ?_⟩
  · intro hash s k d ovr s' r h
    exact XS_Insert_length h
  · intro hash s k d s' h
    exact XS_InsertUnique_length h
  · intro hash s k s' h
    exact XS_Remove_length h
  · intro s
    exact XS_Clear_length s
  · intro hash s k s' i h
    exact XS_OpIndex_length h
  · intro hash c k o ovr c' r h
    exact XC_Insert_length h
  · intro hash c k
    exact XC_Remove_table_length c hash k
  · intro c
    exact XC_Clear_table_length c
  · intro hash s k d ovr s' r j h hj
    obtain ⟨t, ht⟩ := XS_Insert_length h
    exact ⟨j + t, by rw [ht, hj, pow_add]⟩
  · intro hash c k o ovr c' r j h hj
    obtain ⟨t, ht⟩ := XC_Insert_length h
    exact ⟨j + t, by rw [ht, hj, pow_add]⟩

/-- Witness for C4's amended theorem at the concrete hint 5. -/
theorem C4_ctor_sizes_witness :
    ((∃ j, XC.ctorSize 5 = 2 ^ j) ∧ 4 ≤ XC.ctorSize 5 ∧ 5 ≤ XC.ctorSize 5 ∧
      (∀ j, 4 ≤ 2 ^ j → 5 ≤ 2 ^ j → XC.ctorSize 5 ≤ 2 ^ j) ∧
      (XC.mkCTable 5).table.length = XC.ctorSize 5) ∧
    ((∃ k, XS.ctorSize 5 = 2 ^ k) ∧ (1 ≤ 5 → XS.ctorSize 5 ≤ 5) ∧
      (∀ j, 2 ^ j ≤ 5 → 2 ^ j ≤ XS.ctorSize 5) ∧ XS.ctorSize 0 = 1 ∧
      (XS.mkSTable 5).table.length = XS.ctorSize 5) :=
  (C4_ctor_sizes 5).1

end InsertEquivalence

end VT
